import Mathlib

/- Verification of the texture subresource usage tracker (src/track/texture.rs):
   a shallow embedding of `TextureStates` with its `query`, `change` and `merge`
   operations, together with theorems about them.  The generic range-keyed
   state map (`RangedStates`), the `Unit` state cell and the `Stitch` policy
   live outside the given sources, so they are modelled from the spec where
   indicated. -/

/-- Usage bit masks (`TextureUsage`) are OR-composable flag sets; we embed them
as natural numbers with bitwise operations. -/
abbrev Usage := Nat

/-- Layer index ranges `start .. end`, embedded as pairs of naturals. -/
abbrev LayerRange := Nat × Nat

/-- Modelled from the spec: the write-usage class subset of the usage flags
(`TextureUsage::WRITE_ALL`); its concrete bit assignment is defined outside the
given sources, so we fix a representative mask. -/
def WRITE_ALL : Usage := 26

/-- Modelled from the spec: the per-subresource state cell `Unit<TextureUsage>`
pairing the first-seen usage with the most recent one. -/
structure TUnit where
  init : Usage
  last : Usage
deriving DecidableEq, Repr

/-- Modelled from the spec: `Unit::new(usage)` starts a slice's history with
`init = last = usage`. -/
def TUnit.new (u : Usage) : TUnit := ⟨u, u⟩

/-- Modelled from the spec: the stitch policy choosing which side of the other
tracker's history is adopted when merging. -/
inductive Stitch where
  | Init
  | Last
deriving DecidableEq, Repr

/-- Modelled from the spec: `Unit::select(stitch)` picks `init` or `last`. -/
def TUnit.select (x : TUnit) (s : Stitch) : Usage :=
  match s with
  | .Init => x.init
  | .Last => x.last

/-- `DepthStencilState`: two independent usage histories sharing one layer
range key (src/track/texture.rs lines 17-21). -/
structure DepthStencilState where
  depth : TUnit
  stencil : TUnit
deriving DecidableEq, Repr

/-- `PlaneStates<T>`: a range-keyed state map from layer ranges to values,
embedded as an ordered association list (src/track/texture.rs line 14). -/
abbrev PlaneStates (T : Type) := List (LayerRange × T)

/-- The aspect set of a subresource selector (`hal::format::Aspects`). -/
structure Aspects where
  color : Bool
  depth : Bool
  stencil : Bool
deriving DecidableEq, Repr

/-- `hal::image::SubresourceRange`: aspects plus mip-level and layer ranges. -/
structure SubresourceRange where
  aspects : Aspects
  levels : Nat × Nat
  layers : Nat × Nat
deriving DecidableEq, Repr

/-- `TextureStates` (src/track/texture.rs lines 23-27): one layer-range map per
color mip level plus a single shared depth/stencil layer-range map. -/
structure TextureStates where
  color_mips : List (PlaneStates TUnit)
  depth_stencil : PlaneStates DepthStencilState
deriving DecidableEq, Repr

/-- `PendingTransition<TextureStates>`: one required barrier, with the resource
id, the exact slice selector and the `old .. new` usage range. -/
structure PendingTransition where
  id : Nat
  selector : SubresourceRange
  usage : Usage × Usage
deriving DecidableEq, Repr

/-- Modelled from the spec: the splitting half of `RangedStates::isolate` —
every entry strictly containing the point `p` is split at `p`, both pieces
keeping the entry's value. -/
def splitAt {T : Type} (p : Nat) : PlaneStates T → PlaneStates T
  | [] => []
  | (r, v) :: rest =>
    if r.1 < p ∧ p < r.2 then ((r.1, p), v) :: ((p, r.2), v) :: splitAt p rest
    else (r, v) :: splitAt p rest

/-- Modelled from the spec: the gap-filling half of `RangedStates::isolate` —
walking the entries with a cursor starting at the query range's start, every
uncovered sub-range of the query range receives a `default`-valued entry. -/
def fillGaps {T : Type} (d : T) (re : Nat) : Nat → PlaneStates T → PlaneStates T
  | cur, [] => if cur < re then [((cur, re), d)] else []
  | cur, (r, v) :: rest =>
    if r.2 ≤ cur then (r, v) :: fillGaps d re cur rest
    else if re ≤ r.1 then
      if cur < re then ((cur, re), d) :: (r, v) :: rest else (r, v) :: rest
    else
      if cur < r.1 then ((cur, r.1), d) :: (r, v) :: fillGaps d re r.2 rest
      else (r, v) :: fillGaps d re r.2 rest

/-- Modelled from the spec: `RangedStates::isolate(range, default)` aligns the
map's boundaries with the query range (splitting overlapping entries) and fills
uncovered gaps of the query range with the default value; the entries lying
inside the query range are then exactly the isolated ones. -/
def isolate {T : Type} (m : PlaneStates T) (layers : Nat × Nat) (d : T) : PlaneStates T :=
  fillGaps d layers.2 layers.1 (splitAt layers.2 (splitAt layers.1 m))

/-- Sorted duplicate-free insertion of a boundary point. -/
def insertPt (x : Nat) : List Nat → List Nat
  | [] => [x]
  | y :: ys => if x < y then x :: y :: ys else if x = y then y :: ys else y :: insertPt x ys

/-- All boundary points of two range-keyed maps, sorted and duplicate-free. -/
def boundaryPts {A B : Type} (a : PlaneStates A) (b : PlaneStates B) : List Nat :=
  (a.map (·.1.1) ++ a.map (·.1.2) ++ b.map (·.1.1) ++ b.map (·.1.2)).foldr insertPt []

/-- The value a range-keyed map holds at layer index `x` (first matching
entry), or `none` when `x` is untracked. -/
def coveredAt {T : Type} (m : PlaneStates T) (x : Nat) : Option T :=
  (m.find? (fun e => decide (e.1.1 ≤ x ∧ x < e.1.2))).map (·.2)

/-- Modelled from the spec: `RangedStates::merge(other, 0)` — for every maximal
constant sub-range of the union of both maps' covered ranges, the pair of this
map's value and the other map's value there, sides untracked in one map
defaulting to `d`. -/
def rsMerge {T : Type} (a b : PlaneStates T) (d : T) : List (LayerRange × (T × T)) :=
  let pts := boundaryPts a b
  (pts.zip pts.tail).filterMap (fun pq =>
    match coveredAt a pq.1, coveredAt b pq.1 with
    | none, none => none
    | sa, sb => some ((pq.1, pq.2), (sa.getD d, sb.getD d)))

/-- One aspect's worth of the per-entry body of `change`
(src/track/texture.rs lines 97-122 for color, 137-184 for depth/stencil):
skip when the entry already holds the target usage or the aspect is not
selected; with a sink, push the transition and adopt the target; without a
sink, fail on a write-class conflict with prior usage, else accumulate the
union. Returns the new `last` value and the pushed transitions. -/
def aspectStep (id level : Nat) (rng : LayerRange) (asp : Aspects) (selected : Bool)
    (old usage : Usage) (hasOut : Bool) :
    Except PendingTransition (Usage × List PendingTransition) :=
  if old ≠ usage ∧ selected = true then
    let p : PendingTransition := ⟨id, ⟨asp, (level, level + 1), rng⟩, (old, usage)⟩
    if hasOut then .ok (usage, [p])
    else if old ≠ 0 ∧ WRITE_ALL &&& (old ||| usage) ≠ 0 then .error p
    else .ok (old ||| usage, [])
  else .ok (old, [])

/-- The per-entry color loop of `change` (src/track/texture.rs lines 97-123)
over an isolated plane: entries inside the selector's layer range are
processed; on an error the failing entry and its successors are left as they
were and processing stops. -/
def procColor (id level : Nat) (layers : Nat × Nat) (usage : Usage) (hasOut : Bool) :
    PlaneStates TUnit → PlaneStates TUnit × List PendingTransition × Option PendingTransition
  | [] => ([], [], none)
  | (rng, u) :: rest =>
    if layers.1 ≤ rng.1 ∧ rng.2 ≤ layers.2 then
      match aspectStep id level rng ⟨true, false, false⟩ true u.last usage hasOut with
      | .error p => ((rng, u) :: rest, [], some p)
      | .ok lp =>
        let r := procColor id level layers usage hasOut rest
        ((rng, ⟨u.init, lp.1⟩) :: r.1, lp.2 ++ r.2.1, r.2.2)
    else
      let r := procColor id level layers usage hasOut rest
      ((rng, u) :: r.1, r.2.1, r.2.2)

/-- The per-entry depth/stencil loop of `change` (src/track/texture.rs lines
132-185): within each entry the depth sub-unit is processed first, then the
stencil sub-unit; an error in the depth step leaves the whole entry unchanged,
an error in the stencil step keeps the already-updated depth sub-unit. -/
def procDS (id level : Nat) (layers : Nat × Nat) (usage : Usage) (aspD aspS hasOut : Bool) :
    PlaneStates DepthStencilState →
      PlaneStates DepthStencilState × List PendingTransition × Option PendingTransition
  | [] => ([], [], none)
  | (rng, ds) :: rest =>
    if layers.1 ≤ rng.1 ∧ rng.2 ≤ layers.2 then
      match aspectStep id level rng ⟨false, true, false⟩ aspD ds.depth.last usage hasOut with
      | .error p => ((rng, ds) :: rest, [], some p)
      | .ok dp =>
        match aspectStep id level rng ⟨false, false, true⟩ aspS ds.stencil.last usage hasOut with
        | .error p => ((rng, ⟨⟨ds.depth.init, dp.1⟩, ds.stencil⟩) :: rest, dp.2, some p)
        | .ok sp =>
          let r := procDS id level layers usage aspD aspS hasOut rest
          ((rng, ⟨⟨ds.depth.init, dp.1⟩, ⟨ds.stencil.init, sp.1⟩⟩) :: r.1,
            dp.2 ++ sp.2 ++ r.2.1, r.2.2)
    else
      let r := procDS id level layers usage aspD aspS hasOut rest
      ((rng, ds) :: r.1, r.2.1, r.2.2)

/-- The list of mip levels `selector.levels` iterates over. -/
def levelsList (levels : Nat × Nat) : List Nat := List.range' levels.1 (levels.2 - levels.1)

/-- The color half of `change` (src/track/texture.rs lines 89-125): per
selected level, isolate the selector's layer range in that level's plane with a
fresh `Unit::new(usage)` default, process the entries, and stop at the first
error. -/
def colorLevels (id : Nat) (layers : Nat × Nat) (usage : Usage) (hasOut : Bool) :
    List Nat → List (PlaneStates TUnit) →
      List (PlaneStates TUnit) × List PendingTransition × Option PendingTransition
  | [], mips => (mips, [], none)
  | level :: ls, mips =>
    let iso := isolate (mips.getD level []) layers (TUnit.new usage)
    let r := procColor id level layers usage hasOut iso
    let mips' := mips.set level r.1
    match r.2.2 with
    | some e => (mips', r.2.1, some e)
    | none =>
      let r2 := colorLevels id layers usage hasOut ls mips'
      (r2.1, r.2.1 ++ r2.2.1, r2.2.2)

/-- The depth/stencil half of `change` (src/track/texture.rs lines 126-187):
note that the source iterates the same shared depth/stencil map once per mip
level in `selector.levels`, isolating with a fresh default whose depth and
stencil cells both start at the target usage. -/
def dsLevels (id : Nat) (layers : Nat × Nat) (usage : Usage) (aspD aspS hasOut : Bool) :
    List Nat → PlaneStates DepthStencilState →
      PlaneStates DepthStencilState × List PendingTransition × Option PendingTransition
  | [], m => (m, [], none)
  | level :: ls, m =>
    let iso := isolate m layers ⟨TUnit.new usage, TUnit.new usage⟩
    let r := procDS id level layers usage aspD aspS hasOut iso
    match r.2.2 with
    | some e => (r.1, r.2.1, some e)
    | none =>
      let r2 := dsLevels id layers usage aspD aspS hasOut ls r.1
      (r2.1, r.2.1 ++ r2.2.1, r2.2.2)

/-- Growing the color mip list with empty planes up to `n` entries
(src/track/texture.rs lines 90-92); the hardware capacity bound is modelled
separately in `changeChecked`. -/
def growCM (mips : List (PlaneStates TUnit)) (n : Nat) : List (PlaneStates TUnit) :=
  mips ++ List.replicate (n - mips.length) []

/-- The observable outcome of a `change` call: the mutated tracker (also on
the error path, where updates made before the failure remain), the transitions
pushed to the sink, and the error payload of an early return. -/
structure ChangeResult where
  state : TextureStates
  out : List PendingTransition
  err : Option PendingTransition
deriving DecidableEq, Repr

/-- `ResourceState::change` for `TextureStates` (src/track/texture.rs lines
82-189).  `hasOut` models whether the optional output sink is supplied. -/
def change (s : TextureStates) (id : Nat) (sel : SubresourceRange) (usage : Usage)
    (hasOut : Bool) : ChangeResult :=
  let cres :=
    if sel.aspects.color then
      colorLevels id sel.layers usage hasOut (levelsList sel.levels)
        (growCM s.color_mips sel.levels.2)
    else (s.color_mips, [], none)
  match cres.2.2 with
  | some e => ⟨⟨cres.1, s.depth_stencil⟩, cres.2.1, some e⟩
  | none =>
    if sel.aspects.depth ∨ sel.aspects.stencil then
      let dres := dsLevels id sel.layers usage sel.aspects.depth sel.aspects.stencil hasOut
        (levelsList sel.levels) s.depth_stencil
      ⟨⟨cres.1, dres.1⟩, cres.2.1 ++ dres.2.1, dres.2.2⟩
    else ⟨⟨cres.1, s.depth_stencil⟩, cres.2.1, none⟩

/-- Modelled from the spec: the hardware mip-level limit `MAX_MIP_LEVELS`
(defined outside the given sources); a representative concrete value. -/
def MAX_MIP_LEVELS : Nat := 16

/-- Modelled from the spec: growing the bounded mip collection fails fast
(`ArrayVec::push` aborts) when the requested level count exceeds the hardware
limit while growth is actually needed; it never silently truncates. -/
def growChecked (mips : List (PlaneStates TUnit)) (n : Nat) :
    Option (List (PlaneStates TUnit)) :=
  if mips.length < n ∧ MAX_MIP_LEVELS < n then none else some (growCM mips n)

/-- `change` together with the fail-fast capacity precondition on the color
mip growth: `none` models the abort-class failure. -/
def changeChecked (s : TextureStates) (id : Nat) (sel : SubresourceRange) (usage : Usage)
    (hasOut : Bool) : Option ChangeResult :=
  if sel.aspects.color then
    match growChecked s.color_mips sel.levels.2 with
    | none => none
    | some _ => some (change s id sel usage hasOut)
  else some (change s id sel usage hasOut)

/-- The `usage.replace(v)` / compare step of `query` (src/track/texture.rs
lines 53-56 and 65-75): `none` models the early `return None` on seeing a
second distinct usage value. -/
def replaceCheck (u : Option Usage) (v : Usage) : Option (Option Usage) :=
  if u.isSome ∧ u ≠ some v then none else some (some v)

/-- The inner color loop of `query` over one mip plane (src/track/texture.rs
lines 51-58). -/
def queryPlane (layers : Nat × Nat) :
    PlaneStates TUnit → Option Usage → Option (Option Usage)
  | [], u => some u
  | (rng, t) :: rest, u =>
    if layers.1 < rng.2 ∧ rng.1 < layers.2 then
      match replaceCheck u t.last with
      | none => none
      | some u1 => queryPlane layers rest u1
    else queryPlane layers rest u

/-- The outer color loop of `query` over the selected mip planes
(src/track/texture.rs lines 50-59). -/
def queryColor (layers : Nat × Nat) :
    List (PlaneStates TUnit) → Option Usage → Option (Option Usage)
  | [], u => some u
  | plane :: ps, u =>
    match queryPlane layers plane u with
    | none => none
    | some u1 => queryColor layers ps u1

/-- The depth/stencil loop of `query` (src/track/texture.rs lines 61-78):
for each overlapping entry, the depth cell is compared when the Depth aspect is
selected, then the stencil cell when the Stencil aspect is selected. -/
def queryDS (layers : Nat × Nat) (aspD aspS : Bool) :
    PlaneStates DepthStencilState → Option Usage → Option (Option Usage)
  | [], u => some u
  | (rng, ds) :: rest, u =>
    if layers.1 < rng.2 ∧ rng.1 < layers.2 then
      match (if aspD then replaceCheck u ds.depth.last else some u) with
      | none => none
      | some u1 =>
        match (if aspS then replaceCheck u1 ds.stencil.last else some u1) with
        | none => none
        | some u2 => queryDS layers aspD aspS rest u2
    else queryDS layers aspD aspS rest u

/-- `ResourceState::query` for `TextureStates` (src/track/texture.rs lines
41-80). -/
def query (s : TextureStates) (sel : SubresourceRange) : Option Usage :=
  let cpart : Option (Option Usage) :=
    if sel.aspects.color then
      let n := s.color_mips.length
      queryColor sel.layers
        ((s.color_mips.drop (min n sel.levels.1)).take (min n sel.levels.2 - min n sel.levels.1))
        none
    else some none
  match cpart with
  | none => none
  | some u1 =>
    if sel.aspects.depth ∨ sel.aspects.stencil then
      match queryDS sel.layers sel.aspects.depth sel.aspects.stencil s.depth_stencil u1 with
      | none => none
      | some u => u
    else u1

/-- Zero-initialized `Unit`, the default synthesized for sides untracked in
one map during a merge. -/
def unitDefault : TUnit := ⟨0, 0⟩

/-- Modelled from the spec: the zero/empty default `DepthStencilState` for
sides untracked in one map during a merge. -/
def dsDefault : DepthStencilState := ⟨⟨0, 0⟩, ⟨0, 0⟩⟩

/-- The per-range color body of `merge` (src/track/texture.rs lines 209-229):
bridge from the self side's `last` to the stitched target of the other side,
push a transition when a sink is present and the usages differ, and rebuild the
entry with the self side's `init` and the chosen target as `last`. -/
def mergeColorRanges (id level : Nat) (stitch : Stitch) (hasOut : Bool) :
    List (LayerRange × (TUnit × TUnit)) → PlaneStates TUnit × List PendingTransition
  | [] => ([], [])
  | (layers, uv) :: rest =>
    let tgt := uv.2.select stitch
    let r := mergeColorRanges id level stitch hasOut rest
    let ps := if hasOut ∧ uv.1.last ≠ tgt then
        [⟨id, ⟨⟨true, false, false⟩, (level, level + 1), layers⟩, (uv.1.last, tgt)⟩]
      else []
    ((layers, ⟨uv.1.init, tgt⟩) :: r.1, ps ++ r.2)

/-- The color mip loop of `merge` (src/track/texture.rs lines 202-230): the
grown self planes are zipped with the other tracker's planes, so self planes
beyond the other tracker's mip count are left untouched. -/
def mergeMips (id : Nat) (stitch : Stitch) (hasOut : Bool) :
    Nat → List (PlaneStates TUnit) → List (PlaneStates TUnit) →
      List (PlaneStates TUnit) × List PendingTransition
  | _, [], _ => ([], [])
  | _, a :: as, [] => (a :: as, [])
  | i, a :: as, b :: bs =>
    let mr := mergeColorRanges id i stitch hasOut (rsMerge a b unitDefault)
    let rest := mergeMips id stitch hasOut (i + 1) as bs
    (mr.1 :: rest.1, mr.2 ++ rest.2)

/-- The depth/stencil body of `merge` (src/track/texture.rs lines 232-272):
depth and stencil are stitched independently within each merged layer range,
each possibly emitting its own transition with mip level range `0 .. 1`. -/
def mergeDSRanges (id : Nat) (stitch : Stitch) (hasOut : Bool) :
    List (LayerRange × (DepthStencilState × DepthStencilState)) →
      PlaneStates DepthStencilState × List PendingTransition
  | [] => ([], [])
  | (layers, uv) :: rest =>
    let dT := uv.2.depth.select stitch
    let sT := uv.2.stencil.select stitch
    let r := mergeDSRanges id stitch hasOut rest
    let pd := if hasOut ∧ uv.1.depth.last ≠ dT then
        [⟨id, ⟨⟨false, true, false⟩, (0, 1), layers⟩, (uv.1.depth.last, dT)⟩]
      else []
    let psn := if hasOut ∧ uv.1.stencil.last ≠ sT then
        [⟨id, ⟨⟨false, false, true⟩, (0, 1), layers⟩, (uv.1.stencil.last, sT)⟩]
      else []
    ((layers, ⟨⟨uv.1.depth.init, dT⟩, ⟨uv.1.stencil.init, sT⟩⟩) :: r.1, pd ++ psn ++ r.2)

/-- `ResourceState::merge` for `TextureStates` (src/track/texture.rs lines
191-275); the `Result` type of the source is kept, and the mutated tracker and
pushed transitions are returned in the `ok` payload. -/
def merge (s : TextureStates) (id : Nat) (other : TextureStates) (stitch : Stitch)
    (hasOut : Bool) : Except PendingTransition (TextureStates × List PendingTransition) :=
  let grown := growCM s.color_mips other.color_mips.length
  let c := mergeMips id stitch hasOut 0 grown other.color_mips
  let d := mergeDSRanges id stitch hasOut (rsMerge s.depth_stencil other.depth_stencil dsDefault)
  .ok (⟨c.1, d.1⟩, c.2 ++ d.2)

/-! ### The values a query visits -/

/-- The `last` usages of the color entries of one plane that overlap the
selector's layer range, in entry order. -/
def contribPlane (layers : Nat × Nat) (m : PlaneStates TUnit) : List Usage :=
  m.filterMap (fun e => if layers.1 < e.1.2 ∧ e.1.1 < layers.2 then some e.2.last else none)

/-- All color `last` usages a query visits, over the selected planes. -/
def contribColor (layers : Nat × Nat) (planes : List (PlaneStates TUnit)) : List Usage :=
  (planes.map (contribPlane layers)).flatten

/-- The depth and/or stencil `last` usages a query visits, per the selected
aspects, over the overlapping depth/stencil entries. -/
def contribDS (layers : Nat × Nat) (aspD aspS : Bool) (m : PlaneStates DepthStencilState) :
    List Usage :=
  (m.map (fun e =>
    if layers.1 < e.1.2 ∧ e.1.1 < layers.2 then
      (if aspD then [e.2.depth.last] else []) ++ (if aspS then [e.2.stencil.last] else [])
    else [])).flatten

/-- Every usage value contributing to `query s sel`, in visiting order. -/
def contrib (s : TextureStates) (sel : SubresourceRange) : List Usage :=
  (if sel.aspects.color then
    let n := s.color_mips.length
    contribColor sel.layers
      ((s.color_mips.drop (min n sel.levels.1)).take (min n sel.levels.2 - min n sel.levels.1))
  else []) ++
  (if sel.aspects.depth ∨ sel.aspects.stencil then
    contribDS sel.layers sel.aspects.depth sel.aspects.stencil s.depth_stencil
  else [])

/-- Folding `replaceCheck` over a list of visited values. -/
def scanAgree : Option Usage → List Usage → Option (Option Usage)
  | u, [] => some u
  | u, v :: vs =>
    match replaceCheck u v with
    | none => none
    | some u1 => scanAgree u1 vs

/-- Collapsing an early-`none` scan outcome into the query's answer. -/
def ojoin : Option (Option Usage) → Option Usage
  | none => none
  | some u => u

theorem replaceCheck_none (v : Usage) : replaceCheck none v = some (some v) := by
  simp [replaceCheck]

theorem replaceCheck_some (w v : Usage) :
    replaceCheck (some w) v = if w = v then some (some v) else none := by
  by_cases h : w = v
  · simp [replaceCheck, h]
  · simp [replaceCheck, h]

theorem contribPlane_cons (layers : Nat × Nat) (rng : LayerRange) (t : TUnit)
    (rest : PlaneStates TUnit) :
    contribPlane layers ((rng, t) :: rest) =
      (if layers.1 < rng.2 ∧ rng.1 < layers.2 then [t.last] else []) ++
        contribPlane layers rest := by
  by_cases h : layers.1 < rng.2 ∧ rng.1 < layers.2
  · simp [contribPlane, List.filterMap_cons, h]
  · simp [contribPlane, List.filterMap_cons, h]

theorem contribColor_cons (layers : Nat × Nat) (p : PlaneStates TUnit)
    (ps : List (PlaneStates TUnit)) :
    contribColor layers (p :: ps) = contribPlane layers p ++ contribColor layers ps := by
  simp [contribColor]

theorem contribDS_cons (layers : Nat × Nat) (aspD aspS : Bool) (rng : LayerRange)
    (ds : DepthStencilState) (rest : PlaneStates DepthStencilState) :
    contribDS layers aspD aspS ((rng, ds) :: rest) =
      (if layers.1 < rng.2 ∧ rng.1 < layers.2 then
        (if aspD then [ds.depth.last] else []) ++ (if aspS then [ds.stencil.last] else [])
      else []) ++ contribDS layers aspD aspS rest := by
  simp [contribDS]

theorem scanAgree_append (u : Option Usage) (l₁ l₂ : List Usage) :
    scanAgree u (l₁ ++ l₂) = (scanAgree u l₁).bind (fun u1 => scanAgree u1 l₂) := by
  induction l₁ generalizing u with
  | nil => simp [scanAgree]
  | cons v vs ih =>
    simp only [List.cons_append, scanAgree]
    cases replaceCheck u v with
    | none => rfl
    | some u1 => exact ih u1

theorem queryPlane_eq (layers : Nat × Nat) (m : PlaneStates TUnit) (u : Option Usage) :
    queryPlane layers m u = scanAgree u (contribPlane layers m) := by
  induction m generalizing u with
  | nil => simp [queryPlane, contribPlane, scanAgree]
  | cons e rest ih =>
    obtain ⟨rng, t⟩ := e
    rw [contribPlane_cons]
    by_cases h : layers.1 < rng.2 ∧ rng.1 < layers.2
    · rw [if_pos h]
      simp only [queryPlane, if_pos h, List.singleton_append, scanAgree]
      cases replaceCheck u t.last with
      | none => rfl
      | some u1 => exact ih u1
    · rw [if_neg h]
      simp only [queryPlane, if_neg h, List.nil_append]
      exact ih u

theorem queryColor_eq (layers : Nat × Nat) (ps : List (PlaneStates TUnit)) (u : Option Usage) :
    queryColor layers ps u = scanAgree u (contribColor layers ps) := by
  induction ps generalizing u with
  | nil => simp [queryColor, contribColor, scanAgree]
  | cons plane rest ih =>
    rw [contribColor_cons, scanAgree_append]
    simp only [queryColor, queryPlane_eq]
    cases scanAgree u (contribPlane layers plane) with
    | none => rfl
    | some u1 => exact ih u1

theorem queryDS_eq (layers : Nat × Nat) (aspD aspS : Bool)
    (m : PlaneStates DepthStencilState) (u : Option Usage) :
    queryDS layers aspD aspS m u = scanAgree u (contribDS layers aspD aspS m) := by
  induction m generalizing u with
  | nil => simp [queryDS, contribDS, scanAgree]
  | cons e rest ih =>
    obtain ⟨rng, ds⟩ := e
    rw [contribDS_cons]
    by_cases h : layers.1 < rng.2 ∧ rng.1 < layers.2
    · rw [if_pos h, scanAgree_append]
      simp only [queryDS, if_pos h]
      cases aspD with
      | false =>
        simp only [Bool.false_eq_true, if_false, List.nil_append]
        cases aspS with
        | false => simp only [scanAgree, Option.some_bind]; exact ih u
        | true =>
          simp only [if_true, scanAgree]
          cases replaceCheck u ds.stencil.last with
          | none => rfl
          | some u2 => simp only [Option.some_bind]; exact ih u2
      | true =>
        simp only [if_true, List.singleton_append, scanAgree]
        cases replaceCheck u ds.depth.last with
        | none => rfl
        | some u1 =>
          cases aspS with
          | false =>
            simp only [Bool.false_eq_true, if_false, scanAgree, Option.some_bind]
            exact ih u1
          | true =>
            simp only [if_true, scanAgree]
            cases replaceCheck u1 ds.stencil.last with
            | none => rfl
            | some u2 => simp only [Option.some_bind]; exact ih u2
    · rw [if_neg h, List.nil_append]
      simp only [queryDS, if_neg h]
      exact ih u

theorem query_eq_scanAgree (s : TextureStates) (sel : SubresourceRange) :
    query s sel = ojoin (scanAgree none (contrib s sel)) := by
  unfold query contrib
  by_cases hc : sel.aspects.color = true
  · simp only [hc, if_true, queryColor_eq, scanAgree_append]
    cases hcc : scanAgree none (contribColor sel.layers
      ((s.color_mips.drop (min s.color_mips.length sel.levels.1)).take
        (min s.color_mips.length sel.levels.2 - min s.color_mips.length sel.levels.1))) with
    | none => rfl
    | some u1 =>
      simp only [Option.some_bind]
      by_cases hds : sel.aspects.depth = true ∨ sel.aspects.stencil = true
      · simp only [if_pos hds, queryDS_eq]
        cases scanAgree u1 (contribDS sel.layers sel.aspects.depth sel.aspects.stencil
          s.depth_stencil) with
        | none => rfl
        | some u => rfl
      · simp only [if_neg hds, List.append_nil, scanAgree]
        rfl
  · simp only [if_neg hc, List.nil_append]
    by_cases hds : sel.aspects.depth = true ∨ sel.aspects.stencil = true
    · simp only [if_pos hds, queryDS_eq]
      cases scanAgree none (contribDS sel.layers sel.aspects.depth sel.aspects.stencil
        s.depth_stencil) with
      | none => rfl
      | some u => rfl
    · simp only [if_neg hds]
      rfl

theorem scanAgree_some_eq (l : List Usage) (w u : Usage) :
    scanAgree (some w) l = some (some u) ↔ (w = u ∧ ∀ v ∈ l, v = u) := by
  induction l generalizing w with
  | nil => simp [scanAgree]
  | cons v vs ih =>
    simp only [scanAgree, replaceCheck_some]
    by_cases hv : w = v
    · rw [if_pos hv]
      simp only [scanAgree]
      rw [ih]
      subst hv
      constructor
      · rintro ⟨h1, h2⟩
        exact ⟨h1, fun x hx => by
          rcases List.mem_cons.1 hx with h | h
          · exact h ▸ h1
          · exact h2 x h⟩
      · rintro ⟨h1, h2⟩
        exact ⟨h1, fun x hx => h2 x (List.mem_cons_of_mem _ hx)⟩
    · rw [if_neg hv]
      constructor
      · intro hcontra; exact absurd hcontra (by simp)
      · rintro ⟨hw, hall⟩
        exact absurd (hw.trans (hall v (List.mem_cons_self _ _)).symm) hv

theorem scanAgree_none_eq (l : List Usage) (u : Usage) :
    scanAgree none l = some (some u) ↔ (l ≠ [] ∧ ∀ v ∈ l, v = u) := by
  cases l with
  | nil => simp [scanAgree]
  | cons v vs =>
    simp only [scanAgree, replaceCheck_none, scanAgree_some_eq]
    constructor
    · rintro ⟨h1, h2⟩
      refine ⟨by simp, fun x hx => ?_⟩
      rcases List.mem_cons.1 hx with h | h
      · exact h ▸ h1
      · exact h2 x h
    · rintro ⟨_, h2⟩
      exact ⟨h2 v (List.mem_cons_self _ _), fun x hx => h2 x (List.mem_cons_of_mem _ hx)⟩

/-- C3: `query` returns `some u` exactly when the visited subresources exist
and all hold the same `last` usage `u`; any two distinct visited usages force
the indeterminate answer `none`, including a color value disagreeing with a
depth/stencil value. -/
theorem query_agreement (s : TextureStates) (sel : SubresourceRange) :
    (∀ u : Usage, query s sel = some u ↔
      (contrib s sel ≠ [] ∧ ∀ v ∈ contrib s sel, v = u)) ∧
    ((∃ v ∈ contrib s sel, ∃ w ∈ contrib s sel, v ≠ w) → query s sel = none) := by
  have hq := query_eq_scanAgree s sel
  have hkey : ∀ u : Usage, query s sel = some u ↔
      (contrib s sel ≠ [] ∧ ∀ v ∈ contrib s sel, v = u) := by
    intro u
    rw [hq]
    cases hsc : scanAgree none (contrib s sel) with
    | none =>
      simp only [ojoin]
      constructor
      · intro h; exact absurd h (by simp)
      · intro h
        have := (scanAgree_none_eq (contrib s sel) u).2 h
        rw [hsc] at this
        exact absurd this (by simp)
    | some o =>
      cases o with
      | none =>
        simp only [ojoin]
        constructor
        · intro hcontra; exact absurd hcontra (by simp)
        · rintro ⟨hne, hall⟩
          have := (scanAgree_none_eq (contrib s sel) u).2 ⟨hne, hall⟩
          rw [hsc] at this
          simp at this
      | some w =>
        have hw := (scanAgree_none_eq (contrib s sel) w).1 hsc
        simp only [ojoin, Option.some.injEq]
        constructor
        · rintro rfl; exact hw
        · rintro ⟨hne, hall⟩
          rcases List.exists_mem_of_ne_nil _ hne with ⟨x, hx⟩
          exact (hw.2 x hx).symm.trans (hall x hx)
  refine ⟨hkey, ?_⟩
  rintro ⟨v, hv, w, hwm, hvw⟩
  rcases h : query s sel with _ | u
  · rfl
  · have hall := ((hkey u).1 h).2
    exact absurd ((hall v hv).trans (hall w hwm).symm) hvw

/-- C10: when no tracked entry contributes a usage value under the selector,
`query` returns `none`; so `none` does not by itself indicate a conflict. -/
theorem query_none_of_no_contrib (s : TextureStates) (sel : SubresourceRange)
    (h : contrib s sel = []) : query s sel = none := by
  rw [query_eq_scanAgree, h]
  rfl

/-- Witness for C10: the default-constructed tracker yields no contributing
entries and an indeterminate query for a full selector. -/
theorem query_none_of_no_contrib_witness :
    query ⟨[], []⟩ ⟨⟨true, true, true⟩, (0, 5), (0, 5)⟩ = none :=
  query_none_of_no_contrib ⟨[], []⟩ ⟨⟨true, true, true⟩, (0, 5), (0, 5)⟩ rfl

/-- Witness for C3: applied at a concrete tracker holding usage 5 uniformly. -/
theorem query_agreement_witness :
    query ⟨[[((0, 2), ⟨1, 5⟩)]], []⟩ ⟨⟨true, false, false⟩, (0, 1), (0, 2)⟩ = some 5 :=
  ((query_agreement ⟨[[((0, 2), ⟨1, 5⟩)]], []⟩ ⟨⟨true, false, false⟩, (0, 1), (0, 2)⟩).1
    5).mpr (by decide)

/-! ### Well-formedness of range-keyed maps and isolation lemmas -/

/-- The layer ranges of a state map, forgetting the values. -/
def rangesOf {T : Type} (m : PlaneStates T) : List LayerRange := m.map (·.1)

/-- No range of the list strictly contains the point `p`. -/
def noCrossR (p : Nat) (rs : List LayerRange) : Bool :=
  rs.all (fun r => !(decide (r.1 < p ∧ p < r.2)))

/-- The gap-filling walk of `fillGaps` would insert nothing: mirrors its
insertion tests on the bare ranges. -/
def filledR (re : Nat) : Nat → List LayerRange → Bool
  | cur, [] => decide (re ≤ cur)
  | cur, r :: rest =>
    if r.2 ≤ cur then filledR re cur rest
    else if re ≤ r.1 then decide (re ≤ cur)
    else decide (¬ cur < r.1) && filledR re r.2 rest

/-- Sorted, pairwise disjoint, nondegenerate ranges, all at or above `b`:
the structural invariant of a range-keyed state map. -/
def wfR : Nat → List LayerRange → Bool
  | _, [] => true
  | b, r :: rest => decide (b ≤ r.1) && decide (r.1 < r.2) && wfR r.2 rest

/-- Well-formedness of a whole state map. -/
def WFp {T : Type} (m : PlaneStates T) : Bool := wfR 0 (rangesOf m)

theorem splitAt_eq_self {T : Type} (p : Nat) (m : PlaneStates T)
    (h : noCrossR p (rangesOf m) = true) : splitAt p m = m := by
  induction m with
  | nil => rfl
  | cons e rest ih =>
    obtain ⟨r, v⟩ := e
    simp only [noCrossR, rangesOf, List.map_cons, List.all_cons, Bool.and_eq_true,
      Bool.not_eq_true', decide_eq_false_iff_not] at h
    rw [splitAt, if_neg h.1, ih]
    simp only [noCrossR, rangesOf]
    exact h.2

theorem fillGaps_eq_self {T : Type} (d : T) (re cur : Nat) (m : PlaneStates T)
    (h : filledR re cur (rangesOf m) = true) : fillGaps d re cur m = m := by
  induction m generalizing cur with
  | nil =>
    simp only [filledR, rangesOf, List.map_nil, decide_eq_true_eq] at h
    simp [fillGaps, Nat.not_lt.2 h]
  | cons e rest ih =>
    obtain ⟨r, v⟩ := e
    simp only [filledR, rangesOf, List.map_cons] at h
    by_cases h1 : r.2 ≤ cur
    · rw [if_pos h1] at h
      rw [fillGaps, if_pos h1, ih cur h]
    · rw [if_neg h1] at h
      by_cases h2 : re ≤ r.1
      · rw [if_pos h2] at h
        simp only [decide_eq_true_eq] at h
        rw [fillGaps, if_neg h1, if_pos h2, if_neg (Nat.not_lt.2 h)]
      · rw [if_neg h2] at h
        simp only [Bool.and_eq_true, decide_eq_true_eq] at h
        rw [fillGaps, if_neg h1, if_neg h2, if_neg h.1, ih r.2 h.2]

theorem noCrossR_splitAt_self {T : Type} (p : Nat) (m : PlaneStates T) :
    noCrossR p (rangesOf (splitAt p m)) = true := by
  induction m with
  | nil => rfl
  | cons e rest ih =>
    obtain ⟨r, v⟩ := e
    by_cases h : r.1 < p ∧ p < r.2
    · rw [splitAt, if_pos h]
      simp only [noCrossR, rangesOf, List.map_cons, List.all_cons, Bool.and_eq_true,
        Bool.not_eq_true', decide_eq_false_iff_not]
      refine ⟨by omega, by omega, ?_⟩
      simpa [noCrossR, rangesOf] using ih
    · rw [splitAt, if_neg h]
      simp only [noCrossR, rangesOf, List.map_cons, List.all_cons, Bool.and_eq_true,
        Bool.not_eq_true', decide_eq_false_iff_not]
      exact ⟨h, by simpa [noCrossR, rangesOf] using ih⟩

theorem noCrossR_splitAt {T : Type} (p q : Nat) (m : PlaneStates T)
    (h : noCrossR q (rangesOf m) = true) :
    noCrossR q (rangesOf (splitAt p m)) = true := by
  induction m with
  | nil => rfl
  | cons e rest ih =>
    obtain ⟨r, v⟩ := e
    simp only [noCrossR, rangesOf, List.map_cons, List.all_cons, Bool.and_eq_true,
      Bool.not_eq_true', decide_eq_false_iff_not] at h
    have hr := ih (by simpa [noCrossR, rangesOf] using h.2)
    by_cases hp : r.1 < p ∧ p < r.2
    · rw [splitAt, if_pos hp]
      simp only [noCrossR, rangesOf, List.map_cons, List.all_cons, Bool.and_eq_true,
        Bool.not_eq_true', decide_eq_false_iff_not]
      have := h.1
      refine ⟨by omega, by omega, by simpa [noCrossR, rangesOf] using hr⟩
    · rw [splitAt, if_neg hp]
      simp only [noCrossR, rangesOf, List.map_cons, List.all_cons, Bool.and_eq_true,
        Bool.not_eq_true', decide_eq_false_iff_not]
      exact ⟨h.1, by simpa [noCrossR, rangesOf] using hr⟩

theorem noCrossR_fillGaps {T : Type} (d : T) (p re cur : Nat) (m : PlaneStates T)
    (hcur : p ≤ cur) (h : noCrossR p (rangesOf m) = true) :
    noCrossR p (rangesOf (fillGaps d re cur m)) = true := by
  induction m generalizing cur with
  | nil =>
    by_cases hc : cur < re
    · simp [fillGaps, hc, noCrossR, rangesOf]; omega
    · simp [fillGaps, hc, noCrossR, rangesOf]
  | cons e rest ih =>
    obtain ⟨r, v⟩ := e
    simp only [noCrossR, rangesOf, List.map_cons, List.all_cons, Bool.and_eq_true,
      Bool.not_eq_true', decide_eq_false_iff_not] at h
    have hrest : noCrossR p (rangesOf rest) = true := by
      simpa [noCrossR, rangesOf] using h.2
    by_cases h1 : r.2 ≤ cur
    · rw [fillGaps, if_pos h1]
      simp only [noCrossR, rangesOf, List.map_cons, List.all_cons, Bool.and_eq_true,
        Bool.not_eq_true', decide_eq_false_iff_not]
      exact ⟨h.1, by simpa [noCrossR, rangesOf] using ih cur hcur hrest⟩
    · rw [fillGaps, if_neg h1]
      by_cases h2 : re ≤ r.1
      · by_cases h3 : cur < re
        · rw [if_pos h2, if_pos h3]
          simp only [noCrossR, rangesOf, List.map_cons, List.all_cons, Bool.and_eq_true,
            Bool.not_eq_true', decide_eq_false_iff_not]
          exact ⟨by omega, h.1, by simpa [noCrossR, rangesOf] using hrest⟩
        · rw [if_pos h2, if_neg h3]
          simp only [noCrossR, rangesOf, List.map_cons, List.all_cons, Bool.and_eq_true,
            Bool.not_eq_true', decide_eq_false_iff_not]
          exact ⟨h.1, by simpa [noCrossR, rangesOf] using hrest⟩
      · by_cases h3 : cur < r.1
        · rw [if_neg h2, if_pos h3]
          simp only [noCrossR, rangesOf, List.map_cons, List.all_cons, Bool.and_eq_true,
            Bool.not_eq_true', decide_eq_false_iff_not]
          refine ⟨by omega, h.1, ?_⟩
          simpa [noCrossR, rangesOf] using ih r.2 (by omega) hrest
        · rw [if_neg h2, if_neg h3]
          simp only [noCrossR, rangesOf, List.map_cons, List.all_cons, Bool.and_eq_true,
            Bool.not_eq_true', decide_eq_false_iff_not]
          exact ⟨h.1, by simpa [noCrossR, rangesOf] using ih r.2 (by omega) hrest⟩

theorem noCrossR_re_fillGaps {T : Type} (d : T) (re cur : Nat) (m : PlaneStates T)
    (h : noCrossR re (rangesOf m) = true) :
    noCrossR re (rangesOf (fillGaps d re cur m)) = true := by
  induction m generalizing cur with
  | nil =>
    by_cases hc : cur < re
    · simp [fillGaps, hc, noCrossR, rangesOf]
    · simp [fillGaps, hc, noCrossR, rangesOf]
  | cons e rest ih =>
    obtain ⟨r, v⟩ := e
    simp only [noCrossR, rangesOf, List.map_cons, List.all_cons, Bool.and_eq_true,
      Bool.not_eq_true', decide_eq_false_iff_not] at h
    have hrest : noCrossR re (rangesOf rest) = true := by
      simpa [noCrossR, rangesOf] using h.2
    by_cases h1 : r.2 ≤ cur
    · rw [fillGaps, if_pos h1]
      simp only [noCrossR, rangesOf, List.map_cons, List.all_cons, Bool.and_eq_true,
        Bool.not_eq_true', decide_eq_false_iff_not]
      exact ⟨h.1, by simpa [noCrossR, rangesOf] using ih cur hrest⟩
    · rw [fillGaps, if_neg h1]
      by_cases h2 : re ≤ r.1
      · by_cases h3 : cur < re
        · rw [if_pos h2, if_pos h3]
          simp only [noCrossR, rangesOf, List.map_cons, List.all_cons, Bool.and_eq_true,
            Bool.not_eq_true', decide_eq_false_iff_not]
          exact ⟨by omega, h.1, by simpa [noCrossR, rangesOf] using hrest⟩
        · rw [if_pos h2, if_neg h3]
          simp only [noCrossR, rangesOf, List.map_cons, List.all_cons, Bool.and_eq_true,
            Bool.not_eq_true', decide_eq_false_iff_not]
          exact ⟨h.1, by simpa [noCrossR, rangesOf] using hrest⟩
      · by_cases h3 : cur < r.1
        · rw [if_neg h2, if_pos h3]
          simp only [noCrossR, rangesOf, List.map_cons, List.all_cons, Bool.and_eq_true,
            Bool.not_eq_true', decide_eq_false_iff_not]
          refine ⟨by omega, h.1, ?_⟩
          simpa [noCrossR, rangesOf] using ih r.2 hrest
        · rw [if_neg h2, if_neg h3]
          simp only [noCrossR, rangesOf, List.map_cons, List.all_cons, Bool.and_eq_true,
            Bool.not_eq_true', decide_eq_false_iff_not]
          exact ⟨h.1, by simpa [noCrossR, rangesOf] using ih r.2 hrest⟩

theorem wfR_splitAt {T : Type} (p b : Nat) (m : PlaneStates T)
    (h : wfR b (rangesOf m) = true) : wfR b (rangesOf (splitAt p m)) = true := by
  induction m generalizing b with
  | nil => rfl
  | cons e rest ih =>
    obtain ⟨r, v⟩ := e
    simp only [wfR, rangesOf, List.map_cons, Bool.and_eq_true, decide_eq_true_eq] at h
    by_cases hp : r.1 < p ∧ p < r.2
    · rw [splitAt, if_pos hp]
      simp only [wfR, rangesOf, List.map_cons, Bool.and_eq_true, decide_eq_true_eq]
      exact ⟨⟨h.1.1, hp.1⟩, ⟨Nat.le_refl p, hp.2⟩,
        by simpa [rangesOf] using ih r.2 h.2⟩
    · rw [splitAt, if_neg hp]
      simp only [wfR, rangesOf, List.map_cons, Bool.and_eq_true, decide_eq_true_eq]
      exact ⟨h.1, by simpa [wfR, rangesOf] using ih r.2 h.2⟩

theorem wfR_fillGaps {T : Type} (d : T) (re b cur : Nat) (m : PlaneStates T)
    (h : wfR b (rangesOf m) = true) (hcur : b ≤ cur) :
    wfR b (rangesOf (fillGaps d re cur m)) = true := by
  induction m generalizing b cur with
  | nil =>
    by_cases hc : cur < re
    · simp [fillGaps, hc, wfR, rangesOf]; omega
    · simp [fillGaps, hc, wfR, rangesOf]
  | cons e rest ih =>
    obtain ⟨r, v⟩ := e
    simp only [wfR, rangesOf, List.map_cons, Bool.and_eq_true, decide_eq_true_eq] at h
    by_cases h1 : r.2 ≤ cur
    · rw [fillGaps, if_pos h1]
      simp only [wfR, rangesOf, List.map_cons, Bool.and_eq_true, decide_eq_true_eq]
      exact ⟨h.1, by simpa [wfR, rangesOf] using ih r.2 cur h.2 h1⟩
    · rw [fillGaps, if_neg h1]
      by_cases h2 : re ≤ r.1
      · by_cases h3 : cur < re
        · rw [if_pos h2, if_pos h3]
          simp only [wfR, rangesOf, List.map_cons, Bool.and_eq_true, decide_eq_true_eq]
          exact ⟨⟨hcur, h3⟩, ⟨by omega, h.1.2⟩, by simpa [wfR, rangesOf] using h.2⟩
        · rw [if_pos h2, if_neg h3]
          simp only [wfR, rangesOf, List.map_cons, Bool.and_eq_true, decide_eq_true_eq]
          exact ⟨h.1, by simpa [wfR, rangesOf] using h.2⟩
      · by_cases h3 : cur < r.1
        · rw [if_neg h2, if_pos h3]
          simp only [wfR, rangesOf, List.map_cons, Bool.and_eq_true, decide_eq_true_eq]
          exact ⟨⟨hcur, h3⟩, ⟨by omega, h.1.2⟩,
            by simpa [wfR, rangesOf] using ih r.2 r.2 h.2 (Nat.le_refl _)⟩
        · rw [if_neg h2, if_neg h3]
          simp only [wfR, rangesOf, List.map_cons, Bool.and_eq_true, decide_eq_true_eq]
          exact ⟨h.1, by simpa [wfR, rangesOf] using ih r.2 r.2 h.2 (Nat.le_refl _)⟩

theorem filledR_of_le (re cur : Nat) (rs : List LayerRange) (h : re ≤ cur) :
    filledR re cur rs = true := by
  induction rs generalizing cur with
  | nil => simpa [filledR]
  | cons r rest ih =>
    by_cases h1 : r.2 ≤ cur
    · rw [filledR, if_pos h1]; exact ih cur h
    · rw [filledR, if_neg h1]
      by_cases h2 : re ≤ r.1
      · rw [if_pos h2]; simpa
      · rw [if_neg h2]
        simp only [Bool.and_eq_true, decide_eq_true_eq]
        exact ⟨by omega, ih r.2 (by omega)⟩

theorem filledR_fillGaps {T : Type} (d : T) (re b cur : Nat) (m : PlaneStates T)
    (h : wfR b (rangesOf m) = true) :
    filledR re cur (rangesOf (fillGaps d re cur m)) = true := by
  induction m generalizing b cur with
  | nil =>
    by_cases hc : cur < re
    · simp only [fillGaps, if_pos hc, rangesOf, List.map_cons, List.map_nil, filledR]
      rw [if_neg (by omega : ¬ re ≤ cur), if_neg (by omega : ¬ re ≤ cur)]
      simp [filledR]
    · simp only [fillGaps, if_neg hc, rangesOf, List.map_nil, filledR]
      simpa using by omega
  | cons e rest ih =>
    obtain ⟨r, v⟩ := e
    simp only [wfR, rangesOf, List.map_cons, Bool.and_eq_true, decide_eq_true_eq] at h
    by_cases h1 : r.2 ≤ cur
    · rw [fillGaps, if_pos h1]
      simp only [rangesOf, List.map_cons, filledR, if_pos h1]
      exact ih r.2 cur h.2
    · rw [fillGaps, if_neg h1]
      by_cases h2 : re ≤ r.1
      · by_cases h3 : cur < re
        · rw [if_pos h2, if_pos h3]
          simp only [rangesOf, List.map_cons, filledR]
          rw [if_neg (by omega : ¬ re ≤ cur), if_neg (by omega : ¬ re ≤ cur)]
          simp only [decide_eq_true_eq, Bool.and_eq_true]
          refine ⟨by omega, ?_⟩
          have hfill := filledR_of_le re re (r :: rangesOf rest) (Nat.le_refl _)
          simpa [filledR, rangesOf] using hfill
        · rw [if_pos h2, if_neg h3]
          simp only [rangesOf, List.map_cons, filledR, if_neg h1, if_pos h2]
          simpa using by omega
      · by_cases h3 : cur < r.1
        · rw [if_neg h2, if_pos h3]
          simp only [rangesOf, List.map_cons, filledR]
          rw [if_neg (by omega : ¬ r.1 ≤ cur), if_neg (by omega : ¬ re ≤ cur)]
          simp only [decide_eq_true_eq, Bool.and_eq_true]
          refine ⟨by omega, ?_⟩
          rw [if_neg (by omega : ¬ r.2 ≤ r.1), if_neg h2]
          simp only [decide_eq_true_eq, Bool.and_eq_true]
          exact ⟨by omega, ih r.2 r.2 h.2⟩
        · rw [if_neg h2, if_neg h3]
          simp only [rangesOf, List.map_cons, filledR, if_neg h1, if_neg h2]
          simp only [decide_eq_true_eq, Bool.and_eq_true]
          exact ⟨by omega, ih r.2 r.2 h.2⟩

theorem isolate_wf {T : Type} (m : PlaneStates T) (layers : Nat × Nat) (d : T)
    (h : WFp m = true) : WFp (isolate m layers d) = true := by
  unfold WFp isolate
  exact wfR_fillGaps d layers.2 0 layers.1 _
    (wfR_splitAt layers.2 0 _ (wfR_splitAt layers.1 0 m h)) (Nat.zero_le _)

theorem isolate_aligned {T : Type} (m : PlaneStates T) (layers : Nat × Nat) (d : T)
    (h : WFp m = true) :
    noCrossR layers.1 (rangesOf (isolate m layers d)) = true ∧
    noCrossR layers.2 (rangesOf (isolate m layers d)) = true ∧
    filledR layers.2 layers.1 (rangesOf (isolate m layers d)) = true := by
  unfold isolate
  refine ⟨?_, ?_, ?_⟩
  · exact noCrossR_fillGaps d layers.1 layers.2 layers.1 _ (Nat.le_refl _)
      (noCrossR_splitAt layers.2 layers.1 _ (noCrossR_splitAt_self layers.1 m))
  · exact noCrossR_re_fillGaps d layers.2 layers.1 _ (noCrossR_splitAt_self layers.2 _)
  · exact filledR_fillGaps d layers.2 0 layers.1 _
      (wfR_splitAt layers.2 0 _ (wfR_splitAt layers.1 0 m h))

theorem isolate_eq_self {T : Type} (m : PlaneStates T) (layers : Nat × Nat) (d : T)
    (h1 : noCrossR layers.1 (rangesOf m) = true)
    (h2 : noCrossR layers.2 (rangesOf m) = true)
    (h3 : filledR layers.2 layers.1 (rangesOf m) = true) :
    isolate m layers d = m := by
  unfold isolate
  rw [splitAt_eq_self layers.1 m h1, splitAt_eq_self layers.2 m h2,
    fillGaps_eq_self d layers.2 layers.1 m h3]

theorem coveredAt_cons {T : Type} (r : LayerRange) (v : T) (rest : PlaneStates T) (x : Nat) :
    coveredAt ((r, v) :: rest) x =
      if r.1 ≤ x ∧ x < r.2 then some v else coveredAt rest x := by
  by_cases h : r.1 ≤ x ∧ x < r.2
  · simp [coveredAt, List.find?_cons_of_pos, h]
  · simp [coveredAt, List.find?_cons_of_neg, h]

theorem coveredAt_splitAt {T : Type} (p : Nat) (m : PlaneStates T) (x : Nat) :
    coveredAt (splitAt p m) x = coveredAt m x := by
  induction m with
  | nil => rfl
  | cons e rest ih =>
    obtain ⟨r, v⟩ := e
    by_cases hp : r.1 < p ∧ p < r.2
    · rw [splitAt, if_pos hp, coveredAt_cons, coveredAt_cons, coveredAt_cons]
      by_cases hx : r.1 ≤ x ∧ x < r.2
      · by_cases hx1 : x < p
        · rw [if_pos ⟨hx.1, hx1⟩]
          rw [if_pos hx]
        · rw [if_neg (by omega), if_pos (by omega), if_pos hx]
      · rw [if_neg (by omega), if_neg (by omega), if_neg hx]
        exact ih
    · rw [splitAt, if_neg hp, coveredAt_cons, coveredAt_cons]
      by_cases hx : r.1 ≤ x ∧ x < r.2
      · rw [if_pos hx, if_pos hx]
      · rw [if_neg hx, if_neg hx]
        exact ih

theorem wfR_covered_lb {T : Type} (b : Nat) (m : PlaneStates T) (x : Nat) (v : T)
    (hwf : wfR b (rangesOf m) = true) (h : coveredAt m x = some v) : b ≤ x := by
  induction m generalizing b with
  | nil => simp [coveredAt] at h
  | cons e rest ih =>
    obtain ⟨r, w⟩ := e
    simp only [wfR, rangesOf, List.map_cons, Bool.and_eq_true, decide_eq_true_eq] at hwf
    rw [coveredAt_cons] at h
    by_cases hx : r.1 ≤ x ∧ x < r.2
    · omega
    · rw [if_neg hx] at h
      have := ih r.2 (by simpa [rangesOf] using hwf.2) h
      omega

theorem coveredAt_fillGaps {T : Type} (d : T) (re b cur : Nat) (m : PlaneStates T) (x : Nat)
    (v : T) (hwf : wfR b (rangesOf m) = true) (h : coveredAt m x = some v) :
    coveredAt (fillGaps d re cur m) x = some v := by
  induction m generalizing b cur with
  | nil => simp [coveredAt] at h
  | cons e rest ih =>
    obtain ⟨r, w⟩ := e
    simp only [wfR, rangesOf, List.map_cons, Bool.and_eq_true, decide_eq_true_eq] at hwf
    have hwfrest : wfR r.2 (rangesOf rest) = true := by simpa [rangesOf] using hwf.2
    rw [coveredAt_cons] at h
    by_cases hx : r.1 ≤ x ∧ x < r.2
    · rw [if_pos hx] at h
      by_cases h1 : r.2 ≤ cur
      · rw [fillGaps, if_pos h1, coveredAt_cons, if_pos hx]
        exact h
      · rw [fillGaps, if_neg h1]
        by_cases h2 : re ≤ r.1
        · by_cases h3 : cur < re
          · rw [if_pos h2, if_pos h3, coveredAt_cons, if_neg (by omega), coveredAt_cons,
              if_pos hx]
            exact h
          · rw [if_pos h2, if_neg h3, coveredAt_cons, if_pos hx]
            exact h
        · by_cases h3 : cur < r.1
          · rw [if_neg h2, if_pos h3, coveredAt_cons, if_neg (by omega), coveredAt_cons,
              if_pos hx]
            exact h
          · rw [if_neg h2, if_neg h3, coveredAt_cons, if_pos hx]
            exact h
    · rw [if_neg hx] at h
      have hxlb : r.2 ≤ x := wfR_covered_lb r.2 rest x v hwfrest h
      by_cases h1 : r.2 ≤ cur
      · rw [fillGaps, if_pos h1, coveredAt_cons, if_neg hx]
        exact ih r.2 cur hwfrest h
      · rw [fillGaps, if_neg h1]
        by_cases h2 : re ≤ r.1
        · by_cases h3 : cur < re
          · rw [if_pos h2, if_pos h3, coveredAt_cons, if_neg (by omega), coveredAt_cons,
              if_neg hx]
            exact h
          · rw [if_pos h2, if_neg h3, coveredAt_cons, if_neg hx]
            exact h
        · by_cases h3 : cur < r.1
          · rw [if_neg h2, if_pos h3, coveredAt_cons, if_neg (by omega), coveredAt_cons,
              if_neg hx]
            exact ih r.2 r.2 hwfrest h
          · rw [if_neg h2, if_neg h3, coveredAt_cons, if_neg hx]
            exact ih r.2 r.2 hwfrest h

theorem coveredAt_isolate {T : Type} (m : PlaneStates T) (layers : Nat × Nat) (d : T)
    (x : Nat) (v : T) (hwf : WFp m = true) (h : coveredAt m x = some v) :
    coveredAt (isolate m layers d) x = some v := by
  unfold isolate
  have h1 : coveredAt (splitAt layers.1 m) x = some v := by
    rw [coveredAt_splitAt]; exact h
  have h2 : coveredAt (splitAt layers.2 (splitAt layers.1 m)) x = some v := by
    rw [coveredAt_splitAt]; exact h1
  exact coveredAt_fillGaps d layers.2 0 layers.1 _ x v
    (wfR_splitAt layers.2 0 _ (wfR_splitAt layers.1 0 m hwf)) h2

/-! ### Properties of the per-entry processing of `change` -/

theorem aspectStep_not_selected (id level : Nat) (rng : LayerRange) (asp : Aspects)
    (old usage : Usage) (hasOut : Bool) :
    aspectStep id level rng asp false old usage hasOut = .ok (old, []) := by
  simp [aspectStep]

theorem aspectStep_skip (id level : Nat) (rng : LayerRange) (asp : Aspects) (selected : Bool)
    (old usage : Usage) (hasOut : Bool) (h : old = usage) :
    aspectStep id level rng asp selected old usage hasOut = .ok (old, []) := by
  simp [aspectStep, h]

/-- The transition `aspectStep` builds for one slice. -/
def mkPending (id level : Nat) (rng : LayerRange) (asp : Aspects) (old usage : Usage) :
    PendingTransition :=
  ⟨id, ⟨asp, (level, level + 1), rng⟩, (old, usage)⟩

theorem aspectStep_out (id level : Nat) (rng : LayerRange) (asp : Aspects)
    (old usage : Usage) (hne : old ≠ usage) :
    aspectStep id level rng asp true old usage true =
      .ok (usage, [mkPending id level rng asp old usage]) := by
  simp [aspectStep, hne, mkPending]

theorem aspectStep_conflict (id level : Nat) (rng : LayerRange) (asp : Aspects)
    (old usage : Usage) (hne : old ≠ usage)
    (hconf : old ≠ 0 ∧ WRITE_ALL &&& (old ||| usage) ≠ 0) :
    aspectStep id level rng asp true old usage false =
      .error (mkPending id level rng asp old usage) := by
  simp [aspectStep, hne, hconf.1, hconf.2, mkPending]

theorem aspectStep_union (id level : Nat) (rng : LayerRange) (asp : Aspects)
    (old usage : Usage) (hne : old ≠ usage)
    (hconf : ¬(old ≠ 0 ∧ WRITE_ALL &&& (old ||| usage) ≠ 0)) :
    aspectStep id level rng asp true old usage false = .ok (old ||| usage, []) := by
  unfold aspectStep
  rw [if_pos ⟨hne, rfl⟩]
  simp only [Bool.false_eq_true, if_false]
  rw [if_neg hconf]

theorem aspectStep_stable (id level level' : Nat) (rng : LayerRange) (asp : Aspects)
    (selected : Bool) (old usage : Usage) (hasOut : Bool) (l : Usage)
    (ps : List PendingTransition)
    (h : aspectStep id level rng asp selected old usage hasOut = .ok (l, ps)) :
    aspectStep id level' rng asp selected l usage hasOut = .ok (l, []) := by
  cases selected with
  | false =>
    rw [aspectStep_not_selected] at h
    simp only [Except.ok.injEq, Prod.mk.injEq] at h
    obtain ⟨rfl, _⟩ := h
    exact aspectStep_not_selected id level' rng asp old usage hasOut
  | true =>
    by_cases hne : old = usage
    · rw [aspectStep_skip id level rng asp true old usage hasOut hne] at h
      simp only [Except.ok.injEq, Prod.mk.injEq] at h
      obtain ⟨rfl, _⟩ := h
      exact aspectStep_skip id level' rng asp true old usage hasOut hne
    · cases hasOut with
      | true =>
        rw [aspectStep_out id level rng asp old usage hne] at h
        simp only [Except.ok.injEq, Prod.mk.injEq] at h
        obtain ⟨rfl, _⟩ := h
        exact aspectStep_skip id level' rng asp true usage usage true rfl
      | false =>
        by_cases hconf : old ≠ 0 ∧ WRITE_ALL &&& (old ||| usage) ≠ 0
        · rw [aspectStep_conflict id level rng asp old usage hne hconf] at h
          exact absurd h (by simp)
        · rw [aspectStep_union id level rng asp old usage hne hconf] at h
          simp only [Except.ok.injEq, Prod.mk.injEq] at h
          obtain ⟨rfl, _⟩ := h
          by_cases heq : old ||| usage = usage
          · exact aspectStep_skip id level' rng asp true _ usage false heq
          · have hold : old ≠ 0 := by
              intro h0
              exact heq (by simp [h0])
            have hw : ¬(old ||| usage ≠ 0 ∧ WRITE_ALL &&& (old ||| usage ||| usage) ≠ 0) := by
              rw [Nat.or_assoc, Nat.or_self]
              rcases not_and_or.1 hconf with h' | h'
              · exact absurd (Decidable.not_not.1 h') hold
              · intro hcon
                exact hcon.2 (Decidable.not_not.1 h')
            rw [aspectStep_union id level' rng asp _ usage heq hw, Nat.or_assoc, Nat.or_self]

/-- Relabeling the mip level of a transition's selector. -/
def relabelLevel (level : Nat) (p : PendingTransition) : PendingTransition :=
  ⟨p.id, ⟨p.selector.aspects, (level, level + 1), p.selector.layers⟩, p.usage⟩

theorem aspectStep_level (id level level' : Nat) (rng : LayerRange) (asp : Aspects)
    (selected : Bool) (old usage : Usage) (hasOut : Bool) :
    aspectStep id level' rng asp selected old usage hasOut =
      match aspectStep id level rng asp selected old usage hasOut with
      | .ok lp => .ok (lp.1, lp.2.map (relabelLevel level'))
      | .error p => .error (relabelLevel level' p) := by
  unfold aspectStep
  by_cases hc : old ≠ usage ∧ selected = true
  · rw [if_pos hc, if_pos hc]
    cases hasOut with
    | true => simp [relabelLevel]
    | false =>
      by_cases hconf : old ≠ 0 ∧ WRITE_ALL &&& (old ||| usage) ≠ 0
      · simp [if_pos hconf, relabelLevel]
      · simp [if_neg hconf]
  · rw [if_neg hc, if_neg hc]
    rfl

theorem procColor_ranges (id level : Nat) (layers : Nat × Nat) (usage : Usage)
    (hasOut : Bool) (m : PlaneStates TUnit) :
    rangesOf (procColor id level layers usage hasOut m).1 = rangesOf m := by
  induction m with
  | nil => rfl
  | cons e rest ih =>
    obtain ⟨rng, u⟩ := e
    by_cases hin : layers.1 ≤ rng.1 ∧ rng.2 ≤ layers.2
    · cases hstep : aspectStep id level rng ⟨true, false, false⟩ true u.last usage hasOut with
      | error p => simp [procColor, if_pos hin, hstep, rangesOf]
      | ok lp =>
        simp only [procColor, if_pos hin, hstep, rangesOf, List.map_cons]
        rw [← rangesOf, ← rangesOf, ih]
    · simp only [procColor, if_neg hin, rangesOf, List.map_cons]
      rw [← rangesOf, ← rangesOf, ih]

theorem procColor_init (id level : Nat) (layers : Nat × Nat) (usage : Usage)
    (hasOut : Bool) (m : PlaneStates TUnit) (x : Nat) :
    (coveredAt (procColor id level layers usage hasOut m).1 x).map (·.init) =
      (coveredAt m x).map (·.init) := by
  induction m with
  | nil => rfl
  | cons e rest ih =>
    obtain ⟨rng, u⟩ := e
    by_cases hin : layers.1 ≤ rng.1 ∧ rng.2 ≤ layers.2
    · cases hstep : aspectStep id level rng ⟨true, false, false⟩ true u.last usage hasOut with
      | error p => simp [procColor, if_pos hin, hstep]
      | ok lp =>
        simp only [procColor, if_pos hin, hstep]
        rw [coveredAt_cons, coveredAt_cons]
        by_cases hx : rng.1 ≤ x ∧ x < rng.2
        · rw [if_pos hx, if_pos hx]
          rfl
        · rw [if_neg hx, if_neg hx]
          exact ih
    · simp only [procColor, if_neg hin]
      rw [coveredAt_cons, coveredAt_cons]
      by_cases hx : rng.1 ≤ x ∧ x < rng.2
      · rw [if_pos hx, if_pos hx]
      · rw [if_neg hx, if_neg hx]
        exact ih

theorem procDS_ranges (id level : Nat) (layers : Nat × Nat) (usage : Usage)
    (aspD aspS hasOut : Bool) (m : PlaneStates DepthStencilState) :
    rangesOf (procDS id level layers usage aspD aspS hasOut m).1 = rangesOf m := by
  induction m with
  | nil => rfl
  | cons e rest ih =>
    obtain ⟨rng, ds⟩ := e
    by_cases hin : layers.1 ≤ rng.1 ∧ rng.2 ≤ layers.2
    · cases hd : aspectStep id level rng ⟨false, true, false⟩ aspD ds.depth.last usage hasOut with
      | error p => simp [procDS, if_pos hin, hd, rangesOf]
      | ok dp =>
        cases hs : aspectStep id level rng ⟨false, false, true⟩ aspS ds.stencil.last usage
            hasOut with
        | error p => simp [procDS, if_pos hin, hd, hs, rangesOf]
        | ok sp =>
          simp only [procDS, if_pos hin, hd, hs, rangesOf, List.map_cons]
          rw [← rangesOf, ← rangesOf, ih]
    · simp only [procDS, if_neg hin, rangesOf, List.map_cons]
      rw [← rangesOf, ← rangesOf, ih]

theorem procDS_init (id level : Nat) (layers : Nat × Nat) (usage : Usage)
    (aspD aspS hasOut : Bool) (m : PlaneStates DepthStencilState) (x : Nat) :
    (coveredAt (procDS id level layers usage aspD aspS hasOut m).1 x).map
        (fun ds => (ds.depth.init, ds.stencil.init)) =
      (coveredAt m x).map (fun ds => (ds.depth.init, ds.stencil.init)) := by
  induction m with
  | nil => rfl
  | cons e rest ih =>
    obtain ⟨rng, ds⟩ := e
    by_cases hin : layers.1 ≤ rng.1 ∧ rng.2 ≤ layers.2
    · cases hd : aspectStep id level rng ⟨false, true, false⟩ aspD ds.depth.last usage hasOut with
      | error p => simp [procDS, if_pos hin, hd]
      | ok dp =>
        cases hs : aspectStep id level rng ⟨false, false, true⟩ aspS ds.stencil.last usage
            hasOut with
        | error p =>
          simp only [procDS, if_pos hin, hd, hs]
          rw [coveredAt_cons, coveredAt_cons]
          by_cases hx : rng.1 ≤ x ∧ x < rng.2
          · rw [if_pos hx, if_pos hx]
            rfl
          · rw [if_neg hx, if_neg hx]
        | ok sp =>
          simp only [procDS, if_pos hin, hd, hs]
          rw [coveredAt_cons, coveredAt_cons]
          by_cases hx : rng.1 ≤ x ∧ x < rng.2
          · rw [if_pos hx, if_pos hx]
            rfl
          · rw [if_neg hx, if_neg hx]
            exact ih
    · simp only [procDS, if_neg hin]
      rw [coveredAt_cons, coveredAt_cons]
      by_cases hx : rng.1 ≤ x ∧ x < rng.2
      · rw [if_pos hx, if_pos hx]
      · rw [if_neg hx, if_neg hx]
        exact ih

theorem procDS_stencil (id level : Nat) (layers : Nat × Nat) (usage : Usage)
    (aspD hasOut : Bool) (m : PlaneStates DepthStencilState) (x : Nat) :
    (coveredAt (procDS id level layers usage aspD false hasOut m).1 x).map (·.stencil) =
      (coveredAt m x).map (·.stencil) := by
  induction m with
  | nil => rfl
  | cons e rest ih =>
    obtain ⟨rng, ds⟩ := e
    by_cases hin : layers.1 ≤ rng.1 ∧ rng.2 ≤ layers.2
    · cases hd : aspectStep id level rng ⟨false, true, false⟩ aspD ds.depth.last usage hasOut with
      | error p => simp [procDS, if_pos hin, hd]
      | ok dp =>
        simp only [procDS, if_pos hin, hd, aspectStep_not_selected]
        rw [coveredAt_cons, coveredAt_cons]
        by_cases hx : rng.1 ≤ x ∧ x < rng.2
        · rw [if_pos hx, if_pos hx]
          rfl
        · rw [if_neg hx, if_neg hx]
          exact ih
    · simp only [procDS, if_neg hin]
      rw [coveredAt_cons, coveredAt_cons]
      by_cases hx : rng.1 ≤ x ∧ x < rng.2
      · rw [if_pos hx, if_pos hx]
      · rw [if_neg hx, if_neg hx]
        exact ih

theorem procDS_stable (id level level' : Nat) (layers : Nat × Nat) (usage : Usage)
    (aspD aspS hasOut : Bool) (m m1 : PlaneStates DepthStencilState)
    (o : List PendingTransition)
    (h : procDS id level layers usage aspD aspS hasOut m = (m1, o, none)) :
    procDS id level' layers usage aspD aspS hasOut m1 = (m1, [], none) := by
  induction m generalizing m1 o with
  | nil =>
    simp only [procDS, Prod.mk.injEq] at h
    obtain ⟨rfl, -, -⟩ := h
    rfl
  | cons e rest ih =>
    obtain ⟨rng, ds⟩ := e
    by_cases hin : layers.1 ≤ rng.1 ∧ rng.2 ≤ layers.2
    · cases hd : aspectStep id level rng ⟨false, true, false⟩ aspD ds.depth.last usage hasOut with
      | error p =>
        simp only [procDS, if_pos hin, hd, Prod.mk.injEq] at h
        exact absurd h.2.2 (by simp)
      | ok dp =>
        cases hs : aspectStep id level rng ⟨false, false, true⟩ aspS ds.stencil.last usage
            hasOut with
        | error p =>
          simp only [procDS, if_pos hin, hd, hs, Prod.mk.injEq] at h
          exact absurd h.2.2 (by simp)
        | ok sp =>
          obtain ⟨dl, dps⟩ := dp
          obtain ⟨sl, sps⟩ := sp
          rcases hrest : procDS id level layers usage aspD aspS hasOut rest with ⟨m2, o2, e2⟩
          simp only [procDS, if_pos hin, hd, hs, hrest, Prod.mk.injEq] at h
          obtain ⟨h1, -, h3⟩ := h
          subst h1
          subst h3
          have ihr := ih m2 o2 hrest
          simp only [procDS, if_pos hin]
          rw [aspectStep_stable id level level' rng ⟨false, true, false⟩ aspD ds.depth.last
            usage hasOut dl dps hd]
          rw [aspectStep_stable id level level' rng ⟨false, false, true⟩ aspS ds.stencil.last
            usage hasOut sl sps hs]
          rw [ihr]
          rfl
    · rcases hrest : procDS id level layers usage aspD aspS hasOut rest with ⟨m2, o2, e2⟩
      simp only [procDS, if_neg hin, hrest, Prod.mk.injEq] at h
      obtain ⟨h1, -, h3⟩ := h
      subst h1
      subst h3
      have ihr := ih m2 o2 hrest
      simp only [procDS, if_neg hin, ihr]

theorem procDS_level (id level level' : Nat) (layers : Nat × Nat) (usage : Usage)
    (aspD aspS hasOut : Bool) (m : PlaneStates DepthStencilState) :
    procDS id level' layers usage aspD aspS hasOut m =
      ((procDS id level layers usage aspD aspS hasOut m).1,
        (procDS id level layers usage aspD aspS hasOut m).2.1.map (relabelLevel level'),
        (procDS id level layers usage aspD aspS hasOut m).2.2.map (relabelLevel level')) := by
  induction m with
  | nil => rfl
  | cons e rest ih =>
    obtain ⟨rng, ds⟩ := e
    by_cases hin : layers.1 ≤ rng.1 ∧ rng.2 ≤ layers.2
    · cases hd : aspectStep id level rng ⟨false, true, false⟩ aspD ds.depth.last usage hasOut with
      | error p =>
        simp only [procDS, if_pos hin, aspectStep_level id level level', hd]
        rfl
      | ok dp =>
        cases hs : aspectStep id level rng ⟨false, false, true⟩ aspS ds.stencil.last usage
            hasOut with
        | error p =>
          simp only [procDS, if_pos hin, aspectStep_level id level level', hd, hs]
          rfl
        | ok sp =>
          rcases hrest : procDS id level layers usage aspD aspS hasOut rest with ⟨m2, o2, e2⟩
          rw [hrest] at ih
          simp only [procDS, if_pos hin, aspectStep_level id level level', hd, hs, hrest, ih,
            List.map_append]
    · rcases hrest : procDS id level layers usage aspD aspS hasOut rest with ⟨m2, o2, e2⟩
      rw [hrest] at ih
      simp only [procDS, if_neg hin, hrest, ih]

theorem procDS_isolate_id (id level : Nat) (layers : Nat × Nat) (usage : Usage)
    (aspD aspS hasOut : Bool) (m : PlaneStates DepthStencilState) (d d' : DepthStencilState)
    (hwf : WFp m = true) :
    isolate (procDS id level layers usage aspD aspS hasOut (isolate m layers d)).1 layers d' =
      (procDS id level layers usage aspD aspS hasOut (isolate m layers d)).1 := by
  obtain ⟨h1, h2, h3⟩ := isolate_aligned m layers d hwf
  have hr := procDS_ranges id level layers usage aspD aspS hasOut (isolate m layers d)
  apply isolate_eq_self
  · rw [hr]; exact h1
  · rw [hr]; exact h2
  · rw [hr]; exact h3

theorem dsLevels_stable (id : Nat) (layers : Nat × Nat) (usage : Usage)
    (aspD aspS hasOut : Bool) (m1 : PlaneStates DepthStencilState)
    (hiso : ∀ d', isolate m1 layers d' = m1)
    (hproc : ∀ level', procDS id level' layers usage aspD aspS hasOut m1 = (m1, [], none)) :
    ∀ ls, dsLevels id layers usage aspD aspS hasOut ls m1 = (m1, [], none) := by
  intro ls
  induction ls with
  | nil => rfl
  | cons l ls ih =>
    simp only [dsLevels, hiso, hproc l, ih, List.append_nil]

theorem dsLevels_cons_collapse (id : Nat) (layers : Nat × Nat) (usage : Usage)
    (aspD aspS hasOut : Bool) (a : Nat) (ls : List Nat) (m : PlaneStates DepthStencilState)
    (hwf : WFp m = true) :
    dsLevels id layers usage aspD aspS hasOut (a :: ls) m =
      dsLevels id layers usage aspD aspS hasOut [a] m := by
  simp only [dsLevels]
  rcases hr : procDS id a layers usage aspD aspS hasOut
      (isolate m layers ⟨TUnit.new usage, TUnit.new usage⟩) with ⟨m1, o1, e1⟩
  cases e1 with
  | some e => rfl
  | none =>
    have hiso : ∀ d', isolate m1 layers d' = m1 := by
      intro d'
      have := procDS_isolate_id id a layers usage aspD aspS hasOut m
        ⟨TUnit.new usage, TUnit.new usage⟩ d' hwf
      rw [hr] at this
      exact this
    have hproc : ∀ level', procDS id level' layers usage aspD aspS hasOut m1 =
        (m1, [], none) := by
      intro level'
      exact procDS_stable id a level' layers usage aspD aspS hasOut _ m1 o1 hr
    rw [dsLevels_stable id layers usage aspD aspS hasOut m1 hiso hproc ls]

theorem levelsList_cons (a b : Nat) (h : a < b) :
    levelsList (a, b) = a :: List.range' (a + 1) (b - a - 1) := by
  have h0 : levelsList (a, b) = List.range' a (b - a) := rfl
  rw [h0, show b - a = (b - a - 1) + 1 by omega, List.range'_succ]
  congr 2

theorem levelsList_single (a : Nat) : levelsList (a, a + 1) = [a] := by
  unfold levelsList
  simp

theorem levelsList_empty (a : Nat) : levelsList (a, a) = [] := by
  unfold levelsList
  simp

/-- Counterexample for C6: the depth/stencil outcome of `change` does depend
on the selector's mip-level range — an empty levels range suppresses
depth/stencil processing entirely. -/
theorem change_ds_levels_counterexample :
    (change ⟨[], [((0, 1), ⟨⟨1, 1⟩, ⟨1, 1⟩⟩)]⟩ 7 ⟨⟨false, true, false⟩, (0, 0), (0, 1)⟩ 2
        true).state.depth_stencil ≠
      (change ⟨[], [((0, 1), ⟨⟨1, 1⟩, ⟨1, 1⟩⟩)]⟩ 7 ⟨⟨false, true, false⟩, (0, 1), (0, 1)⟩ 2
        true).state.depth_stencil := by
  decide

/-- C6 (amended): for a depth/stencil selector (no color aspect), the
depth/stencil map is re-processed once per mip level of a nonempty levels
range, but every pass after the first is a no-op, so the whole call equals the
single-level call at `levels.start` (whose transitions carry
`levels.start .. levels.start + 1`); the resulting depth/stencil state is the
same for every nonempty levels range; an empty levels range performs no
depth/stencil processing at all. -/
theorem change_ds_levels_amended (s : TextureStates) (id : Nat) (asp : Aspects)
    (layers : Nat × Nat) (usage : Usage) (hasOut : Bool) (a b a' b' : Nat)
    (hcol : asp.color = false) (hds : asp.depth = true ∨ asp.stencil = true)
    (hwf : WFp s.depth_stencil = true) :
    (a < b → change s id ⟨asp, (a, b), layers⟩ usage hasOut =
      change s id ⟨asp, (a, a + 1), layers⟩ usage hasOut) ∧
    (a < b → a' < b' →
      (change s id ⟨asp, (a, b), layers⟩ usage hasOut).state.depth_stencil =
        (change s id ⟨asp, (a', b'), layers⟩ usage hasOut).state.depth_stencil) ∧
    (change s id ⟨asp, (a, a), layers⟩ usage hasOut = ⟨s, [], none⟩) := by
  have hchange : ∀ lv : Nat × Nat, change s id ⟨asp, lv, layers⟩ usage hasOut =
      ⟨⟨s.color_mips, (dsLevels id layers usage asp.depth asp.stencil hasOut
          (levelsList lv) s.depth_stencil).1⟩,
        (dsLevels id layers usage asp.depth asp.stencil hasOut
          (levelsList lv) s.depth_stencil).2.1,
        (dsLevels id layers usage asp.depth asp.stencil hasOut
          (levelsList lv) s.depth_stencil).2.2⟩ := by
    intro lv
    unfold change
    rw [hcol]
    simp only [Bool.false_eq_true, if_false, if_pos hds, List.nil_append]
  have hone : ∀ a0 b0 : Nat, a0 < b0 →
      dsLevels id layers usage asp.depth asp.stencil hasOut (levelsList (a0, b0))
          s.depth_stencil =
        dsLevels id layers usage asp.depth asp.stencil hasOut [a0] s.depth_stencil := by
    intro a0 b0 hlt
    rw [levelsList_cons a0 b0 hlt]
    exact dsLevels_cons_collapse id layers usage asp.depth asp.stencil hasOut a0 _ _ hwf
  refine ⟨?_, ?_, ?_⟩
  · intro hab
    rw [hchange (a, b), hchange (a, a + 1), hone a b hab, levelsList_single]
  · intro hab hab'
    rw [hchange (a, b), hchange (a', b'), hone a b hab, hone a' b' hab']
    simp only
    have hmap : ∀ a0 : Nat,
        (dsLevels id layers usage asp.depth asp.stencil hasOut [a0] s.depth_stencil).1 =
          (procDS id a0 layers usage asp.depth asp.stencil hasOut
            (isolate s.depth_stencil layers ⟨TUnit.new usage, TUnit.new usage⟩)).1 := by
      intro a0
      simp only [dsLevels]
      rcases hr : procDS id a0 layers usage asp.depth asp.stencil hasOut
          (isolate s.depth_stencil layers ⟨TUnit.new usage, TUnit.new usage⟩) with ⟨m1, o1, e1⟩
      cases e1 with
      | some e => rfl
      | none => rfl
    rw [hmap a, hmap a']
    rw [procDS_level id a a' layers usage asp.depth asp.stencil hasOut]
  · rw [hchange (a, a), levelsList_empty]
    rfl

/-- Witness for C6 (amended): a nonempty two-level range behaves exactly like
its first level alone. -/
theorem change_ds_levels_amended_witness :
    change ⟨[], [((0, 1), ⟨⟨1, 1⟩, ⟨1, 1⟩⟩)]⟩ 7 ⟨⟨false, true, false⟩, (0, 2), (0, 1)⟩ 2 true =
      change ⟨[], [((0, 1), ⟨⟨1, 1⟩, ⟨1, 1⟩⟩)]⟩ 7 ⟨⟨false, true, false⟩, (0, 1), (0, 1)⟩ 2
        true :=
  (change_ds_levels_amended ⟨[], [((0, 1), ⟨⟨1, 1⟩, ⟨1, 1⟩⟩)]⟩ 7 ⟨false, true, false⟩ (0, 1) 2
    true 0 2 0 0 rfl (Or.inl rfl) (by decide)).1 (by decide)

theorem procDS_wf (id level : Nat) (layers : Nat × Nat) (usage : Usage)
    (aspD aspS hasOut : Bool) (m : PlaneStates DepthStencilState) (h : WFp m = true) :
    WFp (procDS id level layers usage aspD aspS hasOut m).1 = true := by
  unfold WFp
  rw [procDS_ranges]
  exact h

theorem dsLevels_stencil (id : Nat) (layers : Nat × Nat) (usage : Usage)
    (aspD hasOut : Bool) (ls : List Nat) (m : PlaneStates DepthStencilState) (x : Nat)
    (v : DepthStencilState) (hwf : WFp m = true) (hcov : coveredAt m x = some v) :
    ∃ v', coveredAt (dsLevels id layers usage aspD false hasOut ls m).1 x = some v' ∧
      v'.stencil = v.stencil := by
  induction ls generalizing m v with
  | nil => exact ⟨v, hcov, rfl⟩
  | cons level ls ih =>
    have hciso : coveredAt (isolate m layers ⟨TUnit.new usage, TUnit.new usage⟩) x = some v :=
      coveredAt_isolate m layers _ x v hwf hcov
    have hwfiso : WFp (isolate m layers ⟨TUnit.new usage, TUnit.new usage⟩) = true :=
      isolate_wf m layers _ hwf
    have hwf1 : WFp (procDS id level layers usage aspD false hasOut
        (isolate m layers ⟨TUnit.new usage, TUnit.new usage⟩)).1 = true :=
      procDS_wf id level layers usage aspD false hasOut _ hwfiso
    have hmap := procDS_stencil id level layers usage aspD hasOut
      (isolate m layers ⟨TUnit.new usage, TUnit.new usage⟩) x
    rw [hciso] at hmap
    rcases hc1 : coveredAt (procDS id level layers usage aspD false hasOut
        (isolate m layers ⟨TUnit.new usage, TUnit.new usage⟩)).1 x with _ | v1
    · rw [hc1] at hmap
      simp at hmap
    · rw [hc1] at hmap
      simp only [Option.map_some', Option.some.injEq] at hmap
      rcases he : (procDS id level layers usage aspD false hasOut
          (isolate m layers ⟨TUnit.new usage, TUnit.new usage⟩)).2.2 with _ | e
      · rcases ih _ v1 hwf1 hc1 with ⟨v2, hv2, hv2s⟩
        refine ⟨v2, ?_, hv2s.trans hmap⟩
        simp only [dsLevels, he]
        exact hv2
      · refine ⟨v1, ?_, hmap⟩
        simp only [dsLevels, he]
        exact hc1

/-- Counterexample for C4: a depth-only `change` on a previously untracked
layer range makes that range tracked with a stencil unit equal to
`Unit::new(new usage)` — the stencil `last` acquires the new depth usage. -/
theorem change_depth_only_stencil_counterexample :
    coveredAt (⟨[], []⟩ : TextureStates).depth_stencil 0 = none ∧
    coveredAt (change ⟨[], []⟩ 7 ⟨⟨false, true, false⟩, (0, 1), (0, 1)⟩ 4
        false).state.depth_stencil 0 = some ⟨⟨4, 4⟩, ⟨4, 4⟩⟩ := by
  constructor
  · rfl
  · decide

/-- C4 (amended): a `change` whose selector does not request the Stencil
aspect leaves the stencil sub-state of every previously tracked layer range
unchanged; previously untracked layer ranges, however, may become tracked with
the isolation default, whose stencil unit equals `Unit::new(usage)`. -/
theorem change_depth_only_stencil_amended (s : TextureStates) (id : Nat) (asp : Aspects)
    (levels layers : Nat × Nat) (usage : Usage) (hasOut : Bool) (x : Nat)
    (v : DepthStencilState) (hst : asp.stencil = false)
    (hwf : WFp s.depth_stencil = true) (hcov : coveredAt s.depth_stencil x = some v) :
    ∃ v', coveredAt (change s id ⟨asp, levels, layers⟩ usage
        hasOut).state.depth_stencil x = some v' ∧ v'.stencil = v.stencil := by
  unfold change
  simp only [hst]
  by_cases hc : asp.color = true
  · simp only [hc, if_true]
    rcases he : (colorLevels id layers usage hasOut (levelsList levels)
        (growCM s.color_mips levels.2)).2.2 with _ | e
    · by_cases hd : asp.depth = true
      · simp only [hd, Bool.false_eq_true, or_false, if_true]
        exact hd ▸ dsLevels_stencil id layers usage asp.depth hasOut (levelsList levels)
          s.depth_stencil x v hwf hcov
      · have hd' : asp.depth = false := by
          cases hda : asp.depth
          · rfl
          · exact absurd hda hd
        simp only [hd', Bool.false_eq_true, or_false, if_false]
        exact ⟨v, hcov, rfl⟩
    · exact ⟨v, hcov, rfl⟩
  · have hc' : asp.color = false := by
      cases hca : asp.color
      · rfl
      · exact absurd hca hc
    simp only [hc', Bool.false_eq_true, if_false]
    by_cases hd : asp.depth = true
    · simp only [hd, or_false, if_true]
      exact hd ▸ dsLevels_stencil id layers usage asp.depth hasOut (levelsList levels)
        s.depth_stencil x v hwf hcov
    · have hd' : asp.depth = false := by
        cases hda : asp.depth
        · rfl
        · exact absurd hda hd
      simp only [hd', Bool.false_eq_true, or_false, if_false]
      exact ⟨v, hcov, rfl⟩

/-- Witness for C4 (amended): a depth-only change over layers 1..2 leaves the
stencil cell of the tracked range 0..1 unchanged. -/
theorem change_depth_only_stencil_amended_witness :
    ∃ v', coveredAt (change ⟨[], [((0, 1), ⟨⟨1, 1⟩, ⟨2, 2⟩⟩)]⟩ 7
        ⟨⟨false, true, false⟩, (0, 1), (1, 2)⟩ 4 false).state.depth_stencil 0 = some v' ∧
      v'.stencil = (⟨⟨1, 1⟩, ⟨2, 2⟩⟩ : DepthStencilState).stencil :=
  change_depth_only_stencil_amended ⟨[], [((0, 1), ⟨⟨1, 1⟩, ⟨2, 2⟩⟩)]⟩ 7 ⟨false, true, false⟩
    (0, 1) (1, 2) 4 false 0 ⟨⟨1, 1⟩, ⟨2, 2⟩⟩ rfl (by decide) (by decide)

/-! ### Merge: structure of the rebuilt maps and emitted transitions -/

/-- C9: `merge` always returns `Ok`; conflicts surface only as emitted
transitions, never as the error variant. -/
theorem merge_always_ok (s : TextureStates) (id : Nat) (other : TextureStates)
    (stitch : Stitch) (hasOut : Bool) :
    ∃ st outs, merge s id other stitch hasOut = .ok (st, outs) :=
  ⟨_, _, rfl⟩

theorem mergeColorRanges_map (id level : Nat) (stitch : Stitch) (hasOut : Bool)
    (L : List (LayerRange × (TUnit × TUnit))) :
    (mergeColorRanges id level stitch hasOut L).1 =
      L.map (fun e => (e.1, (⟨e.2.1.init, e.2.2.select stitch⟩ : TUnit))) := by
  induction L with
  | nil => rfl
  | cons e rest ih =>
    obtain ⟨layers, uv⟩ := e
    simp only [mergeColorRanges, List.map_cons, ih]

theorem mergeColorRanges_out (id level : Nat) (stitch : Stitch) (hasOut : Bool)
    (L : List (LayerRange × (TUnit × TUnit))) :
    (mergeColorRanges id level stitch hasOut L).2 =
      L.filterMap (fun e =>
        if hasOut = true ∧ e.2.1.last ≠ e.2.2.select stitch then
          some ⟨id, ⟨⟨true, false, false⟩, (level, level + 1), e.1⟩,
            (e.2.1.last, e.2.2.select stitch)⟩
        else none) := by
  induction L with
  | nil => rfl
  | cons e rest ih =>
    obtain ⟨layers, uv⟩ := e
    by_cases h : hasOut = true ∧ uv.1.last ≠ uv.2.select stitch
    · simp only [mergeColorRanges, List.filterMap_cons, if_pos h, ih]
      rfl
    · simp only [mergeColorRanges, List.filterMap_cons, if_neg h, ih]
      rw [List.nil_append]

theorem mergeDSRanges_map (id : Nat) (stitch : Stitch) (hasOut : Bool)
    (L : List (LayerRange × (DepthStencilState × DepthStencilState))) :
    (mergeDSRanges id stitch hasOut L).1 =
      L.map (fun e => (e.1, (⟨⟨e.2.1.depth.init, e.2.2.depth.select stitch⟩,
        ⟨e.2.1.stencil.init, e.2.2.stencil.select stitch⟩⟩ : DepthStencilState))) := by
  induction L with
  | nil => rfl
  | cons e rest ih =>
    obtain ⟨layers, uv⟩ := e
    simp only [mergeDSRanges, List.map_cons, ih]

theorem mergeDSRanges_out (id : Nat) (stitch : Stitch) (hasOut : Bool)
    (L : List (LayerRange × (DepthStencilState × DepthStencilState))) :
    (mergeDSRanges id stitch hasOut L).2 =
      (L.map (fun e =>
        (if hasOut = true ∧ e.2.1.depth.last ≠ e.2.2.depth.select stitch then
          [(⟨id, ⟨⟨false, true, false⟩, (0, 1), e.1⟩,
            (e.2.1.depth.last, e.2.2.depth.select stitch)⟩ : PendingTransition)]
        else []) ++
        (if hasOut = true ∧ e.2.1.stencil.last ≠ e.2.2.stencil.select stitch then
          [(⟨id, ⟨⟨false, false, true⟩, (0, 1), e.1⟩,
            (e.2.1.stencil.last, e.2.2.stencil.select stitch)⟩ : PendingTransition)]
        else []))).flatten := by
  induction L with
  | nil => rfl
  | cons e rest ih =>
    obtain ⟨layers, uv⟩ := e
    simp only [mergeDSRanges, List.map_cons, List.flatten_cons, ih, List.append_assoc]

theorem mergeMips_get_lt (id : Nat) (stitch : Stitch) (hasOut : Bool) :
    ∀ (as bs : List (PlaneStates TUnit)) (i j : Nat) (a b : PlaneStates TUnit),
      as.get? j = some a → bs.get? j = some b →
      (mergeMips id stitch hasOut i as bs).1.get? j =
        some (mergeColorRanges id (i + j) stitch hasOut (rsMerge a b unitDefault)).1 := by
  intro as
  induction as with
  | nil => intro bs i j a b ha _; simp at ha
  | cons a0 as ih =>
    intro bs i j a b ha hb
    cases bs with
    | nil => simp at hb
    | cons b0 bs =>
      cases j with
      | zero =>
        simp only [List.get?] at ha hb
        cases ha
        cases hb
        simp [mergeMips]
      | succ j =>
        simp only [List.get?] at ha hb
        simp only [mergeMips, List.get?]
        rw [show i + (j + 1) = i + 1 + j by omega]
        exact ih bs (i + 1) j a b ha hb

theorem mergeMips_get_ge (id : Nat) (stitch : Stitch) (hasOut : Bool) :
    ∀ (as bs : List (PlaneStates TUnit)) (i j : Nat), bs.length ≤ j →
      (mergeMips id stitch hasOut i as bs).1.get? j = as.get? j := by
  intro as
  induction as with
  | nil => intro bs i j _; cases bs <;> rfl
  | cons a0 as ih =>
    intro bs i j hj
    cases bs with
    | nil => rfl
    | cons b0 bs =>
      cases j with
      | zero => simp at hj
      | succ j =>
        simp only [mergeMips, List.get?]
        exact ih bs (i + 1) j (by simpa using hj)

theorem mergeMips_out (id : Nat) (stitch : Stitch) (hasOut : Bool) :
    ∀ (as bs : List (PlaneStates TUnit)) (i : Nat) (p : PendingTransition),
      p ∈ (mergeMips id stitch hasOut i as bs).2 ↔
        ∃ j a b, as.get? j = some a ∧ bs.get? j = some b ∧
          p ∈ (mergeColorRanges id (i + j) stitch hasOut (rsMerge a b unitDefault)).2 := by
  intro as
  induction as with
  | nil =>
    intro bs i p
    simp only [mergeMips, List.not_mem_nil, false_iff]
    rintro ⟨j, a, b, ha, -, -⟩
    simp at ha
  | cons a0 as ih =>
    intro bs i p
    cases bs with
    | nil =>
      simp only [mergeMips, List.not_mem_nil, false_iff]
      rintro ⟨j, a, b, -, hb, -⟩
      simp at hb
    | cons b0 bs =>
      simp only [mergeMips, List.mem_append, ih bs (i + 1) p]
      constructor
      · rintro (hp | ⟨j, a, b, ha, hb, hp⟩)
        · exact ⟨0, a0, b0, rfl, rfl, by simpa using hp⟩
        · exact ⟨j + 1, a, b, by simpa using ha, by simpa using hb,
            by rw [show i + 1 + j = i + (j + 1) by omega] at hp; exact hp⟩
      · rintro ⟨j, a, b, ha, hb, hp⟩
        cases j with
        | zero =>
          simp only [List.get?] at ha hb
          cases ha
          cases hb
          exact Or.inl (by simpa using hp)
        | succ j =>
          simp only [List.get?] at ha hb
          exact Or.inr ⟨j, a, b, ha, hb,
            by rw [show i + 1 + j = i + (j + 1) by omega]; exact hp⟩

theorem mem_insertPt (x z : Nat) : ∀ l : List Nat, z ∈ insertPt x l → z = x ∨ z ∈ l := by
  intro l
  induction l with
  | nil => intro h; simpa [insertPt] using h
  | cons y ys ih =>
    intro h
    unfold insertPt at h
    by_cases h1 : x < y
    · rw [if_pos h1] at h
      rcases List.mem_cons.1 h with h | h
      · exact Or.inl h
      · exact Or.inr h
    · rw [if_neg h1] at h
      by_cases h2 : x = y
      · rw [if_pos h2] at h
        exact Or.inr h
      · rw [if_neg h2] at h
        rcases List.mem_cons.1 h with h | h
        · exact Or.inr (by simp [h])
        · rcases ih h with h | h
          · exact Or.inl h
          · exact Or.inr (List.mem_cons_of_mem _ h)

theorem insertPt_pairwise (x : Nat) : ∀ l : List Nat, l.Pairwise (· < ·) →
    (insertPt x l).Pairwise (· < ·) := by
  intro l
  induction l with
  | nil => intro _; simp [insertPt]
  | cons y ys ih =>
    intro h
    rcases List.pairwise_cons.1 h with ⟨hy, hys⟩
    unfold insertPt
    by_cases h1 : x < y
    · rw [if_pos h1]
      exact List.pairwise_cons.2 ⟨fun z hz => by
        rcases List.mem_cons.1 hz with rfl | hz
        · exact h1
        · exact Nat.lt_trans h1 (hy z hz), h⟩
    · rw [if_neg h1]
      by_cases h2 : x = y
      · rw [if_pos h2]
        exact h
      · rw [if_neg h2]
        have hyx : y < x := by omega
        exact List.pairwise_cons.2 ⟨fun z hz => by
          rcases mem_insertPt x z ys hz with rfl | hz
          · exact hyx
          · exact hy z hz, ih hys⟩

theorem foldr_insertPt_pairwise : ∀ l : List Nat, (l.foldr insertPt []).Pairwise (· < ·) := by
  intro l
  induction l with
  | nil => simp
  | cons x xs ih => exact insertPt_pairwise x _ ih

theorem boundaryPts_pairwise {A B : Type} (a : PlaneStates A) (b : PlaneStates B) :
    (boundaryPts a b).Pairwise (· < ·) :=
  foldr_insertPt_pairwise _

theorem zip_tail_pairwise : ∀ l : List Nat, l.Pairwise (· < ·) →
    (l.zip l.tail).Pairwise (fun e f => e.1 < f.1) := by
  intro l
  induction l with
  | nil => intro _; simp
  | cons x ys ih =>
    intro h
    cases ys with
    | nil => simp
    | cons y r =>
      rcases List.pairwise_cons.1 h with ⟨hx, hyr⟩
      simp only [List.tail_cons, List.zip_cons_cons]
      refine List.pairwise_cons.2 ⟨fun f hf => ?_, ?_⟩
      · have := (List.of_mem_zip hf).1
        exact hx f.1 this
      · exact ih hyr

theorem rsMerge_f_key {T : Type} (a b : PlaneStates T) (d : T) (pq : Nat × Nat)
    (e : LayerRange × (T × T))
    (h : (match coveredAt a pq.1, coveredAt b pq.1 with
      | none, none => none
      | sa, sb => some ((pq.1, pq.2), (sa.getD d, sb.getD d))) = some e) :
    e.1 = pq := by
  rcases ha : coveredAt a pq.1 with _ | va <;> rcases hb : coveredAt b pq.1 with _ | vb <;>
    rw [ha, hb] at h
  · simp at h
  · injection h with h
    rw [← h]
  · injection h with h
    rw [← h]
  · injection h with h
    rw [← h]

theorem filterMap_key_pairwise {T : Type} (a b : PlaneStates T) (d : T) :
    ∀ l : List (Nat × Nat), l.Pairwise (fun e f => e.1 < f.1) →
    (l.filterMap (fun pq =>
      match coveredAt a pq.1, coveredAt b pq.1 with
      | none, none => none
      | sa, sb => some ((pq.1, pq.2), (sa.getD d, sb.getD d)))).Pairwise
        (fun e f => e.1.1 < f.1.1) := by
  intro l
  induction l with
  | nil => intro _; simp
  | cons pq rest ih =>
    intro hpw
    rcases List.pairwise_cons.1 hpw with ⟨hpq, hrest⟩
    rw [List.filterMap_cons]
    rcases hf : (match coveredAt a pq.1, coveredAt b pq.1 with
      | none, none => none
      | sa, sb => some ((pq.1, pq.2), (sa.getD d, sb.getD d))) with _ | e
    · simp only [hf]
      exact ih hrest
    · simp only [hf]
      refine List.pairwise_cons.2 ⟨fun f hf' => ?_, ih hrest⟩
      rcases List.mem_filterMap.1 hf' with ⟨pq', hpq', hfe⟩
      have hk := rsMerge_f_key a b d pq' f hfe
      have hk0 := rsMerge_f_key a b d pq e hf
      rw [hk, hk0]
      exact hpq pq' hpq'

theorem rsMerge_pairwise_keys {T : Type} (a b : PlaneStates T) (d : T) :
    (rsMerge a b d).Pairwise (fun e f => e.1.1 < f.1.1) := by
  simp only [rsMerge]
  exact filterMap_key_pairwise a b d _ (zip_tail_pairwise _ (boundaryPts_pairwise a b))

theorem pairwise_key_unique {T : Type} :
    ∀ l : List (LayerRange × (T × T)), l.Pairwise (fun e f => e.1.1 < f.1.1) →
    ∀ (rng : LayerRange) (uv uv' : T × T), (rng, uv) ∈ l → (rng, uv') ∈ l → uv = uv' := by
  intro l
  induction l with
  | nil =>
    intro _ rng uv uv' h1
    simp at h1
  | cons e rest ih =>
    intro hpw rng uv uv' h1 h2
    rcases List.pairwise_cons.1 hpw with ⟨he, hrest⟩
    rcases List.mem_cons.1 h1 with h1h | h1'
    · rcases List.mem_cons.1 h2 with h2h | h2'
      · exact congrArg Prod.snd (h1h.trans h2h.symm)
      · rw [← h1h] at he
        exact absurd (he _ h2') (by simp)
    · rcases List.mem_cons.1 h2 with h2h | h2'
      · rw [← h2h] at he
        exact absurd (he _ h1') (by simp)
      · exact ih hrest rng uv uv' h1' h2'

theorem rsMerge_key_unique {T : Type} (a b : PlaneStates T) (d : T)
    (rng : LayerRange) (uv uv' : T × T) (h1 : (rng, uv) ∈ rsMerge a b d)
    (h2 : (rng, uv') ∈ rsMerge a b d) : uv = uv' :=
  pairwise_key_unique _ (rsMerge_pairwise_keys a b d) rng uv uv' h1 h2

theorem getD_of_get? {α : Type} (l : List α) (i : Nat) (x d : α) (h : l.get? i = some x) :
    l.getD i d = x := by
  induction l generalizing i with
  | nil => simp at h
  | cons y ys ih =>
    cases i with
    | zero =>
      simp only [List.get?] at h
      cases h
      rfl
    | succ i =>
      simp only [List.get?] at h
      simpa [List.getD] using ih i h

theorem mem_mergeColorRanges_out (id level : Nat) (stitch : Stitch) (hasOut : Bool)
    (L : List (LayerRange × (TUnit × TUnit))) (p : PendingTransition) :
    p ∈ (mergeColorRanges id level stitch hasOut L).2 ↔
      ∃ e ∈ L, (hasOut = true ∧ e.2.1.last ≠ e.2.2.select stitch) ∧
        p = ⟨id, ⟨⟨true, false, false⟩, (level, level + 1), e.1⟩,
          (e.2.1.last, e.2.2.select stitch)⟩ := by
  rw [mergeColorRanges_out, List.mem_filterMap]
  constructor
  · rintro ⟨e, he, hfe⟩
    by_cases hcond : hasOut = true ∧ e.2.1.last ≠ e.2.2.select stitch
    · rw [if_pos hcond] at hfe
      exact ⟨e, he, hcond, by injection hfe with hfe; rw [hfe]⟩
    · rw [if_neg hcond] at hfe
      simp at hfe
  · rintro ⟨e, he, hcond, rfl⟩
    exact ⟨e, he, by rw [if_pos hcond]⟩

theorem mem_mergeDSRanges_out (id : Nat) (stitch : Stitch) (hasOut : Bool)
    (L : List (LayerRange × (DepthStencilState × DepthStencilState))) (p : PendingTransition) :
    p ∈ (mergeDSRanges id stitch hasOut L).2 ↔
      ∃ e ∈ L,
        ((hasOut = true ∧ e.2.1.depth.last ≠ e.2.2.depth.select stitch) ∧
          p = ⟨id, ⟨⟨false, true, false⟩, (0, 1), e.1⟩,
            (e.2.1.depth.last, e.2.2.depth.select stitch)⟩) ∨
        ((hasOut = true ∧ e.2.1.stencil.last ≠ e.2.2.stencil.select stitch) ∧
          p = ⟨id, ⟨⟨false, false, true⟩, (0, 1), e.1⟩,
            (e.2.1.stencil.last, e.2.2.stencil.select stitch)⟩) := by
  rw [mergeDSRanges_out, List.mem_flatten]
  constructor
  · rintro ⟨part, hpart, hp⟩
    rcases List.mem_map.1 hpart with ⟨e, he, rfl⟩
    refine ⟨e, he, ?_⟩
    rcases List.mem_append.1 hp with hp | hp
    · by_cases hcond : hasOut = true ∧ e.2.1.depth.last ≠ e.2.2.depth.select stitch
      · rw [if_pos hcond] at hp
        exact Or.inl ⟨hcond, by simpa using hp⟩
      · rw [if_neg hcond] at hp
        simp at hp
    · by_cases hcond : hasOut = true ∧ e.2.1.stencil.last ≠ e.2.2.stencil.select stitch
      · rw [if_pos hcond] at hp
        exact Or.inr ⟨hcond, by simpa using hp⟩
      · rw [if_neg hcond] at hp
        simp at hp
  · rintro ⟨e, he, (⟨hcond, rfl⟩ | ⟨hcond, rfl⟩)⟩
    · refine ⟨_, List.mem_map.2 ⟨e, he, rfl⟩, ?_⟩
      rw [if_pos hcond]
      simp
    · refine ⟨_, List.mem_map.2 ⟨e, he, rfl⟩, ?_⟩
      rw [if_pos hcond]
      simp

/-- Counterexample for C2: a mip level tracked in `self` but beyond `other`'s
tracked mip count is skipped by the zip in `merge` — no transition bridges its
entries to the other side's (absent, default) state and its `last` usage is
left unchanged rather than set to the stitched target. -/
theorem merge_bridging_counterexample :
    merge ⟨[[((0, 1), ⟨1, 1⟩)]], []⟩ 7 ⟨[], []⟩ .Init true =
      .ok (⟨[[((0, 1), ⟨1, 1⟩)]], []⟩, []) := by
  rfl

/-- C2 (amended): for every `merge` call, every maximal constant sub-range
of the union of covered ranges — per mip level for color, restricted to mip
levels the other tracker actually has, and per layer range for depth and
stencil separately — is rebuilt with the self side's `init`, `last` equal to
the other side's stitched target, and yields a `PendingTransition` for exactly
that slice in the output iff a sink is present and the source differs from the
target; self's color mips at or beyond other's mip count are left unchanged. -/
theorem merge_bridging_amended (s : TextureStates) (id : Nat) (other : TextureStates)
    (stitch : Stitch) (hasOut : Bool) (st : TextureStates) (outs : List PendingTransition)
    (hm : merge s id other stitch hasOut = .ok (st, outs)) :
    (∀ i a b rng sU oU,
      (growCM s.color_mips other.color_mips.length).get? i = some a →
      other.color_mips.get? i = some b →
      (rng, (sU, oU)) ∈ rsMerge a b unitDefault →
      ((rng, (⟨sU.init, oU.select stitch⟩ : TUnit)) ∈ st.color_mips.getD i [] ∧
       ((⟨id, ⟨⟨true, false, false⟩, (i, i + 1), rng⟩, (sU.last, oU.select stitch)⟩ :
          PendingTransition) ∈ outs ↔
         hasOut = true ∧ sU.last ≠ oU.select stitch))) ∧
    (∀ rng sDS oDS,
      (rng, (sDS, oDS)) ∈ rsMerge s.depth_stencil other.depth_stencil dsDefault →
      ((rng, (⟨⟨sDS.depth.init, oDS.depth.select stitch⟩,
          ⟨sDS.stencil.init, oDS.stencil.select stitch⟩⟩ : DepthStencilState)) ∈
            st.depth_stencil ∧
       ((⟨id, ⟨⟨false, true, false⟩, (0, 1), rng⟩,
          (sDS.depth.last, oDS.depth.select stitch)⟩ : PendingTransition) ∈ outs ↔
         hasOut = true ∧ sDS.depth.last ≠ oDS.depth.select stitch) ∧
       ((⟨id, ⟨⟨false, false, true⟩, (0, 1), rng⟩,
          (sDS.stencil.last, oDS.stencil.select stitch)⟩ : PendingTransition) ∈ outs ↔
         hasOut = true ∧ sDS.stencil.last ≠ oDS.stencil.select stitch))) ∧
    (∀ i, other.color_mips.length ≤ i →
      st.color_mips.get? i = (growCM s.color_mips other.color_mips.length).get? i) := by
  unfold merge at hm
  injection hm with hm
  rw [Prod.mk.injEq] at hm
  obtain ⟨hm1, hm2⟩ := hm
  subst hm1
  subst hm2
  refine ⟨?_, ?_, ?_⟩
  · intro i a b rng sU oU ha hb hmem
    have hplane := mergeMips_get_lt id stitch hasOut
      (growCM s.color_mips other.color_mips.length) other.color_mips 0 i a b ha hb
    rw [Nat.zero_add] at hplane
    constructor
    · show _ ∈ (mergeMips id stitch hasOut 0 _ other.color_mips).1.getD i []
      rw [getD_of_get? _ i _ [] hplane, mergeColorRanges_map]
      exact List.mem_map.2 ⟨(rng, (sU, oU)), hmem, rfl⟩
    · constructor
      · intro hp
        rcases List.mem_append.1 hp with hp | hp
        · rcases (mergeMips_out id stitch hasOut _ other.color_mips 0 _).1 hp with
            ⟨j, a', b', ha', hb', hp'⟩
          rw [Nat.zero_add] at hp'
          rcases (mem_mergeColorRanges_out id j stitch hasOut _ _).1 hp' with
            ⟨e, he, hcond, heq⟩
          obtain ⟨erng, eu, eo⟩ := e
          simp only [PendingTransition.mk.injEq, SubresourceRange.mk.injEq,
            Prod.mk.injEq] at heq
          obtain ⟨-, ⟨-, ⟨hji, -⟩, hrng⟩, hlast, htgt⟩ := heq
          subst hji
          rw [ha] at ha'
          rw [hb] at hb'
          injection ha' with ha'
          injection hb' with hb'
          subst ha'
          subst hb'
          rw [← hrng] at he
          have := rsMerge_key_unique a b unitDefault rng (sU, oU) (eu, eo) hmem he
          rw [Prod.mk.injEq] at this
          obtain ⟨rfl, rfl⟩ := this
          exact ⟨hcond.1, by rw [hlast, htgt]; exact hcond.2⟩
        · rcases (mem_mergeDSRanges_out id stitch hasOut _ _).1 hp with ⟨e, he, hor⟩
          rcases hor with ⟨-, heq⟩ | ⟨-, heq⟩ <;>
            simp [PendingTransition.mk.injEq, SubresourceRange.mk.injEq,
              Aspects.mk.injEq] at heq
      · rintro ⟨ho, hne⟩
        refine List.mem_append.2 (Or.inl ?_)
        refine (mergeMips_out id stitch hasOut _ other.color_mips 0 _).2
          ⟨i, a, b, ha, hb, ?_⟩
        rw [Nat.zero_add]
        exact (mem_mergeColorRanges_out id i stitch hasOut _ _).2
          ⟨(rng, (sU, oU)), hmem, ⟨ho, hne⟩, rfl⟩
  · intro rng sDS oDS hmem
    refine ⟨?_, ?_, ?_⟩
    · show _ ∈ (mergeDSRanges id stitch hasOut _).1
      rw [mergeDSRanges_map]
      exact List.mem_map.2 ⟨(rng, (sDS, oDS)), hmem, rfl⟩
    · constructor
      · intro hp
        rcases List.mem_append.1 hp with hp | hp
        · rcases (mergeMips_out id stitch hasOut _ other.color_mips 0 _).1 hp with
            ⟨j, a', b', -, -, hp'⟩
          rcases (mem_mergeColorRanges_out id (0 + j) stitch hasOut _ _).1 hp' with
            ⟨e, -, -, heq⟩
          simp [PendingTransition.mk.injEq, SubresourceRange.mk.injEq,
            Aspects.mk.injEq] at heq
        · rcases (mem_mergeDSRanges_out id stitch hasOut _ _).1 hp with ⟨e, he, hor⟩
          obtain ⟨erng, eu, eo⟩ := e
          rcases hor with ⟨hcond, heq⟩ | ⟨-, heq⟩
          · simp only [PendingTransition.mk.injEq, SubresourceRange.mk.injEq,
              Prod.mk.injEq] at heq
            obtain ⟨-, ⟨-, -, hrng⟩, hlast, htgt⟩ := heq
            rw [← hrng] at he
            have := rsMerge_key_unique s.depth_stencil other.depth_stencil dsDefault rng
              (sDS, oDS) (eu, eo) hmem he
            rw [Prod.mk.injEq] at this
            obtain ⟨rfl, rfl⟩ := this
            exact ⟨hcond.1, by rw [hlast, htgt]; exact hcond.2⟩
          · simp [PendingTransition.mk.injEq, SubresourceRange.mk.injEq,
              Aspects.mk.injEq] at heq
      · rintro ⟨ho, hne⟩
        refine List.mem_append.2 (Or.inr ?_)
        exact (mem_mergeDSRanges_out id stitch hasOut _ _).2
          ⟨(rng, (sDS, oDS)), hmem, Or.inl ⟨⟨ho, hne⟩, rfl⟩⟩
    · constructor
      · intro hp
        rcases List.mem_append.1 hp with hp | hp
        · rcases (mergeMips_out id stitch hasOut _ other.color_mips 0 _).1 hp with
            ⟨j, a', b', -, -, hp'⟩
          rcases (mem_mergeColorRanges_out id (0 + j) stitch hasOut _ _).1 hp' with
            ⟨e, -, -, heq⟩
          simp [PendingTransition.mk.injEq, SubresourceRange.mk.injEq,
            Aspects.mk.injEq] at heq
        · rcases (mem_mergeDSRanges_out id stitch hasOut _ _).1 hp with ⟨e, he, hor⟩
          obtain ⟨erng, eu, eo⟩ := e
          rcases hor with ⟨-, heq⟩ | ⟨hcond, heq⟩
          · simp [PendingTransition.mk.injEq, SubresourceRange.mk.injEq,
              Aspects.mk.injEq] at heq
          · simp only [PendingTransition.mk.injEq, SubresourceRange.mk.injEq,
              Prod.mk.injEq] at heq
            obtain ⟨-, ⟨-, -, hrng⟩, hlast, htgt⟩ := heq
            rw [← hrng] at he
            have := rsMerge_key_unique s.depth_stencil other.depth_stencil dsDefault rng
              (sDS, oDS) (eu, eo) hmem he
            rw [Prod.mk.injEq] at this
            obtain ⟨rfl, rfl⟩ := this
            exact ⟨hcond.1, by rw [hlast, htgt]; exact hcond.2⟩
      · rintro ⟨ho, hne⟩
        refine List.mem_append.2 (Or.inr ?_)
        exact (mem_mergeDSRanges_out id stitch hasOut _ _).2
          ⟨(rng, (sDS, oDS)), hmem, Or.inr ⟨⟨ho, hne⟩, rfl⟩⟩
  · intro i hi
    exact mergeMips_get_ge id stitch hasOut _ other.color_mips 0 i hi

/-- Witness for C2 (amended): merging a tracker ending at usage 1 with one
starting at usage 2 rebuilds `last = 2` with the old `init` and emits the
bridging transition `1 .. 2`. -/
theorem merge_bridging_amended_witness :
    ((0, 1), (⟨1, 2⟩ : TUnit)) ∈
        (⟨[[((0, 1), ⟨1, 2⟩)]], []⟩ : TextureStates).color_mips.getD 0 [] ∧
      ((⟨7, ⟨⟨true, false, false⟩, (0, 1), (0, 1)⟩, (1, 2)⟩ : PendingTransition) ∈
          [(⟨7, ⟨⟨true, false, false⟩, (0, 1), (0, 1)⟩, (1, 2)⟩ : PendingTransition)] ↔
        true = true ∧ (1 : Usage) ≠ 2) :=
  (merge_bridging_amended ⟨[[((0, 1), ⟨1, 1⟩)]], []⟩ 7 ⟨[[((0, 1), ⟨2, 2⟩)]], []⟩ .Init true
    ⟨[[((0, 1), ⟨1, 2⟩)]], []⟩ [⟨7, ⟨⟨true, false, false⟩, (0, 1), (0, 1)⟩, (1, 2)⟩] rfl).1
    0 [((0, 1), ⟨1, 1⟩)] [((0, 1), ⟨2, 2⟩)] (0, 1) ⟨1, 1⟩ ⟨2, 2⟩ rfl rfl (by decide)

theorem list_set_of_length_le {α : Type} : ∀ (l : List α) (i : Nat) (a : α),
    l.length ≤ i → l.set i a = l := by
  intro l
  induction l with
  | nil => intro i a _; cases i <;> rfl
  | cons x xs ih =>
    intro i a hi
    cases i with
    | zero => simp at hi
    | succ i =>
      simp only [List.set]
      rw [ih i a (by simpa using hi)]

theorem getD_set_eq {α : Type} : ∀ (l : List α) (i : Nat) (a d : α),
    i < l.length → (l.set i a).getD i d = a := by
  intro l
  induction l with
  | nil => intro i a d hi; simp at hi
  | cons x xs ih =>
    intro i a d hi
    cases i with
    | zero => rfl
    | succ i => exact ih i a d (by simpa using hi)

theorem getD_set_ne {α : Type} : ∀ (l : List α) (i j : Nat) (a d : α),
    i ≠ j → (l.set i a).getD j d = l.getD j d := by
  intro l
  induction l with
  | nil => intro i j a d _; cases i <;> rfl
  | cons x xs ih =>
    intro i j a d hij
    cases i with
    | zero =>
      cases j with
      | zero => exact absurd rfl hij
      | succ j => rfl
    | succ i =>
      cases j with
      | zero => rfl
      | succ j => exact ih i j a d (by omega)

theorem getD_append_replicate_nil {T : Type} :
    ∀ (mips : List (PlaneStates T)) (k i : Nat),
      (mips ++ List.replicate k []).getD i [] = mips.getD i [] := by
  intro mips
  induction mips with
  | nil =>
    intro k i
    simp only [List.nil_append]
    induction k generalizing i with
    | zero => rfl
    | succ k ihk =>
      cases i with
      | zero => rfl
      | succ i => exact ihk i
  | cons p ps ih =>
    intro k i
    cases i with
    | zero => rfl
    | succ i => exact ih k i

theorem growCM_getD (mips : List (PlaneStates TUnit)) (n i : Nat) :
    (growCM mips n).getD i [] = mips.getD i [] :=
  getD_append_replicate_nil mips _ i

theorem procColor_wf (id level : Nat) (layers : Nat × Nat) (usage : Usage) (hasOut : Bool)
    (m : PlaneStates TUnit) (h : WFp m = true) :
    WFp (procColor id level layers usage hasOut m).1 = true := by
  unfold WFp
  rw [procColor_ranges]
  exact h

theorem colorLevels_init (id : Nat) (layers : Nat × Nat) (usage : Usage) (hasOut : Bool) :
    ∀ (ls : List Nat) (mips : List (PlaneStates TUnit)),
      (∀ i : Nat, WFp (mips.getD i []) = true) →
      (∀ i : Nat, WFp ((colorLevels id layers usage hasOut ls mips).1.getD i []) = true) ∧
      (∀ (lvl x : Nat) (v : TUnit), coveredAt (mips.getD lvl []) x = some v →
        ∃ v', coveredAt ((colorLevels id layers usage hasOut ls mips).1.getD lvl []) x =
          some v' ∧ v'.init = v.init) := by
  intro ls
  induction ls with
  | nil =>
    intro mips hwfall
    exact ⟨hwfall, fun lvl x v h => ⟨v, h, rfl⟩⟩
  | cons level ls ih =>
    intro mips hwfall
    have hwfiso : WFp (isolate (mips.getD level []) layers (TUnit.new usage)) = true :=
      isolate_wf _ layers _ (hwfall level)
    have hwfP : WFp (procColor id level layers usage hasOut
        (isolate (mips.getD level []) layers (TUnit.new usage))).1 = true :=
      procColor_wf id level layers usage hasOut _ hwfiso
    have hwf' : ∀ i : Nat, WFp ((mips.set level (procColor id level layers usage hasOut
        (isolate (mips.getD level []) layers (TUnit.new usage))).1).getD i []) = true := by
      intro i
      by_cases hil : level = i
      · subst hil
        by_cases hlen : level < mips.length
        · rw [getD_set_eq _ _ _ _ hlen]
          exact hwfP
        · rw [list_set_of_length_le _ _ _ (by omega)]
          exact hwfall level
      · rw [getD_set_ne _ _ _ _ _ hil]
        exact hwfall i
    have hcov' : ∀ (lvl x : Nat) (v : TUnit), coveredAt (mips.getD lvl []) x = some v →
        ∃ v', coveredAt ((mips.set level (procColor id level layers usage hasOut
          (isolate (mips.getD level []) layers (TUnit.new usage))).1).getD lvl []) x =
            some v' ∧ v'.init = v.init := by
      intro lvl x v hcov
      by_cases hil : level = lvl
      · subst hil
        by_cases hlen : level < mips.length
        · rw [getD_set_eq _ _ _ _ hlen]
          have hciso : coveredAt (isolate (mips.getD level []) layers (TUnit.new usage)) x =
              some v := coveredAt_isolate _ layers _ x v (hwfall level) hcov
          have hmap := procColor_init id level layers usage hasOut
            (isolate (mips.getD level []) layers (TUnit.new usage)) x
          rw [hciso] at hmap
          rcases hc1 : coveredAt (procColor id level layers usage hasOut
              (isolate (mips.getD level []) layers (TUnit.new usage))).1 x with _ | v1
          · rw [hc1] at hmap
            simp at hmap
          · rw [hc1] at hmap
            simp only [Option.map_some', Option.some.injEq] at hmap
            exact ⟨v1, rfl, hmap⟩
        · rw [list_set_of_length_le _ _ _ (by omega)]
          exact ⟨v, hcov, rfl⟩
      · rw [getD_set_ne _ _ _ _ _ hil]
        exact ⟨v, hcov, rfl⟩
    rcases he : (procColor id level layers usage hasOut
        (isolate (mips.getD level []) layers (TUnit.new usage))).2.2 with _ | e
    · have hrec := ih (mips.set level (procColor id level layers usage hasOut
        (isolate (mips.getD level []) layers (TUnit.new usage))).1) hwf'
      refine ⟨?_, ?_⟩
      · intro i
        have := hrec.1 i
        simp only [colorLevels, he]
        exact this
      · intro lvl x v hcov
        rcases hcov' lvl x v hcov with ⟨v1, hv1, hv1i⟩
        rcases hrec.2 lvl x v1 hv1 with ⟨v2, hv2, hv2i⟩
        refine ⟨v2, ?_, hv2i.trans hv1i⟩
        simp only [colorLevels, he]
        exact hv2
    · refine ⟨?_, ?_⟩
      · intro i
        simp only [colorLevels, he]
        exact hwf' i
      · intro lvl x v hcov
        rcases hcov' lvl x v hcov with ⟨v1, hv1, hv1i⟩
        refine ⟨v1, ?_, hv1i⟩
        simp only [colorLevels, he]
        exact hv1

theorem dsLevels_init (id : Nat) (layers : Nat × Nat) (usage : Usage)
    (aspD aspS hasOut : Bool) (ls : List Nat) (m : PlaneStates DepthStencilState) (x : Nat)
    (v : DepthStencilState) (hwf : WFp m = true) (hcov : coveredAt m x = some v) :
    ∃ v', coveredAt (dsLevels id layers usage aspD aspS hasOut ls m).1 x = some v' ∧
      v'.depth.init = v.depth.init ∧ v'.stencil.init = v.stencil.init := by
  induction ls generalizing m v with
  | nil => exact ⟨v, hcov, rfl, rfl⟩
  | cons level ls ih =>
    have hciso : coveredAt (isolate m layers ⟨TUnit.new usage, TUnit.new usage⟩) x = some v :=
      coveredAt_isolate m layers _ x v hwf hcov
    have hwfiso : WFp (isolate m layers ⟨TUnit.new usage, TUnit.new usage⟩) = true :=
      isolate_wf m layers _ hwf
    have hwf1 : WFp (procDS id level layers usage aspD aspS hasOut
        (isolate m layers ⟨TUnit.new usage, TUnit.new usage⟩)).1 = true :=
      procDS_wf id level layers usage aspD aspS hasOut _ hwfiso
    have hmap := procDS_init id level layers usage aspD aspS hasOut
      (isolate m layers ⟨TUnit.new usage, TUnit.new usage⟩) x
    rw [hciso] at hmap
    rcases hc1 : coveredAt (procDS id level layers usage aspD aspS hasOut
        (isolate m layers ⟨TUnit.new usage, TUnit.new usage⟩)).1 x with _ | v1
    · rw [hc1] at hmap
      simp at hmap
    · rw [hc1] at hmap
      simp only [Option.map_some', Option.some.injEq, Prod.mk.injEq] at hmap
      rcases he : (procDS id level layers usage aspD aspS hasOut
          (isolate m layers ⟨TUnit.new usage, TUnit.new usage⟩)).2.2 with _ | e
      · rcases ih _ v1 hwf1 hc1 with ⟨v2, hv2, hv2d, hv2s⟩
        refine ⟨v2, ?_, hv2d.trans hmap.1, hv2s.trans hmap.2⟩
        simp only [dsLevels, he]
        exact hv2
      · refine ⟨v1, ?_, hmap.1, hmap.2⟩
        simp only [dsLevels, he]
        exact hc1

/-- C7: once a subresource slice is tracked, neither `change` nor `merge`
modifies its `init` usage: `change` assigns only `last` fields (for color and
for both depth/stencil sub-units, on success and on the error path alike), and
`merge` rebuilds every merged range with the self side's prior `init`, only
`last` advancing to the stitched target. -/
theorem init_never_changes :
    (∀ (s : TextureStates) (id : Nat) (sel : SubresourceRange) (usage : Usage)
      (hasOut : Bool) (lvl x : Nat) (v : TUnit),
      (∀ i : Nat, WFp (s.color_mips.getD i []) = true) →
      coveredAt (s.color_mips.getD lvl []) x = some v →
      ∃ v', coveredAt ((change s id sel usage hasOut).state.color_mips.getD lvl []) x =
        some v' ∧ v'.init = v.init) ∧
    (∀ (s : TextureStates) (id : Nat) (sel : SubresourceRange) (usage : Usage)
      (hasOut : Bool) (x : Nat) (v : DepthStencilState),
      WFp s.depth_stencil = true →
      coveredAt s.depth_stencil x = some v →
      ∃ v', coveredAt ((change s id sel usage hasOut).state.depth_stencil) x = some v' ∧
        v'.depth.init = v.depth.init ∧ v'.stencil.init = v.stencil.init) ∧
    (∀ (s : TextureStates) (id : Nat) (other : TextureStates) (stitch : Stitch)
      (hasOut : Bool) (st : TextureStates) (outs : List PendingTransition),
      merge s id other stitch hasOut = .ok (st, outs) →
      (∀ i a b rng sU oU,
        (growCM s.color_mips other.color_mips.length).get? i = some a →
        other.color_mips.get? i = some b →
        (rng, (sU, oU)) ∈ rsMerge a b unitDefault →
        (rng, (⟨sU.init, oU.select stitch⟩ : TUnit)) ∈ st.color_mips.getD i []) ∧
      (∀ rng sDS oDS,
        (rng, (sDS, oDS)) ∈ rsMerge s.depth_stencil other.depth_stencil dsDefault →
        (rng, (⟨⟨sDS.depth.init, oDS.depth.select stitch⟩,
          ⟨sDS.stencil.init, oDS.stencil.select stitch⟩⟩ : DepthStencilState)) ∈
            st.depth_stencil)) := by
  refine ⟨?_, ?_, ?_⟩
  · intro s id sel usage hasOut lvl x v hwfall hcov
    unfold change
    by_cases hc : sel.aspects.color = true
    · simp only [hc, if_true]
      have hgall : ∀ i : Nat, WFp ((growCM s.color_mips sel.levels.2).getD i []) = true := by
        intro i
        rw [growCM_getD]
        exact hwfall i
      have hg : coveredAt ((growCM s.color_mips sel.levels.2).getD lvl []) x = some v := by
        rw [growCM_getD]
        exact hcov
      have hcl := (colorLevels_init id sel.layers usage hasOut (levelsList sel.levels) _
        hgall).2 lvl x v hg
      rcases he : (colorLevels id sel.layers usage hasOut (levelsList sel.levels)
          (growCM s.color_mips sel.levels.2)).2.2 with _ | e
      · simp only [he]
        by_cases hds : sel.aspects.depth = true ∨ sel.aspects.stencil = true
        · simp only [if_pos hds]
          exact hcl
        · simp only [if_neg hds]
          exact hcl
      · simp only [he]
        exact hcl
    · have hc' : sel.aspects.color = false := by
        cases hcc : sel.aspects.color
        · rfl
        · exact absurd hcc hc
      simp only [hc', Bool.false_eq_true, if_false]
      by_cases hds : sel.aspects.depth = true ∨ sel.aspects.stencil = true
      · simp only [if_pos hds]
        exact ⟨v, hcov, rfl⟩
      · simp only [if_neg hds]
        exact ⟨v, hcov, rfl⟩
  · intro s id sel usage hasOut x v hwf hcov
    unfold change
    by_cases hc : sel.aspects.color = true
    · simp only [hc, if_true]
      rcases he : (colorLevels id sel.layers usage hasOut (levelsList sel.levels)
          (growCM s.color_mips sel.levels.2)).2.2 with _ | e
      · simp only [he]
        by_cases hds : sel.aspects.depth = true ∨ sel.aspects.stencil = true
        · simp only [if_pos hds]
          exact dsLevels_init id sel.layers usage sel.aspects.depth sel.aspects.stencil
            hasOut (levelsList sel.levels) s.depth_stencil x v hwf hcov
        · simp only [if_neg hds]
          exact ⟨v, hcov, rfl, rfl⟩
      · simp only [he]
        exact ⟨v, hcov, rfl, rfl⟩
    · have hc' : sel.aspects.color = false := by
        cases hcc : sel.aspects.color
        · rfl
        · exact absurd hcc hc
      simp only [hc', Bool.false_eq_true, if_false]
      by_cases hds : sel.aspects.depth = true ∨ sel.aspects.stencil = true
      · simp only [if_pos hds]
        exact dsLevels_init id sel.layers usage sel.aspects.depth sel.aspects.stencil
          hasOut (levelsList sel.levels) s.depth_stencil x v hwf hcov
      · simp only [if_neg hds]
        exact ⟨v, hcov, rfl, rfl⟩
  · intro s id other stitch hasOut st outs hm
    unfold merge at hm
    injection hm with hm
    rw [Prod.mk.injEq] at hm
    obtain ⟨hm1, hm2⟩ := hm
    subst hm1
    constructor
    · intro i a b rng sU oU ha hb hmem
      have hplane := mergeMips_get_lt id stitch hasOut
        (growCM s.color_mips other.color_mips.length) other.color_mips 0 i a b ha hb
      rw [Nat.zero_add] at hplane
      show _ ∈ (mergeMips id stitch hasOut 0 _ other.color_mips).1.getD i []
      rw [getD_of_get? _ i _ [] hplane, mergeColorRanges_map]
      exact List.mem_map.2 ⟨(rng, (sU, oU)), hmem, rfl⟩
    · intro rng sDS oDS hmem
      show _ ∈ (mergeDSRanges id stitch hasOut _).1
      rw [mergeDSRanges_map]
      exact List.mem_map.2 ⟨(rng, (sDS, oDS)), hmem, rfl⟩

/-- Witness for C7: a `change` to a new color usage keeps the tracked entry's
`init` at its original value even as `last` advances. -/
theorem init_never_changes_witness :
    ∃ v', coveredAt ((change ⟨[[((0, 2), ⟨1, 1⟩)]], []⟩ 7
        ⟨⟨true, false, false⟩, (0, 1), (0, 2)⟩ 4 true).state.color_mips.getD 0 []) 0 =
      some v' ∧ v'.init = (⟨1, 1⟩ : TUnit).init :=
  init_never_changes.1 ⟨[[((0, 2), ⟨1, 1⟩)]], []⟩ 7 ⟨⟨true, false, false⟩, (0, 1), (0, 2)⟩ 4
    true 0 0 ⟨1, 1⟩ (fun i => by cases i <;> rfl) (by decide)

/-! ### The implicit (no-sink) mode of `change` on one isolated color plane -/

/-- The effect of one successful no-sink color step on an entry: entries
inside the selector's layer range accumulate the usage union into `last`,
entries outside are untouched. -/
def procEntryC (layers : Nat × Nat) (usage : Usage) (e : LayerRange × TUnit) :
    LayerRange × TUnit :=
  if layers.1 ≤ e.1.1 ∧ e.1.2 ≤ layers.2 then (e.1, ⟨e.2.init, e.2.last ||| usage⟩) else e

/-- The conflict condition of the no-sink mode for one entry. -/
def failCondC (layers : Nat × Nat) (usage : Usage) (e : LayerRange × TUnit) : Prop :=
  (layers.1 ≤ e.1.1 ∧ e.1.2 ≤ layers.2) ∧ e.2.last ≠ usage ∧ e.2.last ≠ 0 ∧
    WRITE_ALL &&& (e.2.last ||| usage) ≠ 0

theorem procColor_entry_ok (id level : Nat) (layers : Nat × Nat) (usage : Usage)
    (e : LayerRange × TUnit) (hok : ¬ failCondC layers usage e) (rest : PlaneStates TUnit) :
    procColor id level layers usage false (e :: rest) =
      (procEntryC layers usage e :: (procColor id level layers usage false rest).1,
        (procColor id level layers usage false rest).2.1,
        (procColor id level layers usage false rest).2.2) := by
  obtain ⟨rng, u⟩ := e
  by_cases hin : layers.1 ≤ rng.1 ∧ rng.2 ≤ layers.2
  · by_cases hne : u.last = usage
    · rw [procColor, if_pos hin,
        aspectStep_skip id level rng ⟨true, false, false⟩ true u.last usage false hne]
      unfold procEntryC
      rw [if_pos hin, hne, Nat.or_self]
      rfl
    · have hunion : ¬(u.last ≠ 0 ∧ WRITE_ALL &&& (u.last ||| usage) ≠ 0) := by
        intro hcontra
        exact hok ⟨hin, hne, hcontra.1, hcontra.2⟩
      rw [procColor, if_pos hin,
        aspectStep_union id level rng ⟨true, false, false⟩ u.last usage hne hunion]
      unfold procEntryC
      rw [if_pos hin]
      rfl
  · rw [procColor, if_neg hin]
    unfold procEntryC
    rw [if_neg hin]

theorem procColor_all_ok (id level : Nat) (layers : Nat × Nat) (usage : Usage) :
    ∀ m : PlaneStates TUnit, (∀ e ∈ m, ¬ failCondC layers usage e) →
      procColor id level layers usage false m =
        (m.map (procEntryC layers usage), [], none) := by
  intro m
  induction m with
  | nil => intro _; rfl
  | cons e rest ih =>
    intro hall
    rw [procColor_entry_ok id level layers usage e (hall e (List.mem_cons_self _ _)) rest,
      ih (fun e' he' => hall e' (List.mem_cons_of_mem _ he'))]
    rfl

theorem procColor_fail (id level : Nat) (layers : Nat × Nat) (usage : Usage)
    (rng0 : LayerRange) (u : TUnit) (post : PlaneStates TUnit)
    (hin : layers.1 ≤ rng0.1 ∧ rng0.2 ≤ layers.2) (hne : u.last ≠ usage)
    (hnz : u.last ≠ 0) (hconf : WRITE_ALL &&& (u.last ||| usage) ≠ 0) :
    ∀ pre : PlaneStates TUnit, (∀ e ∈ pre, ¬ failCondC layers usage e) →
      procColor id level layers usage false (pre ++ (rng0, u) :: post) =
        (pre.map (procEntryC layers usage) ++ (rng0, u) :: post, [],
          some ⟨id, ⟨⟨true, false, false⟩, (level, level + 1), rng0⟩, (u.last, usage)⟩) := by
  intro pre
  induction pre with
  | nil =>
    intro _
    rw [List.nil_append, procColor, if_pos hin,
      aspectStep_conflict id level rng0 ⟨true, false, false⟩ u.last usage hne ⟨hnz, hconf⟩]
    rfl
  | cons e pre' ih =>
    intro hpre
    rw [List.cons_append,
      procColor_entry_ok id level layers usage e (hpre e (List.mem_cons_self _ _)) _,
      ih (fun e' he' => hpre e' (List.mem_cons_of_mem _ he'))]
    rfl

theorem growCM_length (mips : List (PlaneStates TUnit)) (n : Nat) :
    (growCM mips n).length = max mips.length n := by
  simp only [growCM, List.length_append, List.length_replicate]
  omega

theorem wfR_all_lb : ∀ (rs : List LayerRange) (b : Nat), wfR b rs = true →
    ∀ q ∈ rs, b ≤ q.1 ∧ q.1 < q.2 := by
  intro rs
  induction rs with
  | nil => intro b _ q hq; simp at hq
  | cons r rest ih =>
    intro b hwf q hq
    simp only [wfR, Bool.and_eq_true, decide_eq_true_eq] at hwf
    rcases List.mem_cons.1 hq with rfl | hq
    · exact hwf.1
    · have := ih r.2 hwf.2 q hq
      exact ⟨by omega, this.2⟩

theorem wfR_mid : ∀ (rsPre : List LayerRange) (b : Nat) (r : LayerRange)
    (rsPost : List LayerRange), wfR b (rsPre ++ r :: rsPost) = true →
    (∀ q ∈ rsPre, q.2 ≤ r.1) ∧ r.1 < r.2 ∧ (∀ q ∈ rsPost, r.2 ≤ q.1) := by
  intro rsPre
  induction rsPre with
  | nil =>
    intro b r rsPost hwf
    simp only [List.nil_append, wfR, Bool.and_eq_true, decide_eq_true_eq] at hwf
    refine ⟨fun q hq => absurd hq (List.not_mem_nil q), hwf.1.2, fun q hq => ?_⟩
    exact (wfR_all_lb rsPost r.2 hwf.2 q hq).1
  | cons q0 rsPre ih =>
    intro b r rsPost hwf
    simp only [List.cons_append, wfR, Bool.and_eq_true, decide_eq_true_eq] at hwf
    have hrec := ih q0.2 r rsPost hwf.2
    refine ⟨fun q hq => ?_, hrec.2.1, hrec.2.2⟩
    rcases List.mem_cons.1 hq with rfl | hq
    · have hrmem : r ∈ rsPre ++ r :: rsPost :=
        List.mem_append.2 (Or.inr (List.mem_cons_self _ _))
      exact (wfR_all_lb _ q.2 hwf.2 r hrmem).1
    · exact hrec.1 q hq

theorem contribPlane_singleton (rng0 : LayerRange) (w : TUnit) (pre post : PlaneStates TUnit)
    (hwf : WFp (pre ++ (rng0, w) :: post) = true) :
    contribPlane rng0 (pre ++ (rng0, w) :: post) = [w.last] := by
  unfold WFp at hwf
  rw [show rangesOf (pre ++ (rng0, w) :: post) = rangesOf pre ++ rng0 :: rangesOf post by
    simp [rangesOf]] at hwf
  rcases wfR_mid (rangesOf pre) 0 rng0 (rangesOf post) hwf with ⟨hp, hr, hq⟩
  unfold contribPlane
  rw [List.filterMap_append, List.filterMap_cons]
  have h1 : List.filterMap (fun e => if rng0.1 < e.1.2 ∧ e.1.1 < rng0.2 then
      some e.2.last else none) pre = [] := by
    rw [List.filterMap_eq_nil_iff]
    intro e he
    rw [if_neg]
    intro hcontra
    exact absurd hcontra.1 (by
      have := hp e.1 (by simpa [rangesOf] using List.mem_map_of_mem (·.1) he)
      omega)
  have h2 : List.filterMap (fun e => if rng0.1 < e.1.2 ∧ e.1.1 < rng0.2 then
      some e.2.last else none) post = [] := by
    rw [List.filterMap_eq_nil_iff]
    intro e he
    rw [if_neg]
    intro hcontra
    exact absurd hcontra.2 (by
      have := hq e.1 (by simpa [rangesOf] using List.mem_map_of_mem (·.1) he)
      omega)
  rw [h1, h2, if_pos ⟨hr, hr⟩]
  rfl

theorem map_procEntryC_ranges (layers : Nat × Nat) (usage : Usage) :
    ∀ m : PlaneStates TUnit, rangesOf (m.map (procEntryC layers usage)) = rangesOf m := by
  intro m
  induction m with
  | nil => rfl
  | cons e rest ih =>
    show (procEntryC layers usage e).1 :: rangesOf (rest.map (procEntryC layers usage)) =
      e.1 :: rangesOf rest
    rw [ih]
    congr 1
    unfold procEntryC
    by_cases h : layers.1 ≤ e.1.1 ∧ e.1.2 ≤ layers.2
    · rw [if_pos h]
    · rw [if_neg h]

theorem drop_take_single {α : Type} (d : α) :
    ∀ (xs : List α) (l : Nat), l < xs.length → (xs.drop l).take 1 = [xs.getD l d] := by
  intro xs
  induction xs with
  | nil => intro l hl; simp at hl
  | cons x xs ih =>
    intro l hl
    cases l with
    | zero => rfl
    | succ l => exact ih l (by simpa using hl)

theorem contrib_single_color (st : TextureStates) (l : Nat) (rng0 : LayerRange)
    (hl : l + 1 ≤ st.color_mips.length) :
    contrib st ⟨⟨true, false, false⟩, (l, l + 1), rng0⟩ =
      contribPlane rng0 (st.color_mips.getD l []) := by
  unfold contrib
  simp only [Bool.false_eq_true, or_false, if_false, if_true, List.append_nil]
  rw [show min st.color_mips.length l = l by omega,
    show min st.color_mips.length (l + 1) = l + 1 by omega,
    show l + 1 - l = 1 by omega,
    drop_take_single [] st.color_mips l (by omega)]
  unfold contribColor
  simp [contribPlane]

theorem colorLevels_length (id : Nat) (layers : Nat × Nat) (usage : Usage) (hasOut : Bool) :
    ∀ (ls : List Nat) (mips : List (PlaneStates TUnit)),
      (colorLevels id layers usage hasOut ls mips).1.length = mips.length := by
  intro ls
  induction ls with
  | nil => intro mips; rfl
  | cons level ls ih =>
    intro mips
    rcases he : (procColor id level layers usage hasOut
        (isolate (mips.getD level []) layers (TUnit.new usage))).2.2 with _ | e
    · simp only [colorLevels, he]
      rw [ih]
      exact List.length_set _ _ _
    · simp only [colorLevels, he]
      exact List.length_set _ _ _

/-- C8: with the Color aspect selected, `change` grows the color mip list
with empty per-mip maps exactly up to `levels.end` (never truncating: the
resulting mip count is the maximum of the old count and `levels.end`) as long
as `levels.end` stays within the hardware mip limit; if growth is needed
beyond that limit, the checked call fails fast instead of truncating. -/
theorem change_mip_growth (s : TextureStates) (id : Nat) (sel : SubresourceRange)
    (usage : Usage) (hasOut : Bool) (hc : sel.aspects.color = true) :
    (sel.levels.2 ≤ MAX_MIP_LEVELS →
      changeChecked s id sel usage hasOut = some (change s id sel usage hasOut) ∧
      (change s id sel usage hasOut).state.color_mips.length =
        max s.color_mips.length sel.levels.2) ∧
    (s.color_mips.length < sel.levels.2 → MAX_MIP_LEVELS < sel.levels.2 →
      changeChecked s id sel usage hasOut = none) := by
  constructor
  · intro hle
    constructor
    · unfold changeChecked growChecked
      rw [if_pos hc, if_neg (by omega : ¬ (s.color_mips.length < sel.levels.2 ∧
        MAX_MIP_LEVELS < sel.levels.2))]
    · unfold change
      rw [if_pos hc]
      rcases he : (colorLevels id sel.layers usage hasOut (levelsList sel.levels)
          (growCM s.color_mips sel.levels.2)).2.2 with _ | e
      · simp only [he]
        by_cases hds : sel.aspects.depth = true ∨ sel.aspects.stencil = true
        · simp only [if_pos hds]
          show (colorLevels id sel.layers usage hasOut (levelsList sel.levels)
            (growCM s.color_mips sel.levels.2)).1.length = _
          rw [colorLevels_length, growCM_length]
        · simp only [if_neg hds]
          show (colorLevels id sel.layers usage hasOut (levelsList sel.levels)
            (growCM s.color_mips sel.levels.2)).1.length = _
          rw [colorLevels_length, growCM_length]
      · simp only [he]
        show (colorLevels id sel.layers usage hasOut (levelsList sel.levels)
          (growCM s.color_mips sel.levels.2)).1.length = _
        rw [colorLevels_length, growCM_length]
  · intro hlt hmax
    unfold changeChecked growChecked
    rw [if_pos hc, if_pos ⟨hlt, hmax⟩]

/-- Witness for C8: growing to one mip level succeeds with mip count 1, while
requesting 17 levels on the 16-level limit fails fast. -/
theorem change_mip_growth_witness :
    (changeChecked ⟨[], []⟩ 7 ⟨⟨true, false, false⟩, (0, 1), (0, 1)⟩ 4 false =
        some (change ⟨[], []⟩ 7 ⟨⟨true, false, false⟩, (0, 1), (0, 1)⟩ 4 false) ∧
      (change ⟨[], []⟩ 7 ⟨⟨true, false, false⟩, (0, 1), (0, 1)⟩ 4
          false).state.color_mips.length = max 0 1) ∧
    changeChecked ⟨[], []⟩ 7 ⟨⟨true, false, false⟩, (0, 17), (0, 1)⟩ 4 false = none :=
  ⟨(change_mip_growth ⟨[], []⟩ 7 ⟨⟨true, false, false⟩, (0, 1), (0, 1)⟩ 4 false rfl).1
      (by decide),
    (change_mip_growth ⟨[], []⟩ 7 ⟨⟨true, false, false⟩, (0, 17), (0, 1)⟩ 4 false rfl).2
      (by decide) (by decide)⟩

/-! ### Implicit (no-sink) mode of `change`: general conflict and union laws -/

/-- The `last` value a successful no-sink sub-unit step leaves behind: selected
sub-units accumulate the usage union (a skip on an equal usage included, since
`old ||| old = old`), unselected sub-units are untouched. -/
def unitUpd (selq : Bool) (usage old : Usage) : Usage :=
  if selq then old ||| usage else old

/-- The no-sink conflict condition of one sub-unit step (src/track/texture.rs
lines 117, 154 and 178): the sub-unit is selected, its usage differs from the
target, is non-empty, and the union intersects the write class. -/
def failCondU (selq : Bool) (usage old : Usage) : Prop :=
  selq = true ∧ old ≠ usage ∧ old ≠ 0 ∧ WRITE_ALL &&& (old ||| usage) ≠ 0

instance (selq : Bool) (usage old : Usage) : Decidable (failCondU selq usage old) := by
  unfold failCondU
  infer_instance

instance (layers : Nat × Nat) (usage : Usage) (e : LayerRange × TUnit) :
    Decidable (failCondC layers usage e) := by
  unfold failCondC
  infer_instance

/-- The effect of one successful no-sink depth/stencil step on an entry:
entries inside the selector's layer range accumulate the union into each
selected sub-unit's `last`, entries outside are untouched. -/
def procEntryDS (aspD aspS : Bool) (layers : Nat × Nat) (usage : Usage)
    (e : LayerRange × DepthStencilState) : LayerRange × DepthStencilState :=
  if layers.1 ≤ e.1.1 ∧ e.1.2 ≤ layers.2 then
    (e.1, ⟨⟨e.2.depth.init, unitUpd aspD usage e.2.depth.last⟩,
      ⟨e.2.stencil.init, unitUpd aspS usage e.2.stencil.last⟩⟩)
  else e

/-- The no-sink conflict condition of one depth/stencil entry: the entry is in
range and its depth or its stencil sub-step fails. -/
def failCondDS (aspD aspS : Bool) (layers : Nat × Nat) (usage : Usage)
    (e : LayerRange × DepthStencilState) : Prop :=
  (layers.1 ≤ e.1.1 ∧ e.1.2 ≤ layers.2) ∧
    (failCondU aspD usage e.2.depth.last ∨ failCondU aspS usage e.2.stencil.last)

instance (aspD aspS : Bool) (layers : Nat × Nat) (usage : Usage)
    (e : LayerRange × DepthStencilState) :
    Decidable (failCondDS aspD aspS layers usage e) := by
  unfold failCondDS
  infer_instance

theorem aspectStep_ok_nosink (id level : Nat) (rng : LayerRange) (asp : Aspects)
    (selq : Bool) (old usage : Usage) (hok : ¬ failCondU selq usage old) :
    aspectStep id level rng asp selq old usage false = .ok (unitUpd selq usage old, []) := by
  cases selq with
  | false =>
    rw [aspectStep_not_selected]
    rfl
  | true =>
    by_cases hne : old = usage
    · rw [aspectStep_skip id level rng asp true old usage false hne]
      simp [unitUpd, hne, Nat.or_self]
    · have hnc : ¬(old ≠ 0 ∧ WRITE_ALL &&& (old ||| usage) ≠ 0) := by
        intro hcontra
        exact hok ⟨rfl, hne, hcontra.1, hcontra.2⟩
      rw [aspectStep_union id level rng asp old usage hne hnc]
      rfl

theorem aspectStep_nosink_cases (id level : Nat) (rng : LayerRange) (asp : Aspects)
    (selq : Bool) (old usage : Usage) :
    (failCondU selq usage old ∧
      aspectStep id level rng asp selq old usage false =
        .error (mkPending id level rng asp old usage)) ∨
    (¬ failCondU selq usage old ∧
      aspectStep id level rng asp selq old usage false =
        .ok (unitUpd selq usage old, [])) := by
  by_cases h : failCondU selq usage old
  · left
    refine ⟨h, ?_⟩
    obtain ⟨hsel, hne, hnz, hcf⟩ := h
    subst hsel
    exact aspectStep_conflict id level rng asp old usage hne ⟨hnz, hcf⟩
  · exact Or.inr ⟨h, aspectStep_ok_nosink id level rng asp selq old usage h⟩

theorem procColor_out_nil (id level : Nat) (layers : Nat × Nat) (usage : Usage) :
    ∀ m : PlaneStates TUnit, (procColor id level layers usage false m).2.1 = [] := by
  intro m
  induction m with
  | nil => rfl
  | cons e rest ih =>
    obtain ⟨rng, u⟩ := e
    by_cases hin : layers.1 ≤ rng.1 ∧ rng.2 ≤ layers.2
    · rcases aspectStep_nosink_cases id level rng ⟨true, false, false⟩ true u.last usage
          with ⟨-, hstep⟩ | ⟨-, hstep⟩
      · simp [procColor, if_pos hin, hstep]
      · simp [procColor, if_pos hin, hstep, ih]
    · simp [procColor, if_neg hin, ih]

theorem procDS_out_nil (id level : Nat) (layers : Nat × Nat) (usage : Usage)
    (aspD aspS : Bool) :
    ∀ m : PlaneStates DepthStencilState,
      (procDS id level layers usage aspD aspS false m).2.1 = [] := by
  intro m
  induction m with
  | nil => rfl
  | cons e rest ih =>
    obtain ⟨rng, ds⟩ := e
    by_cases hin : layers.1 ≤ rng.1 ∧ rng.2 ≤ layers.2
    · rcases aspectStep_nosink_cases id level rng ⟨false, true, false⟩ aspD ds.depth.last
          usage with ⟨-, hd⟩ | ⟨-, hd⟩
      · simp [procDS, if_pos hin, hd]
      · rcases aspectStep_nosink_cases id level rng ⟨false, false, true⟩ aspS ds.stencil.last
            usage with ⟨-, hs⟩ | ⟨-, hs⟩
        · simp [procDS, if_pos hin, hd, hs]
        · simp [procDS, if_pos hin, hd, hs, ih]
    · simp [procDS, if_neg hin, ih]

theorem colorLevels_out_nil (id : Nat) (layers : Nat × Nat) (usage : Usage) :
    ∀ (ls : List Nat) (mips : List (PlaneStates TUnit)),
      (colorLevels id layers usage false ls mips).2.1 = [] := by
  intro ls
  induction ls with
  | nil => intro mips; rfl
  | cons level ls ih =>
    intro mips
    rcases hr : procColor id level layers usage false
        (isolate (mips.getD level []) layers (TUnit.new usage)) with ⟨m1, o1, e1⟩
    have ho : o1 = [] := by
      have h0 := procColor_out_nil id level layers usage
        (isolate (mips.getD level []) layers (TUnit.new usage))
      rw [hr] at h0
      exact h0
    subst ho
    cases e1 with
    | some e =>
      simp only [colorLevels]
      rw [hr]
    | none =>
      simp only [colorLevels]
      rw [hr]
      exact (List.nil_append _).trans (ih _)

theorem dsLevels_out_nil (id : Nat) (layers : Nat × Nat) (usage : Usage) (aspD aspS : Bool) :
    ∀ (ls : List Nat) (m : PlaneStates DepthStencilState),
      (dsLevels id layers usage aspD aspS false ls m).2.1 = [] := by
  intro ls
  induction ls with
  | nil => intro m; rfl
  | cons level ls ih =>
    intro m
    rcases hr : procDS id level layers usage aspD aspS false
        (isolate m layers ⟨TUnit.new usage, TUnit.new usage⟩) with ⟨m1, o1, e1⟩
    have ho : o1 = [] := by
      have h0 := procDS_out_nil id level layers usage aspD aspS
        (isolate m layers ⟨TUnit.new usage, TUnit.new usage⟩)
      rw [hr] at h0
      exact h0
    subst ho
    cases e1 with
    | some e =>
      simp only [dsLevels]
      rw [hr]
    | none =>
      simp only [dsLevels]
      rw [hr]
      exact (List.nil_append _).trans (ih _)

theorem procDS_entry_ok (id level : Nat) (layers : Nat × Nat) (usage : Usage)
    (aspD aspS : Bool) (e : LayerRange × DepthStencilState)
    (hok : ¬ failCondDS aspD aspS layers usage e) (rest : PlaneStates DepthStencilState) :
    procDS id level layers usage aspD aspS false (e :: rest) =
      (procEntryDS aspD aspS layers usage e ::
          (procDS id level layers usage aspD aspS false rest).1,
        (procDS id level layers usage aspD aspS false rest).2.1,
        (procDS id level layers usage aspD aspS false rest).2.2) := by
  obtain ⟨rng, ds⟩ := e
  by_cases hin : layers.1 ≤ rng.1 ∧ rng.2 ≤ layers.2
  · have hokD : ¬ failCondU aspD usage ds.depth.last := fun hf => hok ⟨hin, Or.inl hf⟩
    have hokS : ¬ failCondU aspS usage ds.stencil.last := fun hf => hok ⟨hin, Or.inr hf⟩
    rw [procDS, if_pos hin,
      aspectStep_ok_nosink id level rng ⟨false, true, false⟩ aspD ds.depth.last usage hokD,
      aspectStep_ok_nosink id level rng ⟨false, false, true⟩ aspS ds.stencil.last usage hokS]
    unfold procEntryDS
    rw [if_pos hin]
    rfl
  · rw [procDS, if_neg hin]
    unfold procEntryDS
    rw [if_neg hin]

theorem procDS_all_ok (id level : Nat) (layers : Nat × Nat) (usage : Usage)
    (aspD aspS : Bool) :
    ∀ m : PlaneStates DepthStencilState,
      (∀ e ∈ m, ¬ failCondDS aspD aspS layers usage e) →
      procDS id level layers usage aspD aspS false m =
        (m.map (procEntryDS aspD aspS layers usage), [], none) := by
  intro m
  induction m with
  | nil => intro _; rfl
  | cons e rest ih =>
    intro hall
    rw [procDS_entry_ok id level layers usage aspD aspS e (hall e (List.mem_cons_self _ _))
        rest, ih (fun e' he' => hall e' (List.mem_cons_of_mem _ he'))]
    rfl

theorem procDS_fail_depth (id level : Nat) (layers : Nat × Nat) (usage : Usage)
    (aspD aspS : Bool) (rng : LayerRange) (ds : DepthStencilState)
    (post : PlaneStates DepthStencilState)
    (hin : layers.1 ≤ rng.1 ∧ rng.2 ≤ layers.2)
    (hfd : failCondU aspD usage ds.depth.last) :
    ∀ pre : PlaneStates DepthStencilState,
      (∀ e ∈ pre, ¬ failCondDS aspD aspS layers usage e) →
      procDS id level layers usage aspD aspS false (pre ++ (rng, ds) :: post) =
        (pre.map (procEntryDS aspD aspS layers usage) ++ (rng, ds) :: post, [],
          some (mkPending id level rng ⟨false, true, false⟩ ds.depth.last usage)) := by
  obtain ⟨hsel, hne, hnz, hcf⟩ := hfd
  subst hsel
  intro pre
  induction pre with
  | nil =>
    intro _
    rw [List.nil_append, procDS, if_pos hin,
      aspectStep_conflict id level rng ⟨false, true, false⟩ ds.depth.last usage hne
        ⟨hnz, hcf⟩]
    rfl
  | cons e pre' ih =>
    intro hpre
    rw [List.cons_append,
      procDS_entry_ok id level layers usage true aspS e (hpre e (List.mem_cons_self _ _)) _,
      ih (fun e' he' => hpre e' (List.mem_cons_of_mem _ he'))]
    rfl

theorem procDS_fail_stencil (id level : Nat) (layers : Nat × Nat) (usage : Usage)
    (aspD aspS : Bool) (rng : LayerRange) (ds : DepthStencilState)
    (post : PlaneStates DepthStencilState)
    (hin : layers.1 ≤ rng.1 ∧ rng.2 ≤ layers.2)
    (hokd : ¬ failCondU aspD usage ds.depth.last)
    (hfs : failCondU aspS usage ds.stencil.last) :
    ∀ pre : PlaneStates DepthStencilState,
      (∀ e ∈ pre, ¬ failCondDS aspD aspS layers usage e) →
      procDS id level layers usage aspD aspS false (pre ++ (rng, ds) :: post) =
        (pre.map (procEntryDS aspD aspS layers usage) ++
            (rng, ⟨⟨ds.depth.init, unitUpd aspD usage ds.depth.last⟩, ds.stencil⟩) :: post,
          [], some (mkPending id level rng ⟨false, false, true⟩ ds.stencil.last usage)) := by
  obtain ⟨hsel, hne, hnz, hcf⟩ := hfs
  subst hsel
  intro pre
  induction pre with
  | nil =>
    intro _
    rw [List.nil_append, procDS, if_pos hin,
      aspectStep_ok_nosink id level rng ⟨false, true, false⟩ aspD ds.depth.last usage hokd,
      aspectStep_conflict id level rng ⟨false, false, true⟩ ds.stencil.last usage hne
        ⟨hnz, hcf⟩]
    rfl
  | cons e pre' ih =>
    intro hpre
    rw [List.cons_append,
      procDS_entry_ok id level layers usage aspD true e (hpre e (List.mem_cons_self _ _)) _,
      ih (fun e' he' => hpre e' (List.mem_cons_of_mem _ he'))]
    rfl

theorem procColor_ok_inv (id level : Nat) (layers : Nat × Nat) (usage : Usage) :
    ∀ (m m' : PlaneStates TUnit) (o : List PendingTransition),
      procColor id level layers usage false m = (m', o, none) →
      m' = m.map (procEntryC layers usage) ∧
        ∀ e ∈ m, ¬ failCondC layers usage e := by
  intro m
  induction m with
  | nil =>
    intro m' o h
    simp only [procColor, Prod.mk.injEq] at h
    exact ⟨h.1.symm, fun e he => absurd he (List.not_mem_nil e)⟩
  | cons e rest ih =>
    intro m' o h
    obtain ⟨rng, u⟩ := e
    by_cases hin : layers.1 ≤ rng.1 ∧ rng.2 ≤ layers.2
    · rcases aspectStep_nosink_cases id level rng ⟨true, false, false⟩ true u.last usage
          with ⟨hf, hstep⟩ | ⟨hf, hstep⟩
      · simp only [procColor, if_pos hin, hstep, Prod.mk.injEq] at h
        exact absurd h.2.2 (by simp)
      · rcases hrest : procColor id level layers usage false rest with ⟨m2, o2, e2⟩
        simp only [procColor, if_pos hin, hstep, hrest, Prod.mk.injEq] at h
        obtain ⟨h1, -, h3⟩ := h
        subst h3
        obtain ⟨hm2, hall⟩ := ih m2 o2 hrest
        constructor
        · rw [← h1, hm2]
          show _ = procEntryC layers usage (rng, u) :: _
          unfold procEntryC
          rw [if_pos hin]
          rfl
        · intro e' he'
          rcases List.mem_cons.1 he' with rfl | he'
          · intro hfc
            exact hf ⟨rfl, hfc.2.1, hfc.2.2.1, hfc.2.2.2⟩
          · exact hall e' he'
    · rcases hrest : procColor id level layers usage false rest with ⟨m2, o2, e2⟩
      simp only [procColor, if_neg hin, hrest, Prod.mk.injEq] at h
      obtain ⟨h1, -, h3⟩ := h
      subst h3
      obtain ⟨hm2, hall⟩ := ih m2 o2 hrest
      constructor
      · rw [← h1, hm2]
        show _ = procEntryC layers usage (rng, u) :: _
        unfold procEntryC
        rw [if_neg hin]
      · intro e' he'
        rcases List.mem_cons.1 he' with rfl | he'
        · exact fun hfc => hin hfc.1
        · exact hall e' he'

theorem procColor_err_inv (id level : Nat) (layers : Nat × Nat) (usage : Usage) :
    ∀ (m m' : PlaneStates TUnit) (o : List PendingTransition) (p : PendingTransition),
      procColor id level layers usage false m = (m', o, some p) →
      ∃ pre rng u post,
        m = pre ++ (rng, u) :: post ∧
        (∀ e ∈ pre, ¬ failCondC layers usage e) ∧
        (layers.1 ≤ rng.1 ∧ rng.2 ≤ layers.2) ∧ u.last ≠ usage ∧ u.last ≠ 0 ∧
        WRITE_ALL &&& (u.last ||| usage) ≠ 0 ∧
        p = mkPending id level rng ⟨true, false, false⟩ u.last usage ∧
        m' = pre.map (procEntryC layers usage) ++ (rng, u) :: post := by
  intro m
  induction m with
  | nil =>
    intro m' o p h
    simp only [procColor, Prod.mk.injEq] at h
    exact absurd h.2.2 (by simp)
  | cons e rest ih =>
    intro m' o p h
    obtain ⟨rng, u⟩ := e
    by_cases hin : layers.1 ≤ rng.1 ∧ rng.2 ≤ layers.2
    · rcases aspectStep_nosink_cases id level rng ⟨true, false, false⟩ true u.last usage
          with ⟨hf, hstep⟩ | ⟨hf, hstep⟩
      · simp only [procColor, if_pos hin, hstep, Prod.mk.injEq, Option.some.injEq] at h
        obtain ⟨h1, -, h3⟩ := h
        obtain ⟨-, hne, hnz, hcf⟩ := hf
        exact ⟨[], rng, u, rest, rfl, fun e he => absurd he (List.not_mem_nil e), hin, hne,
          hnz, hcf, h3.symm, h1.symm⟩
      · rcases hrest : procColor id level layers usage false rest with ⟨m2, o2, e2⟩
        simp only [procColor, if_pos hin, hstep, hrest, Prod.mk.injEq] at h
        obtain ⟨h1, -, h3⟩ := h
        subst h3
        obtain ⟨pre, rng0, u0, post, hdec, hpre, hin0, hne, hnz, hcf, hp, hm2⟩ :=
          ih m2 o2 p hrest
        refine ⟨(rng, u) :: pre, rng0, u0, post, by rw [hdec]; rfl, ?_, hin0, hne, hnz, hcf,
          hp, ?_⟩
        · intro e' he'
          rcases List.mem_cons.1 he' with rfl | he'
          · intro hfc
            exact hf ⟨rfl, hfc.2.1, hfc.2.2.1, hfc.2.2.2⟩
          · exact hpre e' he'
        · rw [← h1, hm2]
          show _ = procEntryC layers usage (rng, u) :: _
          unfold procEntryC
          rw [if_pos hin]
          rfl
    · rcases hrest : procColor id level layers usage false rest with ⟨m2, o2, e2⟩
      simp only [procColor, if_neg hin, hrest, Prod.mk.injEq] at h
      obtain ⟨h1, -, h3⟩ := h
      subst h3
      obtain ⟨pre, rng0, u0, post, hdec, hpre, hin0, hne, hnz, hcf, hp, hm2⟩ :=
        ih m2 o2 p hrest
      refine ⟨(rng, u) :: pre, rng0, u0, post, by rw [hdec]; rfl, ?_, hin0, hne, hnz, hcf,
        hp, ?_⟩
      · intro e' he'
        rcases List.mem_cons.1 he' with rfl | he'
        · exact fun hfc => hin hfc.1
        · exact hpre e' he'
      · rw [← h1, hm2]
        show _ = procEntryC layers usage (rng, u) :: _
        unfold procEntryC
        rw [if_neg hin]
        rfl

theorem procDS_ok_inv (id level : Nat) (layers : Nat × Nat) (usage : Usage)
    (aspD aspS : Bool) :
    ∀ (m m' : PlaneStates DepthStencilState) (o : List PendingTransition),
      procDS id level layers usage aspD aspS false m = (m', o, none) →
      m' = m.map (procEntryDS aspD aspS layers usage) ∧
        ∀ e ∈ m, ¬ failCondDS aspD aspS layers usage e := by
  intro m
  induction m with
  | nil =>
    intro m' o h
    simp only [procDS, Prod.mk.injEq] at h
    exact ⟨h.1.symm, fun e he => absurd he (List.not_mem_nil e)⟩
  | cons e rest ih =>
    intro m' o h
    obtain ⟨rng, ds⟩ := e
    by_cases hin : layers.1 ≤ rng.1 ∧ rng.2 ≤ layers.2
    · rcases aspectStep_nosink_cases id level rng ⟨false, true, false⟩ aspD ds.depth.last
          usage with ⟨hfd, hd⟩ | ⟨hfd, hd⟩
      · simp only [procDS, if_pos hin, hd, Prod.mk.injEq] at h
        exact absurd h.2.2 (by simp)
      · rcases aspectStep_nosink_cases id level rng ⟨false, false, true⟩ aspS ds.stencil.last
            usage with ⟨hfs, hs⟩ | ⟨hfs, hs⟩
        · simp only [procDS, if_pos hin, hd, hs, Prod.mk.injEq] at h
          exact absurd h.2.2 (by simp)
        · rcases hrest : procDS id level layers usage aspD aspS false rest with ⟨m2, o2, e2⟩
          simp only [procDS, if_pos hin, hd, hs, hrest, Prod.mk.injEq] at h
          obtain ⟨h1, -, h3⟩ := h
          subst h3
          obtain ⟨hm2, hall⟩ := ih m2 o2 hrest
          constructor
          · rw [← h1, hm2]
            show _ = procEntryDS aspD aspS layers usage (rng, ds) :: _
            unfold procEntryDS
            rw [if_pos hin]
          · intro e' he'
            rcases List.mem_cons.1 he' with rfl | he'
            · rintro ⟨-, hfail | hfail⟩
              · exact hfd hfail
              · exact hfs hfail
            · exact hall e' he'
    · rcases hrest : procDS id level layers usage aspD aspS false rest with ⟨m2, o2, e2⟩
      simp only [procDS, if_neg hin, hrest, Prod.mk.injEq] at h
      obtain ⟨h1, -, h3⟩ := h
      subst h3
      obtain ⟨hm2, hall⟩ := ih m2 o2 hrest
      constructor
      · rw [← h1, hm2]
        show _ = procEntryDS aspD aspS layers usage (rng, ds) :: _
        unfold procEntryDS
        rw [if_neg hin]
      · intro e' he'
        rcases List.mem_cons.1 he' with rfl | he'
        · exact fun hfc => hin hfc.1
        · exact hall e' he'

theorem procDS_err_inv (id level : Nat) (layers : Nat × Nat) (usage : Usage)
    (aspD aspS : Bool) :
    ∀ (m m' : PlaneStates DepthStencilState) (o : List PendingTransition)
      (p : PendingTransition),
      procDS id level layers usage aspD aspS false m = (m', o, some p) →
      ∃ pre rng ds post,
        m = pre ++ (rng, ds) :: post ∧
        (∀ e ∈ pre, ¬ failCondDS aspD aspS layers usage e) ∧
        (layers.1 ≤ rng.1 ∧ rng.2 ≤ layers.2) ∧
        ((failCondU aspD usage ds.depth.last ∧
            p = mkPending id level rng ⟨false, true, false⟩ ds.depth.last usage ∧
            m' = pre.map (procEntryDS aspD aspS layers usage) ++ (rng, ds) :: post) ∨
         (¬ failCondU aspD usage ds.depth.last ∧
            failCondU aspS usage ds.stencil.last ∧
            p = mkPending id level rng ⟨false, false, true⟩ ds.stencil.last usage ∧
            m' = pre.map (procEntryDS aspD aspS layers usage) ++
              (rng, ⟨⟨ds.depth.init, unitUpd aspD usage ds.depth.last⟩, ds.stencil⟩)
                :: post)) := by
  intro m
  induction m with
  | nil =>
    intro m' o p h
    simp only [procDS, Prod.mk.injEq] at h
    exact absurd h.2.2 (by simp)
  | cons e rest ih =>
    intro m' o p h
    obtain ⟨rng, ds⟩ := e
    by_cases hin : layers.1 ≤ rng.1 ∧ rng.2 ≤ layers.2
    · rcases aspectStep_nosink_cases id level rng ⟨false, true, false⟩ aspD ds.depth.last
          usage with ⟨hfd, hd⟩ | ⟨hfd, hd⟩
      · simp only [procDS, if_pos hin, hd, Prod.mk.injEq, Option.some.injEq] at h
        obtain ⟨h1, -, h3⟩ := h
        exact ⟨[], rng, ds, rest, rfl, fun e he => absurd he (List.not_mem_nil e), hin,
          Or.inl ⟨hfd, h3.symm, h1.symm⟩⟩
      · rcases aspectStep_nosink_cases id level rng ⟨false, false, true⟩ aspS ds.stencil.last
            usage with ⟨hfs, hs⟩ | ⟨hfs, hs⟩
        · simp only [procDS, if_pos hin, hd, hs, Prod.mk.injEq, Option.some.injEq] at h
          obtain ⟨h1, -, h3⟩ := h
          exact ⟨[], rng, ds, rest, rfl, fun e he => absurd he (List.not_mem_nil e), hin,
            Or.inr ⟨hfd, hfs, h3.symm, h1.symm⟩⟩
        · rcases hrest : procDS id level layers usage aspD aspS false rest with ⟨m2, o2, e2⟩
          simp only [procDS, if_pos hin, hd, hs, hrest, Prod.mk.injEq] at h
          obtain ⟨h1, -, h3⟩ := h
          subst h3
          obtain ⟨pre, rng0, ds0, post, hdec, hpre, hin0, hvar⟩ := ih m2 o2 p hrest
          refine ⟨(rng, ds) :: pre, rng0, ds0, post, by rw [hdec]; rfl, ?_, hin0, ?_⟩
          · intro e' he'
            rcases List.mem_cons.1 he' with rfl | he'
            · rintro ⟨-, hfail | hfail⟩
              · exact hfd hfail
              · exact hfs hfail
            · exact hpre e' he'
          · rcases hvar with ⟨hva, hvb, hvc⟩ | ⟨hva, hvb, hvc, hvd⟩
            · refine Or.inl ⟨hva, hvb, ?_⟩
              rw [← h1, hvc]
              show _ = procEntryDS aspD aspS layers usage (rng, ds) :: _
              unfold procEntryDS
              rw [if_pos hin]
              rfl
            · refine Or.inr ⟨hva, hvb, hvc, ?_⟩
              rw [← h1, hvd]
              show _ = procEntryDS aspD aspS layers usage (rng, ds) :: _
              unfold procEntryDS
              rw [if_pos hin]
              rfl
    · rcases hrest : procDS id level layers usage aspD aspS false rest with ⟨m2, o2, e2⟩
      simp only [procDS, if_neg hin, hrest, Prod.mk.injEq] at h
      obtain ⟨h1, -, h3⟩ := h
      subst h3
      obtain ⟨pre, rng0, ds0, post, hdec, hpre, hin0, hvar⟩ := ih m2 o2 p hrest
      refine ⟨(rng, ds) :: pre, rng0, ds0, post, by rw [hdec]; rfl, ?_, hin0, ?_⟩
      · intro e' he'
        rcases List.mem_cons.1 he' with rfl | he'
        · exact fun hfc => hin hfc.1
        · exact hpre e' he'
      · rcases hvar with ⟨hva, hvb, hvc⟩ | ⟨hva, hvb, hvc, hvd⟩
        · refine Or.inl ⟨hva, hvb, ?_⟩
          rw [← h1, hvc]
          show _ = procEntryDS aspD aspS layers usage (rng, ds) :: _
          unfold procEntryDS
          rw [if_neg hin]
          rfl
        · refine Or.inr ⟨hva, hvb, hvc, ?_⟩
          rw [← h1, hvd]
          show _ = procEntryDS aspD aspS layers usage (rng, ds) :: _
          unfold procEntryDS
          rw [if_neg hin]
          rfl

theorem colorLevels_append_ok (id : Nat) (layers : Nat × Nat) (usage : Usage)
    (hasOut : Bool) :
    ∀ (ls₁ ls₂ : List Nat) (mips mid : List (PlaneStates TUnit)) (o : List PendingTransition),
      colorLevels id layers usage hasOut ls₁ mips = (mid, o, none) →
      colorLevels id layers usage hasOut (ls₁ ++ ls₂) mips =
        ((colorLevels id layers usage hasOut ls₂ mid).1,
          o ++ (colorLevels id layers usage hasOut ls₂ mid).2.1,
          (colorLevels id layers usage hasOut ls₂ mid).2.2) := by
  intro ls₁
  induction ls₁ with
  | nil =>
    intro ls₂ mips mid o h
    simp only [colorLevels, Prod.mk.injEq] at h
    obtain ⟨h1, h2, -⟩ := h
    subst h1
    subst h2
    simp only [List.nil_append]
  | cons l ls₁ ih =>
    intro ls₂ mips mid o h
    rcases hr : procColor id l layers usage hasOut
        (isolate (mips.getD l []) layers (TUnit.new usage)) with ⟨m1, o1, e1⟩
    cases e1 with
    | some e =>
      simp only [colorLevels, hr, Prod.mk.injEq] at h
      exact absurd h.2.2 (by simp)
    | none =>
      rcases h2 : colorLevels id layers usage hasOut ls₁ (mips.set l m1) with ⟨mid2, o2, e2⟩
      simp only [colorLevels, hr, h2, Prod.mk.injEq] at h
      obtain ⟨hm, ho, he⟩ := h
      subst hm
      subst he
      have hih := ih ls₂ (mips.set l m1) mid2 o2 h2
      show colorLevels id layers usage hasOut (l :: (ls₁ ++ ls₂)) mips = _
      simp only [colorLevels, hr, hih]
      rw [← ho, List.append_assoc]

theorem dsLevels_append_ok (id : Nat) (layers : Nat × Nat) (usage : Usage)
    (aspD aspS hasOut : Bool) :
    ∀ (ls₁ ls₂ : List Nat) (m m₁ : PlaneStates DepthStencilState)
      (o : List PendingTransition),
      dsLevels id layers usage aspD aspS hasOut ls₁ m = (m₁, o, none) →
      dsLevels id layers usage aspD aspS hasOut (ls₁ ++ ls₂) m =
        ((dsLevels id layers usage aspD aspS hasOut ls₂ m₁).1,
          o ++ (dsLevels id layers usage aspD aspS hasOut ls₂ m₁).2.1,
          (dsLevels id layers usage aspD aspS hasOut ls₂ m₁).2.2) := by
  intro ls₁
  induction ls₁ with
  | nil =>
    intro ls₂ m m₁ o h
    simp only [dsLevels, Prod.mk.injEq] at h
    obtain ⟨h1, h2, -⟩ := h
    subst h1
    subst h2
    simp only [List.nil_append]
  | cons l ls₁ ih =>
    intro ls₂ m m₁ o h
    rcases hr : procDS id l layers usage aspD aspS hasOut
        (isolate m layers ⟨TUnit.new usage, TUnit.new usage⟩) with ⟨m2, o1, e1⟩
    cases e1 with
    | some e =>
      simp only [dsLevels, hr, Prod.mk.injEq] at h
      exact absurd h.2.2 (by simp)
    | none =>
      rcases h2 : dsLevels id layers usage aspD aspS hasOut ls₁ m2 with ⟨mid2, o2, e2⟩
      simp only [dsLevels, hr, h2, Prod.mk.injEq] at h
      obtain ⟨hm, ho, he⟩ := h
      subst hm
      subst he
      have hih := ih ls₂ m2 mid2 o2 h2
      show dsLevels id layers usage aspD aspS hasOut (l :: (ls₁ ++ ls₂)) m = _
      simp only [dsLevels, hr, hih]
      rw [← ho, List.append_assoc]

theorem colorLevels_err_inv (id : Nat) (layers : Nat × Nat) (usage : Usage) :
    ∀ (ls : List Nat) (mips mips' : List (PlaneStates TUnit)) (o : List PendingTransition)
      (p : PendingTransition),
      colorLevels id layers usage false ls mips = (mips', o, some p) →
      ∃ ls₁ l ls₂ mid plane,
        ls = ls₁ ++ l :: ls₂ ∧
        colorLevels id layers usage false ls₁ mips = (mid, [], none) ∧
        procColor id l layers usage false
          (isolate (mid.getD l []) layers (TUnit.new usage)) = (plane, [], some p) ∧
        mips' = mid.set l plane := by
  intro ls
  induction ls with
  | nil =>
    intro mips mips' o p h
    simp only [colorLevels, Prod.mk.injEq] at h
    exact absurd h.2.2 (by simp)
  | cons l0 ls ih =>
    intro mips mips' o p h
    rcases hr : procColor id l0 layers usage false
        (isolate (mips.getD l0 []) layers (TUnit.new usage)) with ⟨m1, o1, e1⟩
    have ho1 : o1 = [] := by
      have h0 := procColor_out_nil id l0 layers usage
        (isolate (mips.getD l0 []) layers (TUnit.new usage))
      rw [hr] at h0
      exact h0
    subst ho1
    cases e1 with
    | some e =>
      simp only [colorLevels, hr, Prod.mk.injEq, Option.some.injEq] at h
      obtain ⟨h1, -, h3⟩ := h
      exact ⟨[], l0, ls, mips, m1, rfl, rfl, by rw [hr, h3], h1.symm⟩
    | none =>
      rcases h2 : colorLevels id layers usage false ls (mips.set l0 m1) with ⟨mid2, o2, e2⟩
      simp only [colorLevels, hr, h2, Prod.mk.injEq] at h
      obtain ⟨h1, -, h3⟩ := h
      subst h3
      obtain ⟨ls₁, l, ls₂, mid, plane, hls, hpfx, hproc, hset⟩ :=
        ih (mips.set l0 m1) mid2 o2 p h2
      refine ⟨l0 :: ls₁, l, ls₂, mid, plane, by rw [hls]; rfl, ?_, hproc,
        by rw [← h1, hset]⟩
      simp only [colorLevels, hr, hpfx]
      rfl

theorem dsLevels_err_inv (id : Nat) (layers : Nat × Nat) (usage : Usage) (aspD aspS : Bool) :
    ∀ (ls : List Nat) (m mfin : PlaneStates DepthStencilState) (o : List PendingTransition)
      (p : PendingTransition),
      dsLevels id layers usage aspD aspS false ls m = (mfin, o, some p) →
      ∃ ls₁ l ls₂ m₁,
        ls = ls₁ ++ l :: ls₂ ∧
        dsLevels id layers usage aspD aspS false ls₁ m = (m₁, [], none) ∧
        procDS id l layers usage aspD aspS false
          (isolate m₁ layers ⟨TUnit.new usage, TUnit.new usage⟩) = (mfin, [], some p) := by
  intro ls
  induction ls with
  | nil =>
    intro m mfin o p h
    simp only [dsLevels, Prod.mk.injEq] at h
    exact absurd h.2.2 (by simp)
  | cons l0 ls ih =>
    intro m mfin o p h
    rcases hr : procDS id l0 layers usage aspD aspS false
        (isolate m layers ⟨TUnit.new usage, TUnit.new usage⟩) with ⟨m1, o1, e1⟩
    have ho1 : o1 = [] := by
      have h0 := procDS_out_nil id l0 layers usage aspD aspS
        (isolate m layers ⟨TUnit.new usage, TUnit.new usage⟩)
      rw [hr] at h0
      exact h0
    subst ho1
    cases e1 with
    | some e =>
      simp only [dsLevels, hr, Prod.mk.injEq, Option.some.injEq] at h
      obtain ⟨h1, -, h3⟩ := h
      exact ⟨[], l0, ls, m, rfl, rfl, by rw [hr, h1, h3]⟩
    | none =>
      rcases h2 : dsLevels id layers usage aspD aspS false ls m1 with ⟨mid2, o2, e2⟩
      simp only [dsLevels, hr, h2, Prod.mk.injEq] at h
      obtain ⟨h1, -, h3⟩ := h
      subst h3
      obtain ⟨ls₁, l, ls₂, m₁, hls, hpfx, hproc⟩ := ih m1 mid2 o2 p h2
      refine ⟨l0 :: ls₁, l, ls₂, m₁, by rw [hls]; rfl, ?_, by rw [hproc, h1]⟩
      simp only [dsLevels, hr, hpfx]
      rfl

theorem mem_levelsList (l : Nat) (lv : Nat × Nat) :
    l ∈ levelsList lv ↔ lv.1 ≤ l ∧ l < lv.2 := by
  unfold levelsList
  rw [List.mem_range'_1]
  omega

theorem levelsList_pairwise (lv : Nat × Nat) : (levelsList lv).Pairwise (· ≠ ·) := by
  unfold levelsList
  have h : ∀ (n s : Nat), (List.range' s n).Pairwise (· < ·) := by
    intro n
    induction n with
    | zero => intro s; exact List.Pairwise.nil
    | succ n ihn =>
      intro s
      rw [List.range'_succ]
      refine List.Pairwise.cons ?_ (ihn (s + 1))
      intro b hb
      have := (List.mem_range'_1).1 hb
      omega
  exact (h _ _).imp (fun hlt => Nat.ne_of_lt hlt)

theorem levelsList_cons_fst (lv : Nat × Nat) (h : lv.1 < lv.2) :
    levelsList lv = lv.1 :: List.range' (lv.1 + 1) (lv.2 - lv.1 - 1) := by
  rcases lv with ⟨a, b⟩
  exact levelsList_cons a b h

theorem levelsList_nil_of_ge (lv : Nat × Nat) (h : ¬ lv.1 < lv.2) :
    levelsList lv = [] := by
  unfold levelsList
  rw [show lv.2 - lv.1 = 0 by omega]
  rfl

theorem colorLevels_all_ok (id : Nat) (layers : Nat × Nat) (usage : Usage) :
    ∀ (ls : List Nat) (mips : List (PlaneStates TUnit)),
      ls.Pairwise (· ≠ ·) →
      (∀ l ∈ ls, l < mips.length) →
      (∀ l ∈ ls, ∀ e ∈ isolate (mips.getD l []) layers (TUnit.new usage),
        ¬ failCondC layers usage e) →
      ∃ M, colorLevels id layers usage false ls mips = (M, [], none) ∧
        M.length = mips.length ∧
        ∀ i : Nat, M.getD i [] =
          if i ∈ ls then
            (isolate (mips.getD i []) layers (TUnit.new usage)).map
              (procEntryC layers usage)
          else mips.getD i [] := by
  intro ls
  induction ls with
  | nil =>
    intro mips _ _ _
    exact ⟨mips, rfl, rfl, fun i => by simp⟩
  | cons l ls ih =>
    intro mips hpw hlen hcompat
    have hproc := procColor_all_ok id l layers usage
      (isolate (mips.getD l []) layers (TUnit.new usage))
      (hcompat l (List.mem_cons_self _ _))
    have hlne : ∀ l' ∈ ls, l ≠ l' := fun l' hl' => List.rel_of_pairwise_cons hpw hl'
    have hpw' : ls.Pairwise (· ≠ ·) := List.Pairwise.of_cons hpw
    have hlen' : ∀ l' ∈ ls, l' < (mips.set l ((isolate (mips.getD l []) layers
        (TUnit.new usage)).map (procEntryC layers usage))).length := by
      intro l' hl'
      rw [List.length_set]
      exact hlen l' (List.mem_cons_of_mem _ hl')
    have hcompat' : ∀ l' ∈ ls, ∀ e ∈ isolate ((mips.set l ((isolate (mips.getD l [])
        layers (TUnit.new usage)).map (procEntryC layers usage))).getD l' []) layers
        (TUnit.new usage), ¬ failCondC layers usage e := by
      intro l' hl'
      rw [getD_set_ne _ _ _ _ _ (hlne l' hl')]
      exact hcompat l' (List.mem_cons_of_mem _ hl')
    obtain ⟨M, hM, hMlen, hMget⟩ := ih (mips.set l ((isolate (mips.getD l []) layers
      (TUnit.new usage)).map (procEntryC layers usage))) hpw' hlen' hcompat'
    refine ⟨M, ?_, ?_, ?_⟩
    · simp only [colorLevels, hproc, hM]
      rfl
    · rw [hMlen, List.length_set]
    · intro i
      rw [hMget i]
      by_cases hil : i ∈ ls
      · rw [if_pos hil, if_pos (List.mem_cons_of_mem _ hil),
          getD_set_ne _ _ _ _ _ (hlne i hil)]
      · rw [if_neg hil]
        by_cases hie : i = l
        · subst hie
          rw [if_pos (List.mem_cons_self _ _),
            getD_set_eq _ _ _ _ (hlen i (List.mem_cons_self _ _))]
        · rw [if_neg (fun hmem => (List.mem_cons.1 hmem).elim hie hil),
            getD_set_ne _ _ _ _ _ (fun h => hie h.symm)]

theorem dsLevels_all_ok (id : Nat) (layers : Nat × Nat) (usage : Usage) (aspD aspS : Bool)
    (m : PlaneStates DepthStencilState) (a : Nat) (ls : List Nat)
    (hwf : WFp m = true)
    (hcompat : ∀ e ∈ isolate m layers ⟨TUnit.new usage, TUnit.new usage⟩,
      ¬ failCondDS aspD aspS layers usage e) :
    dsLevels id layers usage aspD aspS false (a :: ls) m =
      ((isolate m layers ⟨TUnit.new usage, TUnit.new usage⟩).map
          (procEntryDS aspD aspS layers usage), [], none) := by
  rw [dsLevels_cons_collapse id layers usage aspD aspS false a ls m hwf]
  have hproc := procDS_all_ok id a layers usage aspD aspS
    (isolate m layers ⟨TUnit.new usage, TUnit.new usage⟩) hcompat
  simp only [dsLevels, hproc]
  rfl

theorem map_procEntryDS_ranges (aspD aspS : Bool) (layers : Nat × Nat) (usage : Usage) :
    ∀ m : PlaneStates DepthStencilState,
      rangesOf (m.map (procEntryDS aspD aspS layers usage)) = rangesOf m := by
  intro m
  induction m with
  | nil => rfl
  | cons e rest ih =>
    show (procEntryDS aspD aspS layers usage e).1 ::
        rangesOf (rest.map (procEntryDS aspD aspS layers usage)) = e.1 :: rangesOf rest
    rw [ih]
    congr 1
    unfold procEntryDS
    by_cases h : layers.1 ≤ e.1.1 ∧ e.1.2 ≤ layers.2
    · rw [if_pos h]
    · rw [if_neg h]

theorem contribDS_singleton (rng0 : LayerRange) (aspD aspS : Bool) (w : DepthStencilState)
    (pre post : PlaneStates DepthStencilState)
    (hwf : WFp (pre ++ (rng0, w) :: post) = true) :
    contribDS rng0 aspD aspS (pre ++ (rng0, w) :: post) =
      (if aspD then [w.depth.last] else []) ++ (if aspS then [w.stencil.last] else []) := by
  unfold WFp at hwf
  rw [show rangesOf (pre ++ (rng0, w) :: post) = rangesOf pre ++ rng0 :: rangesOf post by
    simp [rangesOf]] at hwf
  rcases wfR_mid (rangesOf pre) 0 rng0 (rangesOf post) hwf with ⟨hp, hr, hq⟩
  unfold contribDS
  rw [List.map_append, List.map_cons, List.flatten_append, List.flatten_cons]
  have h1 : (pre.map (fun e =>
      if rng0.1 < e.1.2 ∧ e.1.1 < rng0.2 then
        (if aspD then [e.2.depth.last] else []) ++ (if aspS then [e.2.stencil.last] else [])
      else [])).flatten = [] := by
    rw [List.flatten_eq_nil_iff]
    intro x hx
    rcases List.mem_map.1 hx with ⟨e, he, rfl⟩
    rw [if_neg]
    intro hcontra
    have := hp e.1 (by simpa [rangesOf] using List.mem_map_of_mem (·.1) he)
    omega
  have h2 : (post.map (fun e =>
      if rng0.1 < e.1.2 ∧ e.1.1 < rng0.2 then
        (if aspD then [e.2.depth.last] else []) ++ (if aspS then [e.2.stencil.last] else [])
      else [])).flatten = [] := by
    rw [List.flatten_eq_nil_iff]
    intro x hx
    rcases List.mem_map.1 hx with ⟨e, he, rfl⟩
    rw [if_neg]
    intro hcontra
    have := hq e.1 (by simpa [rangesOf] using List.mem_map_of_mem (·.1) he)
    omega
  rw [h1, h2, if_pos ⟨hr, hr⟩, List.nil_append, List.append_nil]

theorem contrib_depth_only (st : TextureStates) (lv rng0 : Nat × Nat) :
    contrib st ⟨⟨false, true, false⟩, lv, rng0⟩ =
      contribDS rng0 true false st.depth_stencil := by
  unfold contrib
  simp

theorem contrib_stencil_only (st : TextureStates) (lv rng0 : Nat × Nat) :
    contrib st ⟨⟨false, false, true⟩, lv, rng0⟩ =
      contribDS rng0 false true st.depth_stencil := by
  unfold contrib
  simp

theorem query_of_contrib_single (st : TextureStates) (sel : SubresourceRange) (v : Usage)
    (h : contrib st sel = [v]) : query st sel = some v := by
  rw [query_eq_scanAgree, h]
  rfl

/-- C1: in implicit (no-sink) mode, `change` fails exactly at the first
conflicting entry it reaches, for every selector (any aspect set, any
mip-level range).  `change` returns an error if and only if the call reached a
conflicting entry — one inside the selector's layer range whose selected
sub-unit holds a non-empty prior usage different from the target, with the
old/new union intersecting the write class — after a conflict-free prefix:
for a color conflict, some selected levels were fully processed, then within
the failing level's isolated plane the earlier entries took their unions
(no rollback) while the failing entry and its successors keep their old
`last` and the depth/stencil map is untouched; for a depth or stencil
conflict, the color pass completed (when selected), some whole depth/stencil
passes completed, earlier entries of the failing pass took their unions, and
the failing entry keeps the failing sub-unit's old `last` — a stencil
conflict keeping the already-updated depth sub-unit.  In every case nothing
is pushed to a sink, and the error payload is exactly the
`PendingTransition` `old .. new` for that single (aspect, level, layer-range)
slice. -/
theorem change_implicit_conflict (s : TextureStates) (id : Nat) (sel : SubresourceRange)
    (usage : Usage) (st : TextureStates) (out : List PendingTransition)
    (p : PendingTransition) :
    change s id sel usage false = ⟨st, out, some p⟩ ↔
      (out = [] ∧
        ((sel.aspects.color = true ∧ ∃ ls₁ l ls₂ mid pre rng u post,
            levelsList sel.levels = ls₁ ++ l :: ls₂ ∧
            colorLevels id sel.layers usage false ls₁ (growCM s.color_mips sel.levels.2) =
              (mid, [], none) ∧
            isolate (mid.getD l []) sel.layers (TUnit.new usage) = pre ++ (rng, u) :: post ∧
            (∀ e ∈ pre, ¬ failCondC sel.layers usage e) ∧
            (sel.layers.1 ≤ rng.1 ∧ rng.2 ≤ sel.layers.2) ∧
            u.last ≠ usage ∧ u.last ≠ 0 ∧ WRITE_ALL &&& (u.last ||| usage) ≠ 0 ∧
            p = mkPending id l rng ⟨true, false, false⟩ u.last usage ∧
            st = ⟨mid.set l (pre.map (procEntryC sel.layers usage) ++ (rng, u) :: post),
              s.depth_stencil⟩) ∨
         ((sel.aspects.depth = true ∨ sel.aspects.stencil = true) ∧ ∃ cm,
            (if sel.aspects.color = true then
                colorLevels id sel.layers usage false (levelsList sel.levels)
                  (growCM s.color_mips sel.levels.2) = (cm, [], none)
              else cm = s.color_mips) ∧
            ∃ ls₁ l ls₂ m₁ pre rng ds post,
              levelsList sel.levels = ls₁ ++ l :: ls₂ ∧
              dsLevels id sel.layers usage sel.aspects.depth sel.aspects.stencil false ls₁
                s.depth_stencil = (m₁, [], none) ∧
              isolate m₁ sel.layers ⟨TUnit.new usage, TUnit.new usage⟩ =
                pre ++ (rng, ds) :: post ∧
              (∀ e ∈ pre,
                ¬ failCondDS sel.aspects.depth sel.aspects.stencil sel.layers usage e) ∧
              (sel.layers.1 ≤ rng.1 ∧ rng.2 ≤ sel.layers.2) ∧
              ((failCondU sel.aspects.depth usage ds.depth.last ∧
                  p = mkPending id l rng ⟨false, true, false⟩ ds.depth.last usage ∧
                  st = ⟨cm, pre.map (procEntryDS sel.aspects.depth sel.aspects.stencil
                      sel.layers usage) ++ (rng, ds) :: post⟩) ∨
               (¬ failCondU sel.aspects.depth usage ds.depth.last ∧
                  failCondU sel.aspects.stencil usage ds.stencil.last ∧
                  p = mkPending id l rng ⟨false, false, true⟩ ds.stencil.last usage ∧
                  st = ⟨cm, pre.map (procEntryDS sel.aspects.depth sel.aspects.stencil
                      sel.layers usage) ++
                    (rng, ⟨⟨ds.depth.init,
                        unitUpd sel.aspects.depth usage ds.depth.last⟩,
                      ds.stencil⟩) :: post⟩))))) := by
  constructor
  · intro h
    by_cases hc : sel.aspects.color = true
    · rcases hcres : colorLevels id sel.layers usage false (levelsList sel.levels)
          (growCM s.color_mips sel.levels.2) with ⟨cm, co, ce⟩
      have hco : co = [] := by
        have h0 := colorLevels_out_nil id sel.layers usage (levelsList sel.levels)
          (growCM s.color_mips sel.levels.2)
        rw [hcres] at h0
        exact h0
      subst hco
      cases ce with
      | some e =>
        have hch : change s id sel usage false = ⟨⟨cm, s.depth_stencil⟩, [], some e⟩ := by
          unfold change
          simp only [hc, if_true, hcres]
        rw [hch] at h
        simp only [ChangeResult.mk.injEq, Option.some.injEq] at h
        obtain ⟨hst, hout, hep⟩ := h
        obtain ⟨ls₁, l, ls₂, mid, plane, hls, hpfx, hproc, hset⟩ :=
          colorLevels_err_inv id sel.layers usage _ _ _ _ _ hcres
        obtain ⟨pre, rng, u, post, hdec, hpre, hin, hne, hnz, hcf, hp, hplane⟩ :=
          procColor_err_inv id l sel.layers usage _ _ _ _ hproc
        exact ⟨hout.symm, Or.inl ⟨hc, ls₁, l, ls₂, mid, pre, rng, u, post, hls, hpfx, hdec,
          hpre, hin, hne, hnz, hcf, by rw [← hep]; exact hp,
          by rw [← hst, hset, hplane]⟩⟩
      | none =>
        by_cases hds : sel.aspects.depth = true ∨ sel.aspects.stencil = true
        · rcases hdres : dsLevels id sel.layers usage sel.aspects.depth sel.aspects.stencil
              false (levelsList sel.levels) s.depth_stencil with ⟨dm, dout, de⟩
          have hdo : dout = [] := by
            have h0 := dsLevels_out_nil id sel.layers usage sel.aspects.depth
              sel.aspects.stencil (levelsList sel.levels) s.depth_stencil
            rw [hdres] at h0
            exact h0
          subst hdo
          have hch : change s id sel usage false = ⟨⟨cm, dm⟩, [], de⟩ := by
            unfold change
            simp only [hc, if_true, hcres, if_pos hds, hdres]
            rfl
          rw [hch] at h
          cases de with
          | none => exact absurd h (by simp)
          | some e =>
            simp only [ChangeResult.mk.injEq, Option.some.injEq] at h
            obtain ⟨hst, hout, hep⟩ := h
            obtain ⟨ls₁, l, ls₂, m₁, hls, hpfx, hproc⟩ :=
              dsLevels_err_inv id sel.layers usage _ _ _ _ _ _ _ hdres
            obtain ⟨pre, rng, ds, post, hdec, hpre, hin, hvar⟩ :=
              procDS_err_inv id l sel.layers usage _ _ _ _ _ _ hproc
            refine ⟨hout.symm, Or.inr ⟨hds, cm, by rw [if_pos hc],
              ls₁, l, ls₂, m₁, pre, rng, ds, post, hls, hpfx, hdec, hpre, hin, ?_⟩⟩
            rcases hvar with ⟨hfd, hp, hm⟩ | ⟨hokd, hfs, hp, hm⟩
            · exact Or.inl ⟨hfd, by rw [← hep]; exact hp, by rw [← hst, hm]⟩
            · exact Or.inr ⟨hokd, hfs, by rw [← hep]; exact hp, by rw [← hst, hm]⟩
        · have hch : change s id sel usage false = ⟨⟨cm, s.depth_stencil⟩, [], none⟩ := by
            unfold change
            simp only [hc, if_true, hcres, if_neg hds]
          rw [hch] at h
          exact absurd h (by simp)
    · have hc' : sel.aspects.color = false := by
        cases hca : sel.aspects.color
        · rfl
        · exact absurd hca hc
      by_cases hds : sel.aspects.depth = true ∨ sel.aspects.stencil = true
      · rcases hdres : dsLevels id sel.layers usage sel.aspects.depth sel.aspects.stencil
            false (levelsList sel.levels) s.depth_stencil with ⟨dm, dout, de⟩
        have hdo : dout = [] := by
          have h0 := dsLevels_out_nil id sel.layers usage sel.aspects.depth
            sel.aspects.stencil (levelsList sel.levels) s.depth_stencil
          rw [hdres] at h0
          exact h0
        subst hdo
        have hch : change s id sel usage false = ⟨⟨s.color_mips, dm⟩, [], de⟩ := by
          unfold change
          simp only [hc', Bool.false_eq_true, if_false, if_pos hds, hdres]
          rfl
        rw [hch] at h
        cases de with
        | none => exact absurd h (by simp)
        | some e =>
          simp only [ChangeResult.mk.injEq, Option.some.injEq] at h
          obtain ⟨hst, hout, hep⟩ := h
          obtain ⟨ls₁, l, ls₂, m₁, hls, hpfx, hproc⟩ :=
            dsLevels_err_inv id sel.layers usage _ _ _ _ _ _ _ hdres
          obtain ⟨pre, rng, ds, post, hdec, hpre, hin, hvar⟩ :=
            procDS_err_inv id l sel.layers usage _ _ _ _ _ _ hproc
          refine ⟨hout.symm, Or.inr ⟨hds, s.color_mips,
            by rw [if_neg (by simp [hc'])], ls₁, l, ls₂, m₁, pre, rng, ds, post, hls, hpfx,
            hdec, hpre, hin, ?_⟩⟩
          rcases hvar with ⟨hfd, hp, hm⟩ | ⟨hokd, hfs, hp, hm⟩
          · exact Or.inl ⟨hfd, by rw [← hep]; exact hp, by rw [← hst, hm]⟩
          · exact Or.inr ⟨hokd, hfs, by rw [← hep]; exact hp, by rw [← hst, hm]⟩
      · have hch : change s id sel usage false =
            ⟨⟨s.color_mips, s.depth_stencil⟩, [], none⟩ := by
          unfold change
          simp only [hc', Bool.false_eq_true, if_false, if_neg hds]
        rw [hch] at h
        exact absurd h (by simp)
  · rintro ⟨rfl, hcase | hcase⟩
    · obtain ⟨hc, ls₁, l, ls₂, mid, pre, rng, u, post, hls, hpfx, hiso, hpre, hin, hne,
        hnz, hcf, rfl, rfl⟩ := hcase
      have hfail := procColor_fail id l sel.layers usage rng u post hin hne hnz hcf pre hpre
      have hone : colorLevels id sel.layers usage false (l :: ls₂) mid =
          (mid.set l (pre.map (procEntryC sel.layers usage) ++ (rng, u) :: post), [],
            some (mkPending id l rng ⟨true, false, false⟩ u.last usage)) := by
        simp only [colorLevels, hiso, hfail]
        rfl
      have hfull : colorLevels id sel.layers usage false (levelsList sel.levels)
          (growCM s.color_mips sel.levels.2) =
          (mid.set l (pre.map (procEntryC sel.layers usage) ++ (rng, u) :: post), [],
            some (mkPending id l rng ⟨true, false, false⟩ u.last usage)) := by
        rw [hls, colorLevels_append_ok id sel.layers usage false ls₁ (l :: ls₂) _ mid []
          hpfx, hone]
        rfl
      unfold change
      simp only [hc, if_true, hfull]
    · obtain ⟨hds, cm, hcm, ls₁, l, ls₂, m₁, pre, rng, ds, post, hls, hpfx, hiso, hpre,
        hin, hvar⟩ := hcase
      have hdsfull : ∀ fin : PlaneStates DepthStencilState, ∀ pend : PendingTransition,
          procDS id l sel.layers usage sel.aspects.depth sel.aspects.stencil false
            (isolate m₁ sel.layers ⟨TUnit.new usage, TUnit.new usage⟩) =
              (fin, [], some pend) →
          dsLevels id sel.layers usage sel.aspects.depth sel.aspects.stencil false
            (levelsList sel.levels) s.depth_stencil = (fin, [], some pend) := by
        intro fin pend hstep
        rw [hls, dsLevels_append_ok id sel.layers usage sel.aspects.depth
          sel.aspects.stencil false ls₁ (l :: ls₂) _ m₁ [] hpfx]
        have hone : dsLevels id sel.layers usage sel.aspects.depth sel.aspects.stencil
            false (l :: ls₂) m₁ = (fin, [], some pend) := by
          simp only [dsLevels, hstep]
        rw [hone]
        rfl
      rcases hvar with ⟨hfd, rfl, rfl⟩ | ⟨hokd, hfs, rfl, rfl⟩
      · have hstep := procDS_fail_depth id l sel.layers usage sel.aspects.depth
          sel.aspects.stencil rng ds post hin hfd pre hpre
        rw [← hiso] at hstep
        have hfull := hdsfull _ _ hstep
        by_cases hc : sel.aspects.color = true
        · rw [if_pos hc] at hcm
          unfold change
          simp only [hc, if_true, hcm, if_pos hds, hfull]
          rfl
        · have hc' : sel.aspects.color = false := by
            cases hca : sel.aspects.color
            · rfl
            · exact absurd hca hc
          rw [if_neg (by simp [hc'])] at hcm
          subst hcm
          unfold change
          simp only [hc', Bool.false_eq_true, if_false, if_pos hds, hfull]
          rfl
      · have hstep := procDS_fail_stencil id l sel.layers usage sel.aspects.depth
          sel.aspects.stencil rng ds post hin hokd hfs pre hpre
        rw [← hiso] at hstep
        have hfull := hdsfull _ _ hstep
        by_cases hc : sel.aspects.color = true
        · rw [if_pos hc] at hcm
          unfold change
          simp only [hc, if_true, hcm, if_pos hds, hfull]
          rfl
        · have hc' : sel.aspects.color = false := by
            cases hca : sel.aspects.color
            · rfl
            · exact absurd hca hc
          rw [if_neg (by simp [hc'])] at hcm
          subst hcm
          unfold change
          simp only [hc', Bool.false_eq_true, if_false, if_pos hds, hfull]
          rfl

/-- Witness for C1: a second write usage in implicit mode fails with the
transition `16 .. 8` for the (Color, level 0, layers 0..2) slice, pushes
nothing, and leaves the tracker unchanged; obtained by instantiating the
characterization at the concrete call. -/
theorem change_implicit_conflict_witness :
    change ⟨[[((0, 2), ⟨16, 16⟩)]], []⟩ 7 ⟨⟨true, false, false⟩, (0, 1), (0, 2)⟩ 8 false =
      ⟨⟨[[((0, 2), ⟨16, 16⟩)]], []⟩, [],
        some (mkPending 7 0 (0, 2) ⟨true, false, false⟩ 16 8)⟩ :=
  (change_implicit_conflict ⟨[[((0, 2), ⟨16, 16⟩)]], []⟩ 7
      ⟨⟨true, false, false⟩, (0, 1), (0, 2)⟩ 8 ⟨[[((0, 2), ⟨16, 16⟩)]], []⟩ []
      (mkPending 7 0 (0, 2) ⟨true, false, false⟩ 16 8)).mpr
    ⟨rfl, Or.inl ⟨rfl, [], 0, [], [[((0, 2), ⟨16, 16⟩)]], [], (0, 2), ⟨16, 16⟩, [],
      by decide, by decide, by decide, by decide, by decide, by decide, by decide,
      by decide, rfl, by decide⟩⟩

/-- C5: in implicit (no-sink) mode, for every call whose reached entries are
all compatible — old usage empty, equal to the target, or with an old/new
union missing the write class — `change` succeeds with nothing pushed, and
every processed entry accumulates the union: for each selected mip level the
color plane becomes its isolation with each in-range entry's `last` replaced
by `old ||| new` (each such entry is present in the result, and querying
exactly that (Color, level, layer-range) slice reports the union), and for a
selected depth/stencil aspect over a nonempty level range the shared
depth/stencil map becomes its isolation with each in-range entry's selected
sub-units unioned (querying that entry's exact depth or stencil slice
reports the union). -/
theorem change_compatible_union (s : TextureStates) (id : Nat) (sel : SubresourceRange)
    (usage : Usage)
    (hwfC : ∀ i : Nat, WFp (s.color_mips.getD i []) = true)
    (hwfDS : WFp s.depth_stencil = true)
    (hcompatC : ∀ l ∈ levelsList sel.levels,
      ∀ e ∈ isolate (s.color_mips.getD l []) sel.layers (TUnit.new usage),
        ¬ failCondC sel.layers usage e)
    (hcompatDS : sel.aspects.depth = true ∨ sel.aspects.stencil = true →
      ∀ e ∈ isolate s.depth_stencil sel.layers ⟨TUnit.new usage, TUnit.new usage⟩,
        ¬ failCondDS sel.aspects.depth sel.aspects.stencil sel.layers usage e) :
    (change s id sel usage false).err = none ∧
    (change s id sel usage false).out = [] ∧
    (sel.aspects.color = true → ∀ l ∈ levelsList sel.levels,
      (change s id sel usage false).state.color_mips.getD l [] =
        (isolate (s.color_mips.getD l []) sel.layers (TUnit.new usage)).map
          (procEntryC sel.layers usage) ∧
      (∀ (pre : PlaneStates TUnit) (rng : LayerRange) (u : TUnit) (post : PlaneStates TUnit),
        isolate (s.color_mips.getD l []) sel.layers (TUnit.new usage) =
          pre ++ (rng, u) :: post →
        sel.layers.1 ≤ rng.1 → rng.2 ≤ sel.layers.2 →
        (rng, (⟨u.init, u.last ||| usage⟩ : TUnit)) ∈
            (change s id sel usage false).state.color_mips.getD l [] ∧
          query (change s id sel usage false).state
            ⟨⟨true, false, false⟩, (l, l + 1), rng⟩ = some (u.last ||| usage))) ∧
    ((sel.aspects.depth = true ∨ sel.aspects.stencil = true) →
      sel.levels.1 < sel.levels.2 →
      (change s id sel usage false).state.depth_stencil =
        (isolate s.depth_stencil sel.layers ⟨TUnit.new usage, TUnit.new usage⟩).map
          (procEntryDS sel.aspects.depth sel.aspects.stencil sel.layers usage) ∧
      (∀ (pre : PlaneStates DepthStencilState) (rng : LayerRange) (ds : DepthStencilState)
          (post : PlaneStates DepthStencilState),
        isolate s.depth_stencil sel.layers ⟨TUnit.new usage, TUnit.new usage⟩ =
          pre ++ (rng, ds) :: post →
        sel.layers.1 ≤ rng.1 → rng.2 ≤ sel.layers.2 →
        (sel.aspects.depth = true →
          query (change s id sel usage false).state
            ⟨⟨false, true, false⟩, sel.levels, rng⟩ = some (ds.depth.last ||| usage)) ∧
        (sel.aspects.stencil = true →
          query (change s id sel usage false).state
            ⟨⟨false, false, true⟩, sel.levels, rng⟩ = some (ds.stencil.last ||| usage)))) := by
  obtain ⟨M, hM, hMlen, hMget⟩ := colorLevels_all_ok id sel.layers usage
    (levelsList sel.levels) (growCM s.color_mips sel.levels.2)
    (levelsList_pairwise sel.levels)
    (fun l hl => by
      rw [growCM_length]
      have := (mem_levelsList l sel.levels).1 hl
      omega)
    (fun l hl => by
      rw [growCM_getD]
      exact hcompatC l hl)
  have hDS : sel.aspects.depth = true ∨ sel.aspects.stencil = true →
      dsLevels id sel.layers usage sel.aspects.depth sel.aspects.stencil false
        (levelsList sel.levels) s.depth_stencil =
      ((if sel.levels.1 < sel.levels.2 then
          (isolate s.depth_stencil sel.layers ⟨TUnit.new usage, TUnit.new usage⟩).map
            (procEntryDS sel.aspects.depth sel.aspects.stencil sel.layers usage)
        else s.depth_stencil), [], none) := by
    intro hds
    by_cases hlt : sel.levels.1 < sel.levels.2
    · rw [if_pos hlt, levelsList_cons_fst sel.levels hlt]
      exact dsLevels_all_ok id sel.layers usage sel.aspects.depth sel.aspects.stencil
        s.depth_stencil sel.levels.1 _ hwfDS (hcompatDS hds)
    · rw [if_neg hlt, levelsList_nil_of_ge sel.levels hlt]
      rfl
  have hchange : ∃ CM DS, change s id sel usage false = ⟨⟨CM, DS⟩, [], none⟩ ∧
      (sel.aspects.color = true → CM = M) ∧
      ((sel.aspects.depth = true ∨ sel.aspects.stencil = true) →
        sel.levels.1 < sel.levels.2 →
        DS = (isolate s.depth_stencil sel.layers ⟨TUnit.new usage, TUnit.new usage⟩).map
          (procEntryDS sel.aspects.depth sel.aspects.stencil sel.layers usage)) := by
    by_cases hc : sel.aspects.color = true
    · by_cases hds : sel.aspects.depth = true ∨ sel.aspects.stencil = true
      · by_cases hlt : sel.levels.1 < sel.levels.2
        · refine ⟨M, (isolate s.depth_stencil sel.layers
              ⟨TUnit.new usage, TUnit.new usage⟩).map
              (procEntryDS sel.aspects.depth sel.aspects.stencil sel.layers usage),
            ?_, fun _ => rfl, fun _ _ => rfl⟩
          unfold change
          simp only [hc, if_true, hM, if_pos hds, hDS hds, if_pos hlt]
          rfl
        · refine ⟨M, s.depth_stencil, ?_, fun _ => rfl, fun _ h => absurd h hlt⟩
          unfold change
          simp only [hc, if_true, hM, if_pos hds, hDS hds, if_neg hlt]
          rfl
      · refine ⟨M, s.depth_stencil, ?_, fun _ => rfl, fun h _ => absurd h hds⟩
        unfold change
        simp only [hc, if_true, hM, if_neg hds]
    · have hc' : sel.aspects.color = false := by
        cases hca : sel.aspects.color
        · rfl
        · exact absurd hca hc
      by_cases hds : sel.aspects.depth = true ∨ sel.aspects.stencil = true
      · by_cases hlt : sel.levels.1 < sel.levels.2
        · refine ⟨s.color_mips, (isolate s.depth_stencil sel.layers
              ⟨TUnit.new usage, TUnit.new usage⟩).map
              (procEntryDS sel.aspects.depth sel.aspects.stencil sel.layers usage),
            ?_, fun h => absurd h hc, fun _ _ => rfl⟩
          unfold change
          simp only [hc', Bool.false_eq_true, if_false, if_pos hds, hDS hds, if_pos hlt]
          rfl
        · refine ⟨s.color_mips, s.depth_stencil, ?_, fun h => absurd h hc,
            fun _ h => absurd h hlt⟩
          unfold change
          simp only [hc', Bool.false_eq_true, if_false, if_pos hds, hDS hds, if_neg hlt]
          rfl
      · refine ⟨s.color_mips, s.depth_stencil, ?_, fun h => absurd h hc,
          fun h _ => absurd h hds⟩
        unfold change
        simp only [hc', Bool.false_eq_true, if_false, if_neg hds]
  obtain ⟨CM, DS, hch, hCM, hDSeq⟩ := hchange
  refine ⟨by rw [hch], by rw [hch], ?_, ?_⟩
  · intro hc l hl
    have hplane : (change s id sel usage false).state.color_mips.getD l [] =
        (isolate (s.color_mips.getD l []) sel.layers (TUnit.new usage)).map
          (procEntryC sel.layers usage) := by
      rw [hch]
      show CM.getD l [] = _
      rw [hCM hc, hMget l, if_pos hl, growCM_getD]
    refine ⟨hplane, ?_⟩
    intro pre rng u post hdec hr1 hr2
    have hsplit : (change s id sel usage false).state.color_mips.getD l [] =
        pre.map (procEntryC sel.layers usage) ++
          (rng, (⟨u.init, u.last ||| usage⟩ : TUnit)) ::
            post.map (procEntryC sel.layers usage) := by
      rw [hplane, hdec, List.map_append, List.map_cons]
      congr 2
      unfold procEntryC
      rw [if_pos ⟨hr1, hr2⟩]
    have hwfl : WFp ((change s id sel usage false).state.color_mips.getD l []) = true := by
      rw [hplane]
      unfold WFp
      rw [map_procEntryC_ranges]
      exact isolate_wf _ _ _ (hwfC l)
    constructor
    · rw [hsplit]
      exact List.mem_append.2 (Or.inr (List.mem_cons_self _ _))
    · have hlen2 : l + 1 ≤ (change s id sel usage false).state.color_mips.length := by
        rw [hch]
        show l + 1 ≤ CM.length
        rw [hCM hc, hMlen, growCM_length]
        have := (mem_levelsList l sel.levels).1 hl
        omega
      have hwfsplit : WFp (pre.map (procEntryC sel.layers usage) ++
          (rng, (⟨u.init, u.last ||| usage⟩ : TUnit)) ::
            post.map (procEntryC sel.layers usage)) = true := by
        rw [← hsplit]
        exact hwfl
      have hcontrib : contrib (change s id sel usage false).state
          ⟨⟨true, false, false⟩, (l, l + 1), rng⟩ = [u.last ||| usage] := by
        rw [contrib_single_color _ l rng hlen2, hsplit]
        exact contribPlane_singleton rng ⟨u.init, u.last ||| usage⟩ _ _ hwfsplit
      exact query_of_contrib_single _ _ _ hcontrib
  · intro hds hlt
    have hDSeq' := hDSeq hds hlt
    subst hDSeq'
    have hdsstate : (change s id sel usage false).state.depth_stencil =
        (isolate s.depth_stencil sel.layers ⟨TUnit.new usage, TUnit.new usage⟩).map
          (procEntryDS sel.aspects.depth sel.aspects.stencil sel.layers usage) := by
      rw [hch]
    refine ⟨hdsstate, ?_⟩
    intro pre rng ds post hdec hr1 hr2
    have hsplit : (change s id sel usage false).state.depth_stencil =
        pre.map (procEntryDS sel.aspects.depth sel.aspects.stencil sel.layers usage) ++
          (rng, (⟨⟨ds.depth.init, unitUpd sel.aspects.depth usage ds.depth.last⟩,
              ⟨ds.stencil.init, unitUpd sel.aspects.stencil usage ds.stencil.last⟩⟩ :
            DepthStencilState)) ::
            post.map (procEntryDS sel.aspects.depth sel.aspects.stencil sel.layers usage) := by
      rw [hdsstate, hdec, List.map_append, List.map_cons]
      congr 2
      unfold procEntryDS
      rw [if_pos ⟨hr1, hr2⟩]
    have hwfm : WFp ((change s id sel usage false).state.depth_stencil) = true := by
      rw [hdsstate]
      unfold WFp
      rw [map_procEntryDS_ranges]
      exact isolate_wf _ _ _ hwfDS
    have hwfsplit : WFp (pre.map (procEntryDS sel.aspects.depth sel.aspects.stencil
        sel.layers usage) ++
          (rng, (⟨⟨ds.depth.init, unitUpd sel.aspects.depth usage ds.depth.last⟩,
              ⟨ds.stencil.init, unitUpd sel.aspects.stencil usage ds.stencil.last⟩⟩ :
            DepthStencilState)) ::
            post.map (procEntryDS sel.aspects.depth sel.aspects.stencil sel.layers usage)) =
        true := by
      rw [← hsplit]
      exact hwfm
    constructor
    · intro hd
      have hcontrib : contrib (change s id sel usage false).state
          ⟨⟨false, true, false⟩, sel.levels, rng⟩ = [ds.depth.last ||| usage] := by
        rw [contrib_depth_only, hsplit,
          contribDS_singleton rng true false _ _ _ hwfsplit]
        simp [unitUpd, hd]
      exact query_of_contrib_single _ _ _ hcontrib
    · intro hsasp
      have hcontrib : contrib (change s id sel usage false).state
          ⟨⟨false, false, true⟩, sel.levels, rng⟩ = [ds.stencil.last ||| usage] := by
        rw [contrib_stencil_only, hsplit,
          contribDS_singleton rng false true _ _ _ hwfsplit]
        simp [unitUpd, hsasp]
      exact query_of_contrib_single _ _ _ hcontrib

/-- Witness for C5: a color-and-depth change of usage 4 over a tracker holding
usage 1 everywhere succeeds, pushes nothing, and queries of the exact color
slice and the exact depth slice both report the union 5. -/
theorem change_compatible_union_witness :
    (change ⟨[[((0, 2), ⟨1, 1⟩)]], [((0, 2), ⟨⟨1, 1⟩, ⟨1, 1⟩⟩)]⟩ 7
        ⟨⟨true, true, false⟩, (0, 1), (0, 2)⟩ 4 false).err = none ∧
    (change ⟨[[((0, 2), ⟨1, 1⟩)]], [((0, 2), ⟨⟨1, 1⟩, ⟨1, 1⟩⟩)]⟩ 7
        ⟨⟨true, true, false⟩, (0, 1), (0, 2)⟩ 4 false).out = [] ∧
    query (change ⟨[[((0, 2), ⟨1, 1⟩)]], [((0, 2), ⟨⟨1, 1⟩, ⟨1, 1⟩⟩)]⟩ 7
        ⟨⟨true, true, false⟩, (0, 1), (0, 2)⟩ 4 false).state
      ⟨⟨true, false, false⟩, (0, 1), (0, 2)⟩ = some 5 ∧
    query (change ⟨[[((0, 2), ⟨1, 1⟩)]], [((0, 2), ⟨⟨1, 1⟩, ⟨1, 1⟩⟩)]⟩ 7
        ⟨⟨true, true, false⟩, (0, 1), (0, 2)⟩ 4 false).state
      ⟨⟨false, true, false⟩, (0, 1), (0, 2)⟩ = some 5 := by
  have H := change_compatible_union ⟨[[((0, 2), ⟨1, 1⟩)]], [((0, 2), ⟨⟨1, 1⟩, ⟨1, 1⟩⟩)]⟩ 7
    ⟨⟨true, true, false⟩, (0, 1), (0, 2)⟩ 4
    (fun i => by cases i <;> rfl) (by decide) (by decide) (fun _ => by decide)
  exact ⟨H.1, H.2.1,
    ((H.2.2.1 rfl 0 (by decide)).2 [] (0, 2) ⟨1, 1⟩ [] (by decide) (by decide)
      (by decide)).2,
    ((H.2.2.2 (Or.inl rfl) (by decide)).2 [] (0, 2) ⟨⟨1, 1⟩, ⟨1, 1⟩⟩ [] (by decide)
      (by decide) (by decide)).1 rfl⟩
